import Mathlib

/-!
# Encrypted storage: cipher envelope and block container

A shallow embedding of `file_encrypt.go` and `file_block_encrypt.go`.

* Byte slices are `List UInt8`.
* Go `int`/`int64` values are `Int`; the 64-bit wrap-around of `int64`
  arithmetic is made explicit with `wrap64`.
* A Go call ends in one of three ways: it returns a value, it returns an
  `error`, or it panics. `Res` records which.
* AES-CBC, zlib and the random source are external: they are parameters
  (`Primitives`, the `rnd` arguments).
* `os.File` is an in-memory byte sequence with an offset (`OsFile`).
-/

namespace EncryptedStorage

abbrev Bytes := List UInt8

/-- The `error` values the package creates or passes on. -/
inductive GoError where
  | invalidData -- errors.New("Invalid data provided")
  | invalidMethod -- errors.New("Invalid method")
  | keySize -- aes.KeySizeError, from aes.NewCipher
  | randRead -- the error of rand.Read
  | zlibError -- the error of zlib.NewReader or io.ReadAll
  | exceededLimit -- errors.New("Exceeded file size limit")
  | blockOutOfBounds -- errors.New("Block index out of bounds")
  | cursorOutOfBounds -- errors.New("Cursor position out of bounds")
  | eof -- io.EOF
  | invalidArgument -- the error of os.File.Seek / Truncate on a negative argument
  | fileOutOfBounds -- the BoundsError of the pack reader (multi_file_pack.go, from the spec)
  deriving DecidableEq, Repr

/-- Outcome of a Go call: a value, an `error`, or a run-time panic. -/
inductive Res (α : Type) where
  | ok : α → Res α
  | error : GoError → Res α
  | panic : Res α
  deriving DecidableEq, Repr

/-- True when the call returned an `error` (it neither succeeded nor panicked). -/
def Res.isError {α : Type} : Res α → Bool
  | .error _ => true
  | _ => false

/-- Go `make([]byte, n)`. -/
def zeros (n : Nat) : Bytes := List.replicate n 0

/-- Go `copy(dst, src)`: the first `min(len(dst), len(src))` bytes of `dst` are
replaced by those of `src`; the value is `dst` afterwards. -/
def copyBytes (dst src : Bytes) : Bytes := src.take dst.length ++ dst.drop src.length

/-- Go slice expression `data[lo:hi]` (for `lo ≤ hi ≤ len(data)`). -/
def slice (data : Bytes) (lo hi : Nat) : Bytes := (data.take hi).drop lo

/-! ## encoding/binary, big endian -/

/-- Go `binary.BigEndian.PutUint16(b, v)` on a 2-byte `b`. -/
def PutUint16 (v : Nat) : Bytes := [UInt8.ofNat (v / 2 ^ 8), UInt8.ofNat v]

/-- Go `binary.BigEndian.Uint16(b)`. -/
def Uint16 (b : Bytes) : Nat := (b.getD 0 0).toNat * 2 ^ 8 + (b.getD 1 0).toNat

/-- Go `binary.BigEndian.PutUint32(b, v)` on a 4-byte `b`; `v` is taken modulo `2^32`
(the conversion `uint32(len(..))`). -/
def PutUint32 (v : Nat) : Bytes :=
  [UInt8.ofNat (v / 2 ^ 24), UInt8.ofNat (v / 2 ^ 16), UInt8.ofNat (v / 2 ^ 8), UInt8.ofNat v]

/-- Go `binary.BigEndian.Uint32(b)`. -/
def Uint32 (b : Bytes) : Nat :=
  (b.getD 0 0).toNat * 2 ^ 24 + (b.getD 1 0).toNat * 2 ^ 16 + (b.getD 2 0).toNat * 2 ^ 8
    + (b.getD 3 0).toNat

/-- Go `binary.BigEndian.PutUint64(b, v)` on an 8-byte `b`; `v` is taken modulo `2^64`. -/
def PutUint64 (v : Nat) : Bytes :=
  [UInt8.ofNat (v / 2 ^ 56), UInt8.ofNat (v / 2 ^ 48), UInt8.ofNat (v / 2 ^ 40),
   UInt8.ofNat (v / 2 ^ 32), UInt8.ofNat (v / 2 ^ 24), UInt8.ofNat (v / 2 ^ 16),
   UInt8.ofNat (v / 2 ^ 8), UInt8.ofNat v]

/-- Go `binary.BigEndian.Uint64(b)`. -/
def Uint64 (b : Bytes) : Nat :=
  (b.getD 0 0).toNat * 2 ^ 56 + (b.getD 1 0).toNat * 2 ^ 48 + (b.getD 2 0).toNat * 2 ^ 40
    + (b.getD 3 0).toNat * 2 ^ 32 + (b.getD 4 0).toNat * 2 ^ 24 + (b.getD 5 0).toNat * 2 ^ 16
    + (b.getD 6 0).toNat * 2 ^ 8 + (b.getD 7 0).toNat

/-! ## 64-bit integers -/

/-- The values of type `int64`. -/
def InInt64 (x : Int) : Prop := -(2 ^ 63) ≤ x ∧ x < 2 ^ 63

instance (x : Int) : Decidable (InInt64 x) := by unfold InInt64; infer_instance

/-- Go `uint64(x)` for an `int64` value `x`: `x` modulo `2^64`. -/
def toUint64 (x : Int) : Nat := (x % 2 ^ 64).toNat

/-- Go `int64(v)` for a `uint64` value `v`: the two's complement reading of the 64
bits. -/
def ofUint64 (v : Nat) : Int :=
  if 2 ^ 63 ≤ v % 2 ^ 64 then ((v % 2 ^ 64 : Nat) : Int) - 2 ^ 64 else ((v % 2 ^ 64 : Nat) : Int)

/-- The value an `int64` holds after a computation whose exact result is `x`: the
`int64` congruent to `x` modulo `2^64`, that is `(x + 2^63) % 2^64 - 2^63`. -/
def wrap64 (x : Int) : Int := ofUint64 (toUint64 x)

/-! ## External primitives -/

/-- The primitives of `crypto/cipher` and `compress/zlib` the package calls.
`cbcEncrypt key iv src` is the output of `NewCBCEncrypter(block, iv).CryptBlocks` on
`src`, `cbcDecrypt` that of the decrypter; `deflate` is what a `zlib.Writer` leaves in
the buffer, `inflate` what `zlib.NewReader` followed by `io.ReadAll` returns
(`none` when either fails). -/
structure Primitives where
  cbcEncrypt : Bytes → Bytes → Bytes → Bytes
  cbcDecrypt : Bytes → Bytes → Bytes → Bytes
  deflate : Bytes → Bytes
  inflate : Bytes → Option Bytes

/-- Go `aes.NewCipher(key)` succeeds exactly for keys of 16, 24 or 32 bytes
(AES-128, AES-192, AES-256); any other length is a `KeySizeError`. -/
def aesKeyOk (key : Bytes) : Bool :=
  key.length == 16 || key.length == 24 || key.length == 32

/-- The assumptions on the primitives: CBC keeps the length, CBC decryption inverts CBC
encryption on whole blocks under the same valid key and IV, and inflate inverts
deflate. -/
structure Primitives.Lawful (P : Primitives) : Prop where
  enc_length : ∀ key iv src, aesKeyOk key = true → iv.length = 16 → src.length % 16 = 0 →
    (P.cbcEncrypt key iv src).length = src.length
  dec_length : ∀ key iv src, aesKeyOk key = true → iv.length = 16 → src.length % 16 = 0 →
    (P.cbcDecrypt key iv src).length = src.length
  dec_enc : ∀ key iv src, aesKeyOk key = true → iv.length = 16 → src.length % 16 = 0 →
    P.cbcDecrypt key iv (P.cbcEncrypt key iv src) = src
  inflate_deflate : ∀ d, P.inflate (P.deflate d) = some d

/-- Go `mode.CryptBlocks(dst, src)` of a CBC mode whose block transformation is `f`:
panics when `src` is not a whole number of 16-byte blocks or `dst` is shorter than
`src`; otherwise the output is written to the front of `dst`. -/
def CryptBlocks (f : Bytes → Bytes) (dst src : Bytes) : Res Bytes :=
  if src.length % 16 ≠ 0 then .panic
  else if dst.length < src.length then .panic
  else .ok (copyBytes dst (f src))

/-! ## file_encrypt.go -/

def AES256_ZIP : Nat := 1

def AES256_FLAT : Nat := 2

/-- Go `add_padding(cipher_text, blockSize)`, for `blockSize > 0`. -/
def add_padding (cipher_text : Bytes) (blockSize : Nat) : Bytes :=
  let padding := blockSize - cipher_text.length % blockSize
  let pad_text := List.replicate padding (UInt8.ofNat padding)
  cipher_text ++ pad_text

/-- The tail shared by both branches of `EncryptFileContents`, from the header on:
`header` gets the 4-byte length `n` and the IV, `final_data` is padded and encrypted.
`rnd` is what `rand.Read(iv)` does: `none` when it returns an error, `some r` when it
fills the 16-byte `iv` with `r`. -/
def encryptBody (P : Primitives) (rnd : Option Bytes) (result final_data key : Bytes) :
    Res Bytes :=
  let header4 := PutUint32 final_data.length
  let final_data := add_padding final_data 16
  match rnd with
  | none => .error .randRead
  | some r =>
    let iv := copyBytes (zeros 16) r
    let header := header4 ++ iv
    if aesKeyOk key then
      match CryptBlocks (P.cbcEncrypt key iv) (zeros final_data.length) final_data with
      | .ok cipher_text => .ok (result ++ header ++ cipher_text)
      | .error e => .error e
      | .panic => .panic
    else .error .keySize

/-- Go `EncryptFileContents(data, method, key)`. -/
def EncryptFileContents (P : Primitives) (rnd : Option Bytes) (data : Bytes) (method : Nat)
    (key : Bytes) : Res Bytes :=
  if data.length = 0 then .ok []
  else
    let result := PutUint16 method
    if method = AES256_ZIP then
      encryptBody P rnd result (P.deflate data) key
    else if method = AES256_FLAT then
      encryptBody P rnd result data key
    else .error .invalidMethod

/-- The part of `DecryptFileContents` both branches share: from the length check of
the branch up to the removal of the padding. -/
def decryptBody (P : Primitives) (data key : Bytes) : Res Bytes :=
  if data.length < 23 then .error .invalidData
  else
    let pre_encoded_data_length : Int := (Uint32 (slice data 2 6) : Int)
    let iv := slice data 6 22
    let cipher_text := data.drop 22
    if pre_encoded_data_length < 0 ∨ pre_encoded_data_length > (cipher_text.length : Int) then
      .error .invalidMethod
    else if aesKeyOk key then
      match CryptBlocks (P.cbcDecrypt key iv) (zeros cipher_text.length) cipher_text with
      | .ok plaintext => .ok (plaintext.take pre_encoded_data_length.toNat)
      | .error e => .error e
      | .panic => .panic
    else .error .keySize

/-- Go `DecryptFileContents(data, key)`. -/
def DecryptFileContents (P : Primitives) (data key : Bytes) : Res Bytes :=
  if data.length < 2 then
    if data.length = 0 then .ok [] else .error .invalidData
  else
    let method := Uint16 (slice data 0 2)
    if method = AES256_ZIP then
      match decryptBody P data key with
      | .ok plaintext =>
        match P.inflate plaintext with
        | some result => .ok result
        | none => .error .zlibError
      | .error e => .error e
      | .panic => .panic
    else if method = AES256_FLAT then
      decryptBody P data key
    else .error .invalidMethod

/-- The random source as the sequence of the outcomes of its future `rand.Read(iv)`
calls: `none` for a call that returns an error, `some r` for one that fills `iv`. -/
abbrev RandSource := Nat → Option Bytes

/-- The random source after one call. -/
def RandSource.next (rnd : RandSource) : RandSource := fun n => rnd (n + 1)

/-- `EncryptFileContents` drawing from a random source: the first outcome is used, and it
is consumed exactly when the call reaches `rand.Read` (non-empty data, known method). -/
def encryptWith (P : Primitives) (rnd : RandSource) (data : Bytes) (method : Nat)
    (key : Bytes) : Res Bytes × RandSource :=
  (EncryptFileContents P (rnd 0) data method key,
    if data.length = 0 then rnd
    else if method = AES256_ZIP ∨ method = AES256_FLAT then rnd.next else rnd)

/-! ## os.File

An open file is its content and the offset of the handle. The file system sets no
limit of its own on the length, but offsets are `int64`: a negative `Seek` or
`Truncate` argument and a write that would end beyond `2^63 - 1` are errors. A `Read`
returns the bytes available, up to the length of the buffer, and `io.EOF` when none is
left; a zero-length `Read` or `Write` does nothing. -/

structure OsFile where
  content : Bytes
  offset : Nat
  deriving DecidableEq, Repr

/-- Go `f.Seek(offset, 0)`. -/
def OsFile.Seek (f : OsFile) (offset : Int) : Res Unit × OsFile :=
  if offset < 0 then (.error .invalidArgument, f)
  else (.ok (), { f with offset := offset.toNat })

/-- Go `f.Truncate(size)`: the file is cut or extended with zero bytes. -/
def OsFile.Truncate (f : OsFile) (size : Int) : Res Unit × OsFile :=
  if size < 0 then (.error .invalidArgument, f)
  else (.ok (), { f with content := f.content.take size.toNat
                    ++ zeros (size.toNat - f.content.length) })

/-- The content after `b` is written at offset `off` (a gap is filled with zeros). -/
def writeAt (content : Bytes) (off : Nat) (b : Bytes) : Bytes :=
  content.take off ++ zeros (off - content.length) ++ b ++ content.drop (off + b.length)

/-- Go `f.Write(b)`. -/
def OsFile.Write (f : OsFile) (b : Bytes) : Res Unit × OsFile :=
  if b.length = 0 then (.ok (), f)
  else if f.offset + b.length ≥ 2 ^ 63 then (.error .invalidArgument, f)
  else (.ok (), { content := writeAt f.content f.offset b, offset := f.offset + b.length })

/-- Go `f.Read(b)`: the buffer afterwards and the outcome (the number of bytes read). -/
def OsFile.Read (f : OsFile) (b : Bytes) : (Bytes × Res Nat) × OsFile :=
  if b.length = 0 then ((b, .ok 0), f)
  else if f.content.length ≤ f.offset then ((b, .error .eof), f)
  else
    let got := (f.content.drop f.offset).take b.length
    ((copyBytes b got, .ok got.length), { f with offset := f.offset + got.length })

/-! ## file_block_encrypt.go: write stream -/

/-- Go `FileBlockEncryptWriteStream`. -/
structure FileBlockEncryptWriteStream where
  f : OsFile
  file_size : Int
  block_size : Int
  block_count : Int
  key : Bytes
  current_write_index : Int
  current_write_pt : Int
  buf : Bytes

/-- Go `CreateFileBlockEncryptWriteStream`: the file is created empty
(`O_WRONLY|O_CREATE|O_TRUNC`), the other fields are zero. -/
def CreateFileBlockEncryptWriteStream : FileBlockEncryptWriteStream :=
  { f := { content := [], offset := 0 }, file_size := 0, block_size := 0, block_count := 0,
    key := [], current_write_index := 0, current_write_pt := 0, buf := [] }

/-- The loop of `Initialize` that writes the default index entries: `n` times two
8-byte zero values. -/
def writeDefaultEntries : Nat → OsFile → Res Unit × OsFile
  | 0, f => (.ok (), f)
  | n + 1, f =>
    match f.Write (PutUint64 0) with
    | (.ok _, f1) =>
      match f1.Write (PutUint64 0) with
      | (.ok _, f2) => writeDefaultEntries n f2
      | (r, f2) => (r, f2)
    | (r, f1) => (r, f1)

/-- Go `(*FileBlockEncryptWriteStream).Initialize(file_size, block_size, key)`. -/
def FileBlockEncryptWriteStream.Initialize (file : FileBlockEncryptWriteStream)
    (file_size block_size : Int) (key : Bytes) : Res Unit × FileBlockEncryptWriteStream :=
  if block_size = 0 then (.panic, file) -- integer divide by zero
  else
    let blockCount := wrap64 (Int.tdiv file_size block_size)
    let blockCount := if Int.tmod file_size block_size ≠ 0 then wrap64 (blockCount + 1)
      else blockCount
    let file := { file with file_size := file_size, block_count := blockCount,
                            block_size := block_size, key := key }
    match file.f.Truncate (wrap64 (16 + wrap64 (16 * blockCount))) with
    | (.ok _, f1) =>
      match f1.Seek 0 with
      | (.ok _, f2) =>
        match f2.Write (PutUint64 (toUint64 file_size)) with
        | (.ok _, f3) =>
          match f3.Write (PutUint64 (toUint64 block_size)) with
          | (.ok _, f4) =>
            match writeDefaultEntries blockCount.toNat f4 with
            | (.ok _, f5) =>
              (.ok (), { file with f := f5, current_write_index := 0,
                                   current_write_pt := wrap64 (16 + wrap64 (16 * blockCount)),
                                   buf := [] })
            | (r, f5) => (r, { file with f := f5 })
          | (r, f4) => (r, { file with f := f4 })
        | (r, f3) => (r, { file with f := f3 })
      | (r, f2) => (r, { file with f := f2 })
    | (r, f1) => (r, { file with f := f1 })

/-- The code `Write` and `Close` share for one block: encrypt `blockData`, write the
index entry of block `current_write_index`, write the envelope at `current_write_pt`,
advance both. -/
def commitBlock (P : Primitives) (rnd : RandSource) (file : FileBlockEncryptWriteStream)
    (blockData : Bytes) : Res Unit × FileBlockEncryptWriteStream × RandSource :=
  match encryptWith P rnd blockData AES256_ZIP file.key with
  | (.ok content, rnd1) =>
    match file.f.Seek (wrap64 (16 + wrap64 (file.current_write_index * 16))) with
    | (.ok _, f1) =>
      match f1.Write (PutUint64 (toUint64 file.current_write_pt)) with
      | (.ok _, f2) =>
        match f2.Write (PutUint64 content.length) with
        | (.ok _, f3) =>
          match f3.Seek file.current_write_pt with
          | (.ok _, f4) =>
            match f4.Write content with
            | (.ok _, f5) =>
              (.ok (),
                { file with
                  f := f5
                  current_write_index := wrap64 (file.current_write_index + 1)
                  current_write_pt := wrap64 (file.current_write_pt + content.length) },
                rnd1)
            | (r, f5) => (r, { file with f := f5 }, rnd1)
          | (r, f4) => (r, { file with f := f4 }, rnd1)
        | (r, f3) => (r, { file with f := f3 }, rnd1)
      | (r, f2) => (r, { file with f := f2 }, rnd1)
    | (r, f1) => (r, { file with f := f1 }, rnd1)
  | (.error e, rnd1) => (.error e, file, rnd1)
  | (.panic, rnd1) => (.panic, file, rnd1)

/-- The `for` loop of `Write`, at most `fuel` iterations; `none` when the fuel does not
suffice. -/
def writeLoop (P : Primitives) :
    Nat → RandSource → FileBlockEncryptWriteStream →
      Option (Res Unit × FileBlockEncryptWriteStream × RandSource)
  | 0, _, _ => none
  | fuel + 1, rnd, file =>
    if (file.buf.length : Int) ≥ file.block_size then
      if file.current_write_index ≥ file.block_count then
        some (.error .exceededLimit, file, rnd)
      else if file.block_size < 0 then some (.panic, file, rnd) -- slice bounds out of range
      else
        let blockData := file.buf.take file.block_size.toNat
        let file := { file with buf := file.buf.drop file.block_size.toNat }
        match commitBlock P rnd file blockData with
        | (.ok _, file1, rnd1) => writeLoop P fuel rnd1 file1
        | r => some r
    else some (.ok (), file, rnd)

/-- Go `(*FileBlockEncryptWriteStream).Write(data)`. Every completed iteration of the
loop advances `current_write_index`, which the loop compares with `block_count`, so
`block_count - current_write_index + 1` iterations are enough. -/
def FileBlockEncryptWriteStream.Write (P : Primitives) (rnd : RandSource)
    (file : FileBlockEncryptWriteStream) (data : Bytes) :
    Option (Res Unit × FileBlockEncryptWriteStream × RandSource) :=
  if file.current_write_index ≥ file.block_count then some (.error .exceededLimit, file, rnd)
  else
    let file := { file with buf := file.buf ++ data }
    writeLoop P ((file.block_count - file.current_write_index).toNat + 1) rnd file

/-- Go `(*FileBlockEncryptWriteStream).Close()`. Closing the handle itself is not
modelled: nothing is done with the stream afterwards. -/
def FileBlockEncryptWriteStream.Close (P : Primitives) (rnd : RandSource)
    (file : FileBlockEncryptWriteStream) :
    Res Unit × FileBlockEncryptWriteStream × RandSource :=
  if file.buf.length > 0 then
    if file.current_write_index ≥ file.block_count then (.error .exceededLimit, file, rnd)
    else commitBlock P rnd file file.buf
  else (.ok (), file, rnd)

/-! ## file_block_encrypt.go: read stream -/

/-- Go `FileBlockEncryptReadStream`. -/
structure FileBlockEncryptReadStream where
  f : OsFile
  file_size : Int
  block_size : Int
  block_count : Int
  key : Bytes
  cur_pos : Int
  cur_block : Int
  cur_block_data : Bytes

/-- Go `CreateFileBlockEncryptReadStream(file, key, perm)`, from the moment the file is
open: `f` is the handle `os.OpenFile` returned. -/
def CreateFileBlockEncryptReadStream (f : OsFile) (key : Bytes) :
    Res FileBlockEncryptReadStream :=
  match f.Read (zeros 8) with
  | ((b, .ok _), f1) =>
    let file_size := ofUint64 (Uint64 b)
    match f1.Read b with
    | ((b, .ok _), f2) =>
      let block_size := ofUint64 (Uint64 b)
      if block_size = 0 then .panic -- integer divide by zero
      else
        let block_count := wrap64 (Int.tdiv file_size block_size)
        let block_count := if Int.tmod file_size block_size ≠ 0 then wrap64 (block_count + 1)
          else block_count
        .ok { f := f2, file_size := file_size, block_size := block_size,
              block_count := block_count, key := key, cur_pos := 0, cur_block := -1,
              cur_block_data := [] }
    | ((_, .error e), _) => .error e
    | ((_, .panic), _) => .panic
  | ((_, .error e), _) => .error e
  | ((_, .panic), _) => .panic

/-- Go `(*FileBlockEncryptReadStream).FileSize()`. -/
def FileBlockEncryptReadStream.FileSize (file : FileBlockEncryptReadStream) : Int :=
  file.file_size

/-- Go `(*FileBlockEncryptReadStream).BlockSize()`. -/
def FileBlockEncryptReadStream.BlockSize (file : FileBlockEncryptReadStream) : Int :=
  file.block_size

/-- Go `(*FileBlockEncryptReadStream).BlockCount()`. -/
def FileBlockEncryptReadStream.BlockCount (file : FileBlockEncryptReadStream) : Int :=
  file.block_count

/-- Go `(*FileBlockEncryptReadStream).Cursor()`. -/
def FileBlockEncryptReadStream.Cursor (file : FileBlockEncryptReadStream) : Int :=
  file.cur_pos

/-- Go `(*FileBlockEncryptReadStream).fetch_block(block_num)`. -/
def FileBlockEncryptReadStream.fetch_block (P : Primitives) (file : FileBlockEncryptReadStream)
    (block_num : Int) : Res Unit × FileBlockEncryptReadStream :=
  if block_num < 0 ∨ block_num ≥ file.block_count then (.error .blockOutOfBounds, file)
  else
    match file.f.Seek (wrap64 (16 + wrap64 (block_num * 16))) with
    | (.ok _, f1) =>
      match f1.Read (zeros 8) with
      | ((ptBytes, .ok _), f2) =>
        match f2.Read (zeros 8) with
        | ((lenBytes, .ok _), f3) =>
          let pt := ofUint64 (Uint64 ptBytes)
          match f3.Seek pt with
          | (.ok _, f4) =>
            let l := ofUint64 (Uint64 lenBytes)
            if l < 0 then (.panic, { file with f := f4 }) -- makeslice: len out of range
            else
              match f4.Read (zeros l.toNat) with
              | ((data, .ok _), f5) =>
                match DecryptFileContents P data file.key with
                | .ok data =>
                  (.ok (), { file with f := f5, cur_block := block_num, cur_block_data := data })
                | .error e => (.error e, { file with f := f5 })
                | .panic => (.panic, { file with f := f5 })
              | ((_, .error e), f5) => (.error e, { file with f := f5 })
              | ((_, .panic), f5) => (.panic, { file with f := f5 })
          | (.error e, f4) => (.error e, { file with f := f4 })
          | (.panic, f4) => (.panic, { file with f := f4 })
        | ((_, .error e), f3) => (.error e, { file with f := f3 })
        | ((_, .panic), f3) => (.panic, { file with f := f3 })
      | ((_, .error e), f2) => (.error e, { file with f := f2 })
      | ((_, .panic), f2) => (.panic, { file with f := f2 })
    | (.error e, f1) => (.error e, { file with f := f1 })
    | (.panic, f1) => (.panic, { file with f := f1 })

/-- The `for` loop of `Read`, at most `fuel` iterations (`none` when the fuel does not
suffice): the outcome, the stream and the buffer afterwards. An `error` outcome stands
for the pair `(0, err)`. -/
def readLoop (P : Primitives) :
    Nat → FileBlockEncryptReadStream → Bytes → Int →
      Option (Res Int × FileBlockEncryptReadStream × Bytes)
  | 0, _, _, _ => none
  | fuel + 1, file, buf, filedLength =>
    if filedLength < (buf.length : Int) ∧ file.cur_pos < file.file_size then
      if file.block_size = 0 then some (.panic, file, buf) -- integer divide by zero
      else
        let blockIndex := wrap64 (Int.tdiv file.cur_pos file.block_size)
        let blockOffset := Int.tmod file.cur_pos file.block_size
        let fetched :=
          if blockIndex ≠ file.cur_block then file.fetch_block P blockIndex
          else (.ok (), file)
        match fetched with
        | (.ok _, file) =>
          let blockLen : Int := file.cur_block_data.length
          let bytesToCopy := blockLen - blockOffset
          let bytesCanFit := (buf.length : Int) - filedLength
          let bytesToCopy := if bytesToCopy > bytesCanFit then bytesCanFit else bytesToCopy
          if bytesToCopy < 0 ∨ blockOffset < 0 ∨ filedLength < 0 then
            some (.panic, file, buf) -- slice bounds out of range
          else
            let src := slice file.cur_block_data blockOffset.toNat
              (blockOffset + bytesToCopy).toNat
            let buf := buf.take filedLength.toNat
              ++ copyBytes (slice buf filedLength.toNat (filedLength + bytesToCopy).toNat) src
              ++ buf.drop (filedLength + bytesToCopy).toNat
            readLoop P fuel { file with cur_pos := wrap64 (file.cur_pos + bytesToCopy) } buf
              (filedLength + bytesToCopy)
        | (.error e, file) => some (.error e, file, buf)
        | (.panic, file) => some (.panic, file, buf)
    else some (.ok filedLength, file, buf)

/-- Go `(*FileBlockEncryptReadStream).Read(buf)`, with at most `fuel` iterations of its
loop. -/
def FileBlockEncryptReadStream.Read (P : Primitives) (fuel : Nat)
    (file : FileBlockEncryptReadStream) (buf : Bytes) :
    Option (Res Int × FileBlockEncryptReadStream × Bytes) :=
  if file.cur_pos ≥ file.file_size then some (.error .eof, file, buf)
  else readLoop P fuel file buf 0

/-- Go `(*FileBlockEncryptReadStream).Seek(pos, whence)`: the returned pair and the
stream afterwards. -/
def FileBlockEncryptReadStream.Seek (file : FileBlockEncryptReadStream) (pos : Int)
    (whence : Int) : (Int × Option GoError) × FileBlockEncryptReadStream :=
  let pos :=
    if whence = 1 then wrap64 (file.cur_pos + pos)
    else if whence = 2 then wrap64 (file.file_size - pos)
    else pos
  if pos < 0 ∨ pos > file.file_size then ((file.cur_pos, some .cursorOutOfBounds), file)
  else ((pos, none), { file with cur_pos := pos })

/-! ## A concrete instance of the primitives

A toy cipher and a toy compressor that satisfy `Primitives.Lawful`: they show the
assumptions are consistent and let the definitions be evaluated on examples. -/

/-- Toy primitives: "encryption" adds the first key byte to every byte, "deflate"
puts the byte `120` in front. -/
def toyPrimitives : Primitives where
  cbcEncrypt := fun key _ src => src.map (fun b => b + key.headD 0)
  cbcDecrypt := fun key _ src => src.map (fun b => b - key.headD 0)
  deflate := fun d => 120 :: d
  inflate := fun z =>
    match z with
    | 120 :: d => some d
    | _ => none

/-- A 32-byte key. -/
def key32 : Bytes := List.replicate 32 7

/-- The number of blocks as the format defines it, `ceil(file_size / block_size)`, for
`block_size > 0`: the least `n` with `file_size ≤ n * block_size`. -/
def ceilDiv (file_size block_size : Int) : Int := (file_size + block_size - 1) / block_size

/-- Block `i` of `data` cut in blocks of `block_size` bytes. -/
def blockAt (block_size : Nat) (data : Bytes) (i : Nat) : Bytes :=
  (data.drop (i * block_size)).take block_size

/-- The number of blocks of `data`, `ceil(len(data) / block_size)`. -/
def blockCountOf (block_size : Nat) (data : Bytes) : Nat :=
  (data.length + block_size - 1) / block_size

/-- The length of the envelope of a non-empty block under `AES256_ZIP`: 22 header bytes
and the padded compressed block. -/
def envelopeLength (P : Primitives) (blk : Bytes) : Nat :=
  22 + 16 * ((P.deflate blk).length / 16 + 1)

/-- The total length of the envelopes of the first `k` blocks of `data`. -/
def payloadLength (P : Primitives) (block_size : Nat) (data : Bytes) (k : Nat) : Nat :=
  ((List.range k).map (fun i => envelopeLength P (blockAt block_size data i))).sum

/-- The length of the finished container of `data`: header, index and all envelopes. -/
def containerLength (P : Primitives) (block_size : Nat) (data : Bytes) : Nat :=
  16 + 16 * blockCountOf block_size data
    + payloadLength P block_size data (blockCountOf block_size data)

/-- The index entries of the envelopes `envs` stored back to back from offset `start`:
for each one the start offset and the length, 8 bytes each. -/
def indexBytes (start : Nat) : List Bytes → Bytes
  | [] => []
  | env :: rest =>
    PutUint64 start ++ PutUint64 env.length ++ indexBytes (start + env.length) rest

/-- The container file with the envelopes `envs` committed, out of `block_count`: header,
index entries of the committed blocks, zeroed entries of the others, payload. -/
def containerBytes (file_size block_size : Int) (block_count : Nat) (envs : List Bytes) :
    Bytes :=
  PutUint64 file_size.toNat ++ PutUint64 block_size.toNat
    ++ indexBytes (16 + 16 * block_count) envs
    ++ zeros (16 * (block_count - envs.length)) ++ envs.flatten

/-- The envelope `env` is one `EncryptFileContents` returns for `blk` with `AES256_ZIP`
under `key`, for some outcome of the random source. -/
def IsEnvelopeOf (P : Primitives) (key env blk : Bytes) : Prop :=
  ∃ r, EncryptFileContents P (some r) blk AES256_ZIP key = .ok env

/-- A write stream between two calls, `envs` being the envelopes committed so far: the
fields `Initialize` set, the block counter, the append pointer and the file. -/
structure WriterInv (file_size block_size : Int) (block_count : Nat) (key : Bytes)
    (envs : List Bytes) (w : FileBlockEncryptWriteStream) : Prop where
  file_size_eq : w.file_size = file_size
  block_size_eq : w.block_size = block_size
  block_count_eq : w.block_count = (block_count : Int)
  key_eq : w.key = key
  index_eq : w.current_write_index = (envs.length : Int)
  pt_eq : w.current_write_pt = (w.f.content.length : Int)
  content_eq : w.f.content = containerBytes file_size block_size block_count envs
  count_le : envs.length ≤ block_count

/-- A write stream in the course of writing `data` in blocks of `block_size`: the blocks
before `envs.length` are committed, as the envelopes `envs`. -/
structure WriterProgress (P : Primitives) (key data : Bytes) (block_size : Nat)
    (envs : List Bytes) (w : FileBlockEncryptWriteStream) : Prop where
  inv : WriterInv (data.length : Int) (block_size : Int) (blockCountOf block_size data) key
    envs w
  envelopes : ∀ i, i < envs.length →
    IsEnvelopeOf P key (envs.getD i []) (blockAt block_size data i)
  payload : envs.flatten.length = payloadLength P block_size data envs.length

/-- `Write` for each chunk in turn, up to the first call that does not succeed. -/
def writeAll (P : Primitives) :
    List Bytes → RandSource → FileBlockEncryptWriteStream →
      Option (Res Unit × FileBlockEncryptWriteStream × RandSource)
  | [], rnd, w => some (.ok (), w, rnd)
  | c :: cs, rnd, w =>
    match w.Write P rnd c with
    | some (.ok _, w1, rnd1) => writeAll P cs rnd1 w1
    | r => r


/-- The stream after a sequence of `Seek(pos, whence)` calls, whatever each returns. -/
def seekAll (file : FileBlockEncryptReadStream) :
    List (Int × Int) → FileBlockEncryptReadStream
  | [] => file
  | (pos, whence) :: rest => seekAll (file.Seek pos whence).2 rest

/-- A read stream over a 10-byte file in blocks of 4, cursor at 6, block 1 cached. -/
def sampleReader : FileBlockEncryptReadStream :=
  { f := { content := [], offset := 0 }, file_size := 10, block_size := 4, block_count := 3,
    key := key32, cur_pos := 6, cur_block := 1, cur_block_data := [4, 5, 6, 7] }

/-- A run of the write stream: `Write` for each chunk, then `Close`; each call is made
whatever the previous one returned, except that a panic ends the run. The value lists
the outcome of every call with the stream after it (`none` when the loop of a `Write` is
cut off for lack of fuel). -/
def runWriter (P : Primitives) :
    List Bytes → RandSource → FileBlockEncryptWriteStream →
      Option (List (Res Unit × FileBlockEncryptWriteStream))
  | [], rnd, w => some [((w.Close P rnd).1, (w.Close P rnd).2.1)]
  | c :: cs, rnd, w =>
    match w.Write P rnd c with
    | none => none
    | some (.panic, w1, _) => some [(.panic, w1)]
    | some (r, w1, rnd1) =>
      match runWriter P cs rnd1 w1 with
      | none => none
      | some rest => some ((r, w1) :: rest)

/-- A random source that never fails. -/
def sampleRand : RandSource := fun n => some (List.replicate 16 (UInt8.ofNat n))

/-- A write stream as `Initialize(4, 2, key)` leaves it: two blocks, none committed. -/
def sampleWriter : FileBlockEncryptWriteStream :=
  { f := { content := PutUint64 4 ++ PutUint64 2 ++ zeros 32, offset := 48 }, file_size := 4,
    block_size := 2, block_count := 2, key := key32, current_write_index := 0,
    current_write_pt := 48, buf := [] }

/-! ## The blocks a container file stores -/

/-- The offset of index entry `block_num`, as `fetch_block` computes it. -/
def entryOffset (block_num : Int) : Int := wrap64 (16 + wrap64 (block_num * 16))

/-- What a fresh buffer of `n` bytes holds after `f.Read` at offset `off` of a file with
the content `content`: the bytes the file has from `off` on, at most `n`, then zeros. -/
def readAt (content : Bytes) (off n : Nat) : Bytes :=
  copyBytes (zeros n) ((content.drop off).take n)

/-- The envelope stored at index entry `block_num` of a container file: the
`stored_length` bytes at `start_offset`, both taken from the entry. `none` when the
entry or the envelope cannot be read: the entry is not within the file, a field is
negative as an `int64`, or the envelope starts at or after the end of the file. -/
def storedEnvelope (content : Bytes) (block_num : Int) : Option Bytes :=
  let o := entryOffset block_num
  if o < 0 ∨ content.length ≤ o.toNat + 8 then none
  else
    let pt := ofUint64 (Uint64 (readAt content o.toNat 8))
    let l := ofUint64 (Uint64 (readAt content (o.toNat + 8) 8))
    if pt < 0 ∨ l < 0 then none
    else if l.toNat ≠ 0 ∧ content.length ≤ pt.toNat then none
    else some (readAt content pt.toNat l.toNat)

/-- The plaintext of block `block_num` of a container file: the decryption of the
envelope stored at its index entry (`none` when there is no such envelope or
`DecryptFileContents` does not return data). -/
def storedBlock (P : Primitives) (content key : Bytes) (block_num : Int) : Option Bytes :=
  match storedEnvelope content block_num with
  | some env =>
    match DecryptFileContents P env key with
    | .ok d => some d
    | _ => none
  | none => none

/-- The cache of a read stream is coherent: no block is cached (`cur_block = -1`), or the
cached plaintext is the decryption of the stored block whose number is cached. -/
def CacheCoherent (P : Primitives) (r : FileBlockEncryptReadStream) : Prop :=
  r.cur_block = -1 ∨ storedBlock P r.f.content r.key r.cur_block = some r.cur_block_data

/-- A call on a read stream: `Seek(pos, whence)` or `Read(buf)`, the latter with the
number of loop iterations it is given. -/
inductive ReaderCall where
  | seek (pos whence : Int)
  | read (buf : Bytes) (fuel : Nat)

/-- The stream after a sequence of calls, whatever each returns; `none` when a `Read`
does not return within its fuel. -/
def readerRun (P : Primitives) :
    FileBlockEncryptReadStream → List ReaderCall → Option FileBlockEncryptReadStream
  | r, [] => some r
  | r, .seek pos whence :: rest => readerRun P (r.Seek pos whence).2 rest
  | r, .read buf fuel :: rest =>
    match r.Read P fuel buf with
    | some (_, r2, _) => readerRun P r2 rest
    | none => none

/-- The envelope of `blk` under the toy primitives, the key `key32` and a zero IV. -/
def sampleEnvelope (blk : Bytes) : Bytes :=
  match EncryptFileContents toyPrimitives (some (zeros 16)) blk AES256_ZIP key32 with
  | .ok env => env
  | _ => []

/-- The finished container of the three bytes `1, 2, 3` in blocks of 2. -/
def sampleContainer : Bytes :=
  containerBytes 3 2 2 [sampleEnvelope [1, 2], sampleEnvelope [3]]

/-- A read stream just opened on `sampleContainer`. -/
def containerReader : FileBlockEncryptReadStream :=
  { f := { content := sampleContainer, offset := 16 }, file_size := 3, block_size := 2,
    block_count := 2, key := key32, cur_pos := 0, cur_block := -1, cur_block_data := [] }

/-- A read stream over the container file `content` with the header fields `fs`, `bs` and
the block count `bc`: the fields set when it was opened, a cursor within the file and a
coherent cache. -/
structure ReaderSized (P : Primitives) (content key : Bytes) (fs bs : Nat) (bc : Int)
    (r : FileBlockEncryptReadStream) : Prop where
  content_eq : r.f.content = content
  key_eq : r.key = key
  file_size_eq : r.file_size = (fs : Int)
  block_size_eq : r.block_size = (bs : Int)
  block_count_eq : r.block_count = bc
  pos_nonneg : 0 ≤ r.cur_pos
  pos_le : r.cur_pos ≤ (fs : Int)
  cache : CacheCoherent P r

/-! ## The write stream between calls -/

/-- A write stream once the bytes `written` have been passed to `Write`: the committed
envelopes `envs` are those of the first blocks of `written`, cut every `bs` bytes without
regard to the chunks, and the buffer holds the bytes after them. -/
structure WriterSliced (P : Primitives) (key : Bytes) (fs : Int) (bs bc : Nat)
    (written : Bytes) (envs : List Bytes) (w : FileBlockEncryptWriteStream) : Prop where
  inv : WriterInv fs (bs : Int) bc key envs w
  envelopes : ∀ i, i < envs.length →
    IsEnvelopeOf P key (envs.getD i []) (blockAt bs written i)
  rest : written.drop (envs.length * bs) = w.buf
  whole : envs.length * bs ≤ written.length
  room : 16 + 16 * bc + envs.flatten.length < 2 ^ 63

/-- The start offset of envelope `i` when the envelopes `envs` are stored back to back
after the index of `bc` entries: `start_0 = 16 + 16 * bc` and
`start_(i+1) = start_i + len_i`. -/
def envelopeStart (bc : Nat) (envs : List Bytes) : Nat → Nat
  | 0 => 16 + 16 * bc
  | i + 1 => envelopeStart bc envs i + (envs.getD i []).length

/-- Index and payload of a write stream are consistent with the committed envelopes
`envs`: entry `i` of a committed block is `(start_i, len_i)`, the envelope lies at
`start_i`, the entries of the other blocks are zero, and the append pointer and the end of
the file are at the start of the next block. -/
structure IndexConsistent (bc : Nat) (envs : List Bytes) (w : FileBlockEncryptWriteStream) :
    Prop where
  committed : w.current_write_index = (envs.length : Int)
  count_le : envs.length ≤ bc
  entry : ∀ i, i < envs.length →
    slice w.f.content (16 + 16 * i) (16 + 16 * i + 16)
      = PutUint64 (envelopeStart bc envs i) ++ PutUint64 (envs.getD i []).length
  envelope : ∀ i, i < envs.length →
    slice w.f.content (envelopeStart bc envs i) (envelopeStart bc envs (i + 1))
      = envs.getD i []
  blank : ∀ i, envs.length ≤ i → i < bc →
    slice w.f.content (16 + 16 * i) (16 + 16 * i + 16) = zeros 16
  pointer : w.current_write_pt = (envelopeStart bc envs envs.length : Int)
  file_end : w.f.content.length = envelopeStart bc envs envs.length

/-- A container of four bytes in blocks of 2 whose second index entry points at two bytes
that are no envelope (the method tag 9 is unknown). -/
def corruptContainer : Bytes :=
  containerBytes 4 2 2 [sampleEnvelope [1, 2], [0, 9]]

/-! ## multi_file_pack.go

The file is not among the sources, only its test is: the pack container is modelled from
the specification, on the same `OsFile` as the block container. -/

/-- Modelled from the spec: the pack writer of `multi_file_pack.go`, whose source is
missing. The stream holds the file handle, the `file_count` of the header, the number of
`PutFile` calls so far and the append pointer. -/
structure MultiFilePackWriteStream where
  f : OsFile
  file_count : Nat
  current_write_index : Nat
  current_write_pt : Nat

/-- Modelled from the spec: `CreateMultiFilePackWriteStream`, missing from the sources;
the file is created empty, as for the block container. -/
def CreateMultiFilePackWriteStream : MultiFilePackWriteStream :=
  { f := { content := [], offset := 0 }, file_count := 0, current_write_index := 0,
    current_write_pt := 0 }

/-- Modelled from the spec: `Initialize(file_count)` of the missing pack writer, which
"resizes/truncates to `8 + 16·file_count`; writes the count header and zeroed index;
resets the append pointer to end-of-index". -/
def MultiFilePackWriteStream.Initialize (file : MultiFilePackWriteStream) (file_count : Nat) :
    Res Unit × MultiFilePackWriteStream :=
  match file.f.Truncate ((8 + 16 * file_count : Nat) : Int) with
  | (.ok _, f1) =>
    match f1.Seek 0 with
    | (.ok _, f2) =>
      match f2.Write (PutUint64 file_count) with
      | (.ok _, f3) =>
        match f3.Write (zeros (16 * file_count)) with
        | (.ok _, f4) =>
          (.ok (), { f := f4, file_count := file_count, current_write_index := 0,
                     current_write_pt := 8 + 16 * file_count })
        | (r, f4) => (r, { file with f := f4 })
      | (r, f3) => (r, { file with f := f3 })
    | (r, f2) => (r, { file with f := f2 })
  | (r, f1) => (r, { file with f := f1 })

/-- Modelled from the spec: `PutFile(data)` of the missing pack writer: "call number i
writes `data` verbatim at the current append pointer, records index entry i as
`(append_pointer, len(data))`, advances the append pointer. Calling beyond `file_count`
times fails with CapacityError". -/
def MultiFilePackWriteStream.PutFile (file : MultiFilePackWriteStream) (data : Bytes) :
    Res Unit × MultiFilePackWriteStream :=
  if file.current_write_index ≥ file.file_count then (.error .exceededLimit, file)
  else
    match file.f.Seek (file.current_write_pt : Int) with
    | (.ok _, f1) =>
      match f1.Write data with
      | (.ok _, f2) =>
        match f2.Seek ((8 + 16 * file.current_write_index : Nat) : Int) with
        | (.ok _, f3) =>
          match f3.Write (PutUint64 file.current_write_pt) with
          | (.ok _, f4) =>
            match f4.Write (PutUint64 data.length) with
            | (.ok _, f5) =>
              (.ok (), { file with
                         f := f5
                         current_write_index := file.current_write_index + 1
                         current_write_pt := file.current_write_pt + data.length })
            | (r, f5) => (r, { file with f := f5 })
          | (r, f4) => (r, { file with f := f4 })
        | (r, f3) => (r, { file with f := f3 })
      | (r, f2) => (r, { file with f := f2 })
    | (r, f1) => (r, { file with f := f1 })

/-- Modelled from the spec: `Close()` of the missing pack writer: it "releases the
handle; no implicit flush is needed". -/
def MultiFilePackWriteStream.Close (file : MultiFilePackWriteStream) :
    Res Unit × MultiFilePackWriteStream :=
  (.ok (), file)

/-- Modelled from the spec: the pack reader of `multi_file_pack.go`, whose source is
missing: the file handle and the `file_count` read from the header. -/
structure MultiFilePackReadStream where
  f : OsFile
  file_count : Nat

/-- Modelled from the spec: `CreateMultiFilePackReadStream`, missing from the sources,
from the moment the file is open: the 8-byte header is read. -/
def CreateMultiFilePackReadStream (f : OsFile) : Res MultiFilePackReadStream :=
  match f.Read (zeros 8) with
  | ((b, .ok _), f1) => .ok { f := f1, file_count := Uint64 b }
  | ((_, .error e), _) => .error e
  | ((_, .panic), _) => .panic

/-- Modelled from the spec: `FileCount()` of the missing pack reader: it "returns the
header's `file_count`". -/
def MultiFilePackReadStream.FileCount (file : MultiFilePackReadStream) : Nat :=
  file.file_count

/-- Modelled from the spec: `GetFile(index)` of the missing pack reader: it
"bounds-checks `0 ≤ index < file_count` (else BoundsError); reads the index entry; seeks
and reads exactly `stored_length` bytes; returns them unmodified". -/
def MultiFilePackReadStream.GetFile (file : MultiFilePackReadStream) (index : Int) :
    Res Bytes × MultiFilePackReadStream :=
  if index < 0 ∨ index ≥ (file.file_count : Int) then (.error .fileOutOfBounds, file)
  else
    match file.f.Seek (8 + 16 * index) with
    | (.ok _, f1) =>
      match f1.Read (zeros 8) with
      | ((ptBytes, .ok _), f2) =>
        match f2.Read (zeros 8) with
        | ((lenBytes, .ok _), f3) =>
          match f3.Seek (Uint64 ptBytes : Int) with
          | (.ok _, f4) =>
            match f4.Read (zeros (Uint64 lenBytes)) with
            | ((data, .ok _), f5) => (.ok data, { file with f := f5 })
            | ((_, .error e), f5) => (.error e, { file with f := f5 })
            | ((_, .panic), f5) => (.panic, { file with f := f5 })
          | (.error e, f4) => (.error e, { file with f := f4 })
          | (.panic, f4) => (.panic, { file with f := f4 })
        | ((_, .error e), f3) => (.error e, { file with f := f3 })
        | ((_, .panic), f3) => (.panic, { file with f := f3 })
      | ((_, .error e), f2) => (.error e, { file with f := f2 })
      | ((_, .panic), f2) => (.panic, { file with f := f2 })
    | (.error e, f1) => (.error e, { file with f := f1 })
    | (.panic, f1) => (.panic, { file with f := f1 })

/-- `PutFile` for each file in turn, up to the first call that does not succeed. -/
def putAll : List Bytes → MultiFilePackWriteStream → Res Unit × MultiFilePackWriteStream
  | [], w => (.ok (), w)
  | d :: ds, w =>
    match w.PutFile d with
    | (.ok _, w1) => putAll ds w1
    | r => r

/-- The results of `GetFile` for each index in turn, on the same read stream. -/
def getAll : MultiFilePackReadStream → List Int → List (Res Bytes)
  | _, [] => []
  | r, i :: rest => (r.GetFile i).1 :: getAll (r.GetFile i).2 rest

/-- The pack file with the files `files` put, out of `file_count`: header, index entries
of the files put, zeroed entries of the others, payload. -/
def packBytes (file_count : Nat) (files : List Bytes) : Bytes :=
  PutUint64 file_count ++ indexBytes (8 + 16 * file_count) files
    ++ zeros (16 * (file_count - files.length)) ++ files.flatten

/-- A pack write stream between two calls, `files` being the files put so far. -/
structure PackInv (file_count : Nat) (files : List Bytes) (w : MultiFilePackWriteStream) :
    Prop where
  file_count_eq : w.file_count = file_count
  index_eq : w.current_write_index = files.length
  pt_eq : w.current_write_pt = w.f.content.length
  content_eq : w.f.content = packBytes file_count files
  count_le : files.length ≤ file_count


/-! ## Basic facts about bytes and slices -/

theorem toNat_ofNat_byte (n : Nat) : (UInt8.ofNat n).toNat = n % 256 := rfl

theorem Uint16_PutUint16 (v : Nat) : Uint16 (PutUint16 v) = v % 2 ^ 16 := by
  simp only [Uint16, PutUint16, List.getD_cons_zero, List.getD_cons_succ, toNat_ofNat_byte]
  omega

theorem Uint32_PutUint32 (v : Nat) : Uint32 (PutUint32 v) = v % 2 ^ 32 := by
  simp only [Uint32, PutUint32, List.getD_cons_zero, List.getD_cons_succ, toNat_ofNat_byte]
  omega

theorem Uint64_PutUint64 (v : Nat) : Uint64 (PutUint64 v) = v % 2 ^ 64 := by
  simp only [Uint64, PutUint64, List.getD_cons_zero, List.getD_cons_succ, toNat_ofNat_byte]
  omega

@[simp] theorem length_PutUint16 (v : Nat) : (PutUint16 v).length = 2 := rfl

@[simp] theorem length_PutUint32 (v : Nat) : (PutUint32 v).length = 4 := rfl

@[simp] theorem length_PutUint64 (v : Nat) : (PutUint64 v).length = 8 := rfl

@[simp] theorem length_zeros (n : Nat) : (zeros n).length = n := by
  simp [zeros]

@[simp] theorem length_copyBytes (dst src : Bytes) : (copyBytes dst src).length = dst.length := by
  simp only [copyBytes, List.length_append, List.length_take, List.length_drop]
  omega

theorem copyBytes_eq_of_length (dst src : Bytes) (h : src.length = dst.length) :
    copyBytes dst src = src := by
  unfold copyBytes
  rw [List.take_of_length_le (by omega), List.drop_of_length_le (by omega), List.append_nil]

theorem length_add_padding (d : Bytes) :
    (add_padding d 16).length = 16 * (d.length / 16 + 1) := by
  simp only [add_padding, List.length_append, List.length_replicate]
  omega

theorem add_padding_mod (d : Bytes) : (add_padding d 16).length % 16 = 0 := by
  rw [length_add_padding]
  omega

theorem take_add_padding (d : Bytes) : (add_padding d 16).take d.length = d := by
  simp [add_padding]

theorem slice_zero (data : Bytes) (hi : Nat) : slice data 0 hi = data.take hi := by
  simp [slice]

/-- The fields of an envelope `tag ++ (len4 ++ iv) ++ ct` sit at offsets 0, 2, 6 and 22. -/
theorem envelope_fields (tag len4 iv ct : Bytes) (h2 : tag.length = 2) (h4 : len4.length = 4)
    (h16 : iv.length = 16) :
    slice (tag ++ (len4 ++ iv) ++ ct) 0 2 = tag
      ∧ slice (tag ++ (len4 ++ iv) ++ ct) 2 6 = len4
      ∧ slice (tag ++ (len4 ++ iv) ++ ct) 6 22 = iv
      ∧ (tag ++ (len4 ++ iv) ++ ct).drop 22 = ct := by
  refine ⟨?_, ?_, ?_, ?_⟩
  · have e : tag ++ (len4 ++ iv) ++ ct = tag ++ (len4 ++ iv ++ ct) := by simp
    rw [slice, e, List.take_left' h2, List.drop_zero]
  · have e : tag ++ (len4 ++ iv) ++ ct = (tag ++ len4) ++ (iv ++ ct) := by simp
    rw [slice, e, List.take_left' (by simp [h2, h4]), List.drop_left' h2]
  · have e : tag ++ (len4 ++ iv) ++ ct = (tag ++ len4 ++ iv) ++ ct := by simp
    rw [slice, e, List.take_left' (by simp [h2, h4, h16]), List.drop_left' (by simp [h2, h4])]
  · exact List.drop_left' (by simp [h2, h4, h16])


/-! ## The cipher envelope -/

theorem length_randIv (r : Bytes) : (copyBytes (zeros 16) r).length = 16 := by
  simp

theorem CryptBlocks_ok (f : Bytes → Bytes) (src : Bytes) (h : src.length % 16 = 0) :
    CryptBlocks f (zeros src.length) src = .ok (copyBytes (zeros src.length) (f src)) := by
  simp [CryptBlocks, h]

/-- With a key `aes.NewCipher` accepts and a working random source, the shared tail of
`EncryptFileContents` returns the envelope. -/
theorem encryptBody_ok (P : Primitives) (r result final_data key : Bytes)
    (hk : aesKeyOk key = true) :
    encryptBody P (some r) result final_data key
      = .ok (result ++ (PutUint32 final_data.length ++ copyBytes (zeros 16) r)
          ++ copyBytes (zeros (add_padding final_data 16).length)
              (P.cbcEncrypt key (copyBytes (zeros 16) r) (add_padding final_data 16))) := by
  simp only [encryptBody, hk, if_true]
  rw [CryptBlocks_ok _ _ (add_padding_mod final_data)]

theorem encryptBody_badKey (P : Primitives) (r result final_data key : Bytes)
    (hk : aesKeyOk key = false) :
    encryptBody P (some r) result final_data key = .error .keySize := by
  simp [encryptBody, hk]

/-- On an envelope with a whole number of cipher blocks and a length field within the
ciphertext, the shared part of `DecryptFileContents` returns the first `n` decrypted
bytes. -/
theorem decryptBody_envelope (P : Primitives) (tag len4 iv ct key : Bytes)
    (h2 : tag.length = 2) (h4 : len4.length = 4) (h16 : iv.length = 16)
    (hct : ct.length % 16 = 0) (hpos : 0 < ct.length) (hn : Uint32 len4 ≤ ct.length)
    (hk : aesKeyOk key = true) :
    decryptBody P (tag ++ (len4 ++ iv) ++ ct) key
      = .ok ((copyBytes (zeros ct.length) (P.cbcDecrypt key iv ct)).take (Uint32 len4)) := by
  obtain ⟨-, e2, e3, e4⟩ := envelope_fields tag len4 iv ct h2 h4 h16
  have hlen : ¬ (tag ++ (len4 ++ iv) ++ ct).length < 23 := by
    simp only [List.length_append, h2, h4, h16]
    omega
  have hn2 : ¬ ((Uint32 len4 : Int) < 0 ∨ (Uint32 len4 : Int) > (ct.length : Int)) := by
    omega
  simp only [decryptBody, hlen, if_false, e2, e3, e4, hn2, hk, if_true]
  rw [CryptBlocks_ok _ _ hct]
  simp

theorem aesKeyOk_of_32 (key : Bytes) (h : key.length = 32) : aesKeyOk key = true := by
  simp [aesKeyOk, h]

/-- The envelope `encryptBody` builds for `final_data`. -/
theorem decryptBody_encryptBody (P : Primitives) (hP : P.Lawful) (r tag final_data key : Bytes)
    (h2 : tag.length = 2) (hk : aesKeyOk key = true) (hL : final_data.length < 2 ^ 32) :
    ∃ env, encryptBody P (some r) tag final_data key = .ok env
      ∧ slice env 0 2 = tag ∧ 2 ≤ env.length
      ∧ decryptBody P env key = .ok final_data := by
  have hiv := length_randIv r
  have hpad := add_padding_mod final_data
  have hpl := length_add_padding final_data
  have hct : copyBytes (zeros (add_padding final_data 16).length)
      (P.cbcEncrypt key (copyBytes (zeros 16) r) (add_padding final_data 16))
      = P.cbcEncrypt key (copyBytes (zeros 16) r) (add_padding final_data 16) :=
    copyBytes_eq_of_length _ _ (by rw [hP.enc_length _ _ _ hk hiv hpad, length_zeros])
  have hctl := hP.enc_length key _ _ hk hiv hpad
  refine ⟨_, encryptBody_ok P r tag final_data key hk, ?_, ?_, ?_⟩
  · exact (envelope_fields tag _ _ _ h2 (length_PutUint32 _) hiv).1
  · simp only [List.length_append, h2]
    omega
  · rw [hct, decryptBody_envelope P tag _ _ _ key h2 (length_PutUint32 _) hiv
      (by rw [hctl]; exact hpad) (by rw [hctl, hpl]; omega)
      (by rw [Uint32_PutUint32, hctl, hpl, Nat.mod_eq_of_lt hL]; omega) hk]
    rw [copyBytes_eq_of_length _ _ (by
      rw [hP.dec_length _ _ _ hk hiv (by rw [hctl]; exact hpad), length_zeros])]
    rw [hP.dec_enc _ _ _ hk hiv hpad, Uint32_PutUint32, Nat.mod_eq_of_lt hL,
      take_add_padding]

theorem toyPrimitives_lawful : toyPrimitives.Lawful where
  enc_length := by intros; simp [toyPrimitives]
  dec_length := by intros; simp [toyPrimitives]
  dec_enc := by
    intro key iv src _ _ _
    simp [toyPrimitives, Function.comp_def]
  inflate_deflate := by intro d; rfl

/-- C1. Codec round trip: with lawful primitives, a 32-byte key, either method, any
bytes `r` from the random source and a pre-padding length below `2^32`,
`EncryptFileContents` returns an envelope and `DecryptFileContents` of it returns the
data. -/
theorem C1_codec_round_trip (P : Primitives) (hP : P.Lawful) (d key r : Bytes) (method : Nat)
    (hm : method = AES256_ZIP ∨ method = AES256_FLAT) (hk : key.length = 32)
    (hL : (if method = AES256_ZIP then (P.deflate d).length else d.length) < 2 ^ 32) :
    ∃ env, EncryptFileContents P (some r) d method key = .ok env
      ∧ DecryptFileContents P env key = .ok d := by
  have hkey := aesKeyOk_of_32 key hk
  by_cases hd : d.length = 0
  · refine ⟨[], by simp [EncryptFileContents, hd], ?_⟩
    have : d = [] := List.length_eq_zero.mp hd
    simp [DecryptFileContents, this]
  · rcases hm with hm | hm
    · subst hm
      simp only [if_true] at hL
      obtain ⟨env, he, htag, hlen, hdec⟩ :=
        decryptBody_encryptBody P hP r (PutUint16 AES256_ZIP) (P.deflate d) key rfl hkey hL
      refine ⟨env, by simp [EncryptFileContents, hd, he], ?_⟩
      have h1 : ¬ env.length < 2 := by omega
      have h2 : Uint16 (PutUint16 AES256_ZIP) = AES256_ZIP := by decide
      simp only [DecryptFileContents, h1, if_false, htag, h2, if_true, hdec,
        hP.inflate_deflate]
    · subst hm
      have hne : ¬ (AES256_FLAT = AES256_ZIP) := by decide
      simp only [hne, if_false] at hL
      obtain ⟨env, he, htag, hlen, hdec⟩ :=
        decryptBody_encryptBody P hP r (PutUint16 AES256_FLAT) d key rfl hkey hL
      refine ⟨env, by simp [EncryptFileContents, hd, hne, he], ?_⟩
      have h1 : ¬ env.length < 2 := by omega
      have h2 : Uint16 (PutUint16 AES256_FLAT) = AES256_FLAT := by decide
      simp only [DecryptFileContents, h1, if_false, htag, h2, hne, if_true, hdec]

theorem C1_codec_round_trip_witness :
    ∃ env, EncryptFileContents toyPrimitives (some (zeros 16)) [10, 20, 30] AES256_ZIP key32
        = .ok env
      ∧ DecryptFileContents toyPrimitives env key32 = .ok [10, 20, 30] :=
  C1_codec_round_trip toyPrimitives toyPrimitives_lawful [10, 20, 30] key32 (zeros 16)
    AES256_ZIP (Or.inl rfl) (by decide) (by decide)

/-- C3. Empty input is context-free: for every method value, key and state of the
random source `EncryptFileContents` of the empty sequence returns the empty sequence,
and so does `DecryptFileContents` for every key. -/
theorem C3_empty_is_context_free (P : Primitives) (rnd : Option Bytes) (method : Nat)
    (key : Bytes) :
    EncryptFileContents P rnd [] method key = .ok []
      ∧ DecryptFileContents P [] key = .ok [] := by
  constructor <;> rfl


/-- C4. Envelope layout: for non-empty data, a valid method and a 32-byte key the
envelope is the method tag (big-endian u16), the pre-padding length `L` (big-endian
u32), the 16-byte IV that was drawn and the ciphertext, whose length is
`16 * (L / 16 + 1)`; for `AES256_FLAT`, `L = len(data)` and the envelope has
`22 + 16 * (len(data) / 16 + 1)` bytes. -/
theorem C4_envelope_layout (P : Primitives) (data key r : Bytes) (method : Nat)
    (hd : data ≠ []) (hm : method = AES256_ZIP ∨ method = AES256_FLAT)
    (hk : key.length = 32) :
    ∃ (pre iv ct : Bytes),
      EncryptFileContents P (some r) data method key
          = .ok (PutUint16 method ++ (PutUint32 pre.length ++ iv) ++ ct)
        ∧ pre = (if method = AES256_ZIP then P.deflate data else data)
        ∧ Uint16 (PutUint16 method) = method
        ∧ (pre.length < 2 ^ 32 → Uint32 (PutUint32 pre.length) = pre.length)
        ∧ iv = copyBytes (zeros 16) r ∧ iv.length = 16
        ∧ CryptBlocks (P.cbcEncrypt key iv) (zeros (add_padding pre 16).length)
            (add_padding pre 16) = .ok ct
        ∧ ct.length = 16 * (pre.length / 16 + 1)
        ∧ 0 < ct.length ∧ ct.length % 16 = 0
        ∧ (pre.length % 16 = 0 → ct.length = pre.length + 16)
        ∧ (method = AES256_FLAT →
            (PutUint16 method ++ (PutUint32 pre.length ++ iv) ++ ct).length
              = 22 + 16 * (data.length / 16 + 1)) := by
  have hkey := aesKeyOk_of_32 key hk
  have hd0 : ¬ data.length = 0 := fun h => hd (List.length_eq_zero.mp h)
  have hne : ¬ (AES256_FLAT = AES256_ZIP) := by decide
  refine ⟨if method = AES256_ZIP then P.deflate data else data, copyBytes (zeros 16) r,
    copyBytes (zeros (add_padding (if method = AES256_ZIP then P.deflate data else data)
      16).length) (P.cbcEncrypt key (copyBytes (zeros 16) r)
        (add_padding (if method = AES256_ZIP then P.deflate data else data) 16)),
    ?_, rfl, ?_, ?_, rfl, length_randIv r, CryptBlocks_ok _ _ (add_padding_mod _), ?_, ?_, ?_,
    ?_, ?_⟩
  · rcases hm with hm | hm
    · subst hm
      simp only [EncryptFileContents, hd0, if_false, if_true]
      exact encryptBody_ok P r _ _ key hkey
    · subst hm
      simp only [EncryptFileContents, hd0, hne, if_false, if_true]
      exact encryptBody_ok P r _ _ key hkey
  · rcases hm with hm | hm <;> subst hm <;> decide
  · intro h
    rw [Uint32_PutUint32, Nat.mod_eq_of_lt h]
  · rw [length_copyBytes, length_zeros, length_add_padding]
  · rw [length_copyBytes, length_zeros, length_add_padding]
    omega
  · rw [length_copyBytes, length_zeros, length_add_padding]
    omega
  · intro h
    rw [length_copyBytes, length_zeros, length_add_padding]
    omega
  · intro h
    subst h
    simp only [hne, if_false, List.length_append, length_PutUint16, length_PutUint32,
      length_copyBytes, length_zeros, length_add_padding]

theorem C4_envelope_layout_witness :
    ∃ (pre iv ct : Bytes),
      EncryptFileContents toyPrimitives (some (zeros 16)) [10, 20, 30] AES256_FLAT key32
          = .ok (PutUint16 AES256_FLAT ++ (PutUint32 pre.length ++ iv) ++ ct)
        ∧ pre = (if AES256_FLAT = AES256_ZIP then toyPrimitives.deflate [10, 20, 30]
            else [10, 20, 30])
        ∧ Uint16 (PutUint16 AES256_FLAT) = AES256_FLAT
        ∧ (pre.length < 2 ^ 32 → Uint32 (PutUint32 pre.length) = pre.length)
        ∧ iv = copyBytes (zeros 16) (zeros 16) ∧ iv.length = 16
        ∧ CryptBlocks (toyPrimitives.cbcEncrypt key32 iv) (zeros (add_padding pre 16).length)
            (add_padding pre 16) = .ok ct
        ∧ ct.length = 16 * (pre.length / 16 + 1)
        ∧ 0 < ct.length ∧ ct.length % 16 = 0
        ∧ (pre.length % 16 = 0 → ct.length = pre.length + 16)
        ∧ (AES256_FLAT = AES256_FLAT →
            (PutUint16 AES256_FLAT ++ (PutUint32 pre.length ++ iv) ++ ct).length
              = 22 + 16 * (([10, 20, 30] : Bytes).length / 16 + 1)) :=
  C4_envelope_layout toyPrimitives [10, 20, 30] key32 (zeros 16) AES256_FLAT (by decide)
    (Or.inr rfl) (by decide)

/-- C6. `DecryptFileContents` rejects structurally malformed envelopes with an error,
for every key: a 1-byte input; an input of at least 2 bytes whose tag is neither 1 nor
2; an input with a known tag and fewer than 23 bytes; and an input (long enough to hold
the length field) whose `plaintext_length` exceeds the length of the ciphertext part. -/
theorem C6_malformed_envelopes_rejected (P : Primitives) (data key : Bytes) :
    (data.length = 1 → DecryptFileContents P data key = .error .invalidData)
      ∧ (2 ≤ data.length → Uint16 (slice data 0 2) ≠ AES256_ZIP →
          Uint16 (slice data 0 2) ≠ AES256_FLAT →
          DecryptFileContents P data key = .error .invalidMethod)
      ∧ (2 ≤ data.length →
          Uint16 (slice data 0 2) = AES256_ZIP ∨ Uint16 (slice data 0 2) = AES256_FLAT →
          data.length < 23 → DecryptFileContents P data key = .error .invalidData)
      ∧ (6 ≤ data.length → (data.drop 22).length < Uint32 (slice data 2 6) →
          (DecryptFileContents P data key).isError = true) := by
  have hne : ¬ (AES256_FLAT = AES256_ZIP) := by decide
  refine ⟨?_, ?_, ?_, ?_⟩
  · intro h
    simp [DecryptFileContents, h]
  · intro h h1 h2
    have h0 : ¬ data.length < 2 := by omega
    simp [DecryptFileContents, h0, h1, h2]
  · intro h ht h23
    have h0 : ¬ data.length < 2 := by omega
    rcases ht with ht | ht <;>
      simp [DecryptFileContents, h0, ht, hne, decryptBody, h23]
  · intro h hlen
    have h0 : ¬ data.length < 2 := by omega
    have hgt : (Uint32 (slice data 2 6) : Int) < 0
        ∨ (Uint32 (slice data 2 6) : Int) > ((data.drop 22).length : Int) := by
      right
      omega
    have hbody : ∃ e, decryptBody P data key = .error e := by
      unfold decryptBody
      by_cases h23 : data.length < 23
      · exact ⟨.invalidData, by simp only [h23, if_true]⟩
      · exact ⟨.invalidMethod, by simp only [h23, if_false, hgt, if_true]⟩
    obtain ⟨e, he⟩ := hbody
    by_cases hz : Uint16 (slice data 0 2) = AES256_ZIP
    · simp [DecryptFileContents, h0, hz, he, Res.isError]
    · by_cases hf : Uint16 (slice data 0 2) = AES256_FLAT
      · simp [DecryptFileContents, h0, hf, hne, he, Res.isError]
      · simp [DecryptFileContents, h0, hz, hf, Res.isError]

theorem C6_malformed_envelopes_rejected_witness :
    DecryptFileContents toyPrimitives [9] key32 = .error .invalidData
      ∧ DecryptFileContents toyPrimitives [0, 3, 0] key32 = .error .invalidMethod
      ∧ DecryptFileContents toyPrimitives [0, 2, 0, 0, 0, 0] key32 = .error .invalidData
      ∧ (DecryptFileContents toyPrimitives ([0, 2, 0, 0, 0, 17] ++ zeros 32) key32).isError
          = true :=
  ⟨(C6_malformed_envelopes_rejected toyPrimitives [9] key32).1 (by decide),
    (C6_malformed_envelopes_rejected toyPrimitives [0, 3, 0] key32).2.1 (by decide)
      (by decide) (by decide),
    (C6_malformed_envelopes_rejected toyPrimitives [0, 2, 0, 0, 0, 0] key32).2.2.1 (by decide)
      (by decide) (by decide),
    (C6_malformed_envelopes_rejected toyPrimitives ([0, 2, 0, 0, 0, 17] ++ zeros 32)
      key32).2.2.2 (by decide) (by decide)⟩

/-! ## Seek -/

theorem wrap64_eq (x : Int) : wrap64 x = (x + 2 ^ 63) % 2 ^ 64 - 2 ^ 63 := by
  unfold wrap64 ofUint64 toUint64
  split <;> omega

theorem wrap64_of_inInt64 (x : Int) (h : InInt64 x) : wrap64 x = x := by
  unfold InInt64 at h
  rw [wrap64_eq]
  omega

theorem wrap64_inInt64 (x : Int) : InInt64 (wrap64 x) := by
  unfold InInt64
  rw [wrap64_eq]
  omega

/-- C9. Seek target formula: with `t = pos`, `cursor + pos` or `FileSize() - pos` for
`whence` 0, 1 or 2, whenever `0 ≤ t ≤ FileSize()` the call returns `(t, nil)`, the
cursor becomes `t` and nothing else in the stream (the cached block included) changes. -/
theorem C9_seek_target (file : FileBlockEncryptReadStream) (pos whence t : Int)
    (hfs : InInt64 file.file_size)
    (ht : (whence = 0 ∧ t = pos) ∨ (whence = 1 ∧ t = file.cur_pos + pos)
      ∨ (whence = 2 ∧ t = file.FileSize - pos))
    (h0 : 0 ≤ t) (h1 : t ≤ file.FileSize) :
    file.Seek pos whence = ((t, none), { file with cur_pos := t })
      ∧ (file.Seek pos whence).2.Cursor = t
      ∧ (file.Seek pos whence).2.cur_block = file.cur_block
      ∧ (file.Seek pos whence).2.cur_block_data = file.cur_block_data := by
  have hw : wrap64 t = t := by
    apply wrap64_of_inInt64
    unfold InInt64 at *
    unfold FileBlockEncryptReadStream.FileSize at h1
    omega
  have hS : file.Seek pos whence = ((t, none), { file with cur_pos := t }) := by
    unfold FileBlockEncryptReadStream.FileSize at ht h1
    have hr : ¬ (t < 0 ∨ t > file.file_size) := by omega
    rcases ht with ⟨hwh, rfl⟩ | ⟨hwh, rfl⟩ | ⟨hwh, rfl⟩
    · simp [FileBlockEncryptReadStream.Seek, hwh, hr]
    · simp only [FileBlockEncryptReadStream.Seek, hwh, if_true, hw, hr, if_false]
    · have h21 : ¬ ((2 : Int) = 1) := by decide
      simp only [FileBlockEncryptReadStream.Seek, hwh, h21, if_true, hw, hr, if_false]
  rw [hS]
  exact ⟨rfl, rfl, rfl, rfl⟩

theorem C9_seek_target_witness :
    sampleReader.Seek 3 2 = ((7, none), { sampleReader with cur_pos := 7 })
      ∧ (sampleReader.Seek 3 2).2.Cursor = 7
      ∧ (sampleReader.Seek 3 2).2.cur_block = sampleReader.cur_block
      ∧ (sampleReader.Seek 3 2).2.cur_block_data = sampleReader.cur_block_data :=
  C9_seek_target sampleReader 3 2 7 (by decide) (Or.inr (Or.inr ⟨rfl, by decide⟩)) (by decide)
    (by decide)

theorem Seek_cursor_in_range (file : FileBlockEncryptReadStream) (pos whence : Int)
    (h0 : 0 ≤ file.cur_pos) (h1 : file.cur_pos ≤ file.file_size) :
    0 ≤ (file.Seek pos whence).2.cur_pos
      ∧ (file.Seek pos whence).2.cur_pos ≤ (file.Seek pos whence).2.file_size
      ∧ (file.Seek pos whence).2.file_size = file.file_size := by
  have key : ∀ p : Int,
      0 ≤ (if p < 0 ∨ p > file.file_size then
            ((file.cur_pos, some GoError.cursorOutOfBounds), file)
          else ((p, none), { file with cur_pos := p })).2.cur_pos
        ∧ (if p < 0 ∨ p > file.file_size then
            ((file.cur_pos, some GoError.cursorOutOfBounds), file)
          else ((p, none), { file with cur_pos := p })).2.cur_pos
          ≤ (if p < 0 ∨ p > file.file_size then
            ((file.cur_pos, some GoError.cursorOutOfBounds), file)
          else ((p, none), { file with cur_pos := p })).2.file_size
        ∧ (if p < 0 ∨ p > file.file_size then
            ((file.cur_pos, some GoError.cursorOutOfBounds), file)
          else ((p, none), { file with cur_pos := p })).2.file_size = file.file_size := by
    intro p
    by_cases h : p < 0 ∨ p > file.file_size
    · simp only [h, if_true]
      exact ⟨h0, h1, trivial⟩
    · simp only [h, if_false]
      refine ⟨?_, ?_, trivial⟩ <;> omega
  unfold FileBlockEncryptReadStream.Seek
  exact key _

theorem seekAll_cursor_in_range (ops : List (Int × Int)) :
    ∀ file : FileBlockEncryptReadStream, 0 ≤ file.cur_pos → file.cur_pos ≤ file.file_size →
      0 ≤ (seekAll file ops).cur_pos ∧ (seekAll file ops).cur_pos ≤ file.file_size
        ∧ (seekAll file ops).file_size = file.file_size := by
  induction ops with
  | nil => intro file h0 h1; exact ⟨h0, h1, rfl⟩
  | cons op rest ih =>
    intro file h0 h1
    obtain ⟨pos, whence⟩ := op
    obtain ⟨a, b, c⟩ := Seek_cursor_in_range file pos whence h0 h1
    obtain ⟨a2, b2, c2⟩ := ih (file.Seek pos whence).2 a b
    simp only [seekAll]
    rw [c] at b2 c2
    exact ⟨a2, b2, c2⟩

/-- C10. Seek out of range is rejected atomically: from a stream with
`0 ≤ cursor ≤ FileSize()`, for every `int64` `pos` and `whence` in 0, 1, 2, when the
exact target `t` is outside `[0, FileSize()]` (also when the 64-bit operation wraps) the
call returns the bounds error with the old cursor and the stream is unchanged; and after
any sequence of `Seek` calls the cursor is within `[0, FileSize()]`. -/
theorem C10_seek_out_of_range (file : FileBlockEncryptReadStream)
    (hfs : InInt64 file.file_size) (hc0 : 0 ≤ file.cur_pos)
    (hc1 : file.cur_pos ≤ file.FileSize) :
    (∀ pos whence t : Int, InInt64 pos →
        (whence = 0 ∧ t = pos) ∨ (whence = 1 ∧ t = file.cur_pos + pos)
          ∨ (whence = 2 ∧ t = file.FileSize - pos) →
        t < 0 ∨ file.FileSize < t →
        file.Seek pos whence = ((file.cur_pos, some .cursorOutOfBounds), file))
      ∧ (∀ ops : List (Int × Int),
          0 ≤ (seekAll file ops).Cursor ∧ (seekAll file ops).Cursor ≤ file.FileSize
            ∧ (seekAll file ops).FileSize = file.FileSize) := by
  unfold FileBlockEncryptReadStream.FileSize at *
  refine ⟨?_, fun ops => seekAll_cursor_in_range ops file hc0 hc1⟩
  intro pos whence t hpos ht hout
  unfold InInt64 at hfs hpos
  rcases ht with ⟨hwh, rfl⟩ | ⟨hwh, rfl⟩ | ⟨hwh, rfl⟩
  · have hr : t < 0 ∨ t > file.file_size := by omega
    simp [FileBlockEncryptReadStream.Seek, hwh, hr]
  · have hr : wrap64 (file.cur_pos + pos) < 0
        ∨ wrap64 (file.cur_pos + pos) > file.file_size := by
      rw [wrap64_eq]
      omega
    simp only [FileBlockEncryptReadStream.Seek, hwh, if_true, hr]
  · have h21 : ¬ ((2 : Int) = 1) := by decide
    have hr : wrap64 (file.file_size - pos) < 0
        ∨ wrap64 (file.file_size - pos) > file.file_size := by
      rw [wrap64_eq]
      omega
    simp only [FileBlockEncryptReadStream.Seek, hwh, h21, if_false, if_true, hr]

theorem C10_seek_out_of_range_witness :
    (∀ pos whence t : Int, InInt64 pos →
        (whence = 0 ∧ t = pos) ∨ (whence = 1 ∧ t = sampleReader.cur_pos + pos)
          ∨ (whence = 2 ∧ t = sampleReader.FileSize - pos) →
        t < 0 ∨ sampleReader.FileSize < t →
        sampleReader.Seek pos whence
          = ((sampleReader.cur_pos, some .cursorOutOfBounds), sampleReader))
      ∧ (∀ ops : List (Int × Int),
          0 ≤ (seekAll sampleReader ops).Cursor
            ∧ (seekAll sampleReader ops).Cursor ≤ sampleReader.FileSize
            ∧ (seekAll sampleReader ops).FileSize = sampleReader.FileSize) :=
  C10_seek_out_of_range sampleReader (by decide) (by decide) (by decide)

/-! ## The file model -/

theorem writeAt_split (pre old rest b : Bytes) (h : old.length = b.length) :
    writeAt (pre ++ old ++ rest) pre.length b = pre ++ b ++ rest := by
  unfold writeAt
  have e1 : (pre ++ old ++ rest).take pre.length = pre := by
    rw [List.append_assoc, List.take_left' rfl]
  have e2 : (pre ++ old ++ rest).drop (pre.length + b.length) = rest := by
    apply List.drop_left'
    simp [h]
  have e3 : pre.length - (pre ++ old ++ rest).length = 0 := by
    simp only [List.length_append]
    omega
  rw [e1, e2, e3]
  simp [zeros]

theorem writeAt_end (pre b : Bytes) : writeAt pre pre.length b = pre ++ b := by
  have := writeAt_split pre [] [] b
  unfold writeAt
  simp [zeros]

/-- Overwriting: the handle stands after `pre`, and `old` (as long as `b`) follows. -/
theorem Write_over (f : OsFile) (pre old rest b : Bytes) (hc : f.content = pre ++ old ++ rest)
    (ho : f.offset = pre.length) (hl : old.length = b.length)
    (hfit : pre.length + b.length < 2 ^ 63) :
    f.Write b = (.ok (), { content := pre ++ b ++ rest, offset := pre.length + b.length }) := by
  unfold OsFile.Write
  by_cases hb : b.length = 0
  · have hb2 : b = [] := List.length_eq_zero.mp hb
    have ho2 : old = [] := List.length_eq_zero.mp (by omega)
    subst hb2 ho2
    obtain ⟨c, o⟩ := f
    simp only at hc ho
    simp [hc, ho]
  · have h2 : ¬ (f.offset + b.length ≥ 2 ^ 63) := by omega
    simp only [hb, h2, if_false]
    rw [hc, ho, writeAt_split pre old rest b hl]

/-- Appending: the handle stands at the end of the file. -/
theorem Write_append (f : OsFile) (b : Bytes) (ho : f.offset = f.content.length)
    (hfit : f.content.length + b.length < 2 ^ 63) :
    f.Write b = (.ok (), { content := f.content ++ b, offset := f.content.length + b.length }) := by
  have := Write_over f f.content [] [] b (by simp) ho
  by_cases hb : b.length = 0
  · have hb2 : b = [] := List.length_eq_zero.mp hb
    subst hb2
    obtain ⟨c, o⟩ := f
    simp only at ho
    simp [OsFile.Write, ho]
  · have h2 : ¬ (f.offset + b.length ≥ 2 ^ 63) := by omega
    simp only [OsFile.Write, hb, h2, if_false]
    rw [ho, writeAt_end]

/-- Reading `body`, which follows `pre`, into a buffer of the same length. -/
theorem Read_exact (f : OsFile) (pre body rest buf : Bytes) (hc : f.content = pre ++ body ++ rest)
    (ho : f.offset = pre.length) (hl : buf.length = body.length) :
    f.Read buf = ((body, .ok body.length), { f with offset := pre.length + body.length }) := by
  unfold OsFile.Read
  by_cases hb : buf.length = 0
  · have hb2 : buf = [] := List.length_eq_zero.mp hb
    have ho2 : body = [] := List.length_eq_zero.mp (by omega)
    subst hb2 ho2
    obtain ⟨c, o⟩ := f
    simp only at hc ho
    simp [ho]
  · have h2 : ¬ (f.content.length ≤ f.offset) := by
      rw [hc, ho]
      simp only [List.length_append]
      omega
    have hgot : (f.content.drop f.offset).take buf.length = body := by
      rw [hc, ho, List.append_assoc, List.drop_left' rfl, hl, List.take_left' rfl]
    simp only [hb, h2, if_false, hgot]
    rw [copyBytes_eq_of_length _ _ hl.symm, ho]

theorem Seek_ok (f : OsFile) (offset : Int) (h : 0 ≤ offset) :
    f.Seek offset = (.ok (), { f with offset := offset.toNat }) := by
  have : ¬ offset < 0 := by omega
  simp [OsFile.Seek, this]

theorem writeDefaultEntries_ok (n : Nat) :
    ∀ (f : OsFile) (pre rest : Bytes), f.content = pre ++ rest → f.offset = pre.length →
      16 * n ≤ rest.length → pre.length + 16 * n < 2 ^ 63 →
      writeDefaultEntries n f
        = (.ok (), { content := pre ++ zeros (16 * n) ++ rest.drop (16 * n),
                     offset := pre.length + 16 * n }) := by
  induction n with
  | zero =>
    intro f pre rest hc ho _ _
    obtain ⟨c, o⟩ := f
    simp only at hc ho
    simp [writeDefaultEntries, hc, ho, zeros]
  | succ n ih =>
    intro f pre rest hc ho hlen hfit
    have hz : PutUint64 0 = zeros 8 := by decide
    have hsplit : rest = rest.take 8 ++ (rest.drop 8).take 8 ++ rest.drop 16 := by
      have e : rest.drop 16 = (rest.drop 8).drop 8 := by rw [List.drop_drop]
      rw [e, List.append_assoc, List.take_append_drop, List.take_append_drop]
    have hl1 : (rest.take 8).length = 8 := by
      rw [List.length_take]
      omega
    have hl2 : ((rest.drop 8).take 8).length = 8 := by
      rw [List.length_take, List.length_drop]
      omega
    have w1 := Write_over f pre (rest.take 8) ((rest.drop 8).take 8 ++ rest.drop 16) (zeros 8)
      (by rw [hc]; conv => lhs; rw [hsplit]
          simp only [List.append_assoc]) ho (by simp [hl1]) (by simp; omega)
    have w2 := Write_over
      (OsFile.mk (pre ++ zeros 8 ++ ((rest.drop 8).take 8 ++ rest.drop 16))
        (pre.length + (zeros 8).length)) (pre ++ zeros 8) ((rest.drop 8).take 8)
      (rest.drop 16) (zeros 8) (by simp only [List.append_assoc]) (by simp)
      (by simp [hl2]) (by simp; omega)
    simp only [writeDefaultEntries, hz, w1, w2]
    rw [ih _ (pre ++ zeros 8 ++ zeros 8) (rest.drop 16) rfl (by simp)
      (by rw [List.length_drop]; omega) (by simp; omega)]
    have hz2 : zeros 8 ++ zeros 8 ++ zeros (16 * n) = zeros (16 * (n + 1)) := by
      simp only [zeros, List.append_replicate_replicate]
      congr 1
      omega
    have hd : (rest.drop 16).drop (16 * n) = rest.drop (16 * (n + 1)) := by
      rw [List.drop_drop]
      congr 1
      omega
    rw [hd, ← hz2]
    simp only [List.append_assoc, List.length_append, length_zeros]
    congr 2
    omega

/-! ## Initialize and the header -/

theorem toUint64_of_nonneg (x : Int) (h0 : 0 ≤ x) (h : InInt64 x) : toUint64 x = x.toNat := by
  unfold toUint64
  unfold InInt64 at h
  congr 1
  omega

theorem ofUint64_toNat (x : Int) (h0 : 0 ≤ x) (h : InInt64 x) :
    ofUint64 (Uint64 (PutUint64 x.toNat)) = x := by
  unfold InInt64 at h
  rw [Uint64_PutUint64]
  unfold ofUint64
  split <;> omega

theorem ceilDiv_spec (a b : Int) (ha : 0 ≤ a) (hb : 0 < b) :
    0 ≤ ceilDiv a b ∧ a ≤ ceilDiv a b * b ∧ ceilDiv a b * b < a + b := by
  unfold ceilDiv
  have h1 := Int.ediv_add_emod (a + b - 1) b
  have h2 := Int.emod_nonneg (a + b - 1) (by omega : b ≠ 0)
  have h3 := Int.emod_lt_of_pos (a + b - 1) hb
  have h4 : (a + b - 1) / b * b = b * ((a + b - 1) / b) := by ring
  have h5 : 0 ≤ (a + b - 1) / b := Int.ediv_nonneg (by omega) (by omega)
  refine ⟨h5, ?_, ?_⟩ <;> rw [h4] <;> omega

/-- The block count the code computes (quotient, plus one when there is a remainder) is
`ceilDiv`. -/
theorem blockCount_eq_ceilDiv (a b : Int) (ha : 0 ≤ a) (hb : 0 < b) (ha64 : InInt64 a) :
    (if Int.tmod a b ≠ 0 then wrap64 (wrap64 (Int.tdiv a b) + 1) else wrap64 (Int.tdiv a b))
      = ceilDiv a b := by
  rw [Int.tdiv_eq_ediv ha (by omega), Int.tmod_eq_emod ha (by omega)]
  unfold InInt64 at ha64
  have h1 := Int.ediv_add_emod a b
  have h2 := Int.emod_nonneg a (by omega : b ≠ 0)
  have h3 := Int.emod_lt_of_pos a hb
  have hq0 : 0 ≤ a / b := Int.ediv_nonneg ha (by omega)
  have hqb : 1 * (a / b) ≤ b * (a / b) := Int.mul_le_mul_of_nonneg_right (by omega) hq0
  have hqa : a / b ≤ a := by omega
  have hw : wrap64 (a / b) = a / b := wrap64_of_inInt64 _ (by unfold InInt64; omega)
  obtain ⟨c0, c1, c2⟩ := ceilDiv_spec a b ha hb
  rw [hw]
  by_cases hr : a % b = 0
  · have hn : ¬ (a % b ≠ 0) := by omega
    simp only [hn, if_false]
    -- a = b * q, so q is the ceiling
    have e1 : b * (a / b) = a := by omega
    have : (ceilDiv a b - a / b) * b = ceilDiv a b * b - b * (a / b) := by ring
    have hlt : (ceilDiv a b - a / b) * b < 1 * b := by omega
    have hge : -1 * b < (ceilDiv a b - a / b) * b := by omega
    have u1 : ceilDiv a b - a / b < 1 := lt_of_mul_lt_mul_right hlt (by omega)
    have u2 : -1 < ceilDiv a b - a / b := lt_of_mul_lt_mul_right hge (by omega)
    omega
  · simp only [ne_eq, hr, not_false_eq_true, if_true]
    have hw2 : wrap64 (a / b + 1) = a / b + 1 :=
      wrap64_of_inInt64 _ (by unfold InInt64; omega)
    rw [hw2]
    have : (ceilDiv a b - (a / b + 1)) * b = ceilDiv a b * b - b * (a / b) - b := by ring
    have hlt : (ceilDiv a b - (a / b + 1)) * b < 1 * b := by omega
    have hge : -1 * b < (ceilDiv a b - (a / b + 1)) * b := by omega
    have u1 : ceilDiv a b - (a / b + 1) < 1 := lt_of_mul_lt_mul_right hlt (by omega)
    have u2 : -1 < ceilDiv a b - (a / b + 1) := lt_of_mul_lt_mul_right hge (by omega)
    omega

/-- The header and the zeroed index `Initialize` writes. -/
theorem Initialize_ok (file : FileBlockEncryptWriteStream) (file_size block_size : Int)
    (key : Bytes) (n : Nat) (hfs : 0 ≤ file_size) (hbs : 0 < block_size)
    (hfs64 : InInt64 file_size) (hbs64 : InInt64 block_size)
    (hn : ceilDiv file_size block_size = (n : Int)) (hfit : 16 + 16 * n < 2 ^ 63) :
    file.Initialize file_size block_size key
      = (.ok (),
          { f := OsFile.mk (PutUint64 file_size.toNat ++ PutUint64 block_size.toNat
                  ++ zeros (16 * n)) (16 + 16 * n),
            file_size := file_size, block_size := block_size, block_count := (n : Int),
            key := key, current_write_index := 0, current_write_pt := ((16 + 16 * n : Nat) : Int),
            buf := [] }) := by
  have hb0 : ¬ block_size = 0 := by omega
  have hbc := blockCount_eq_ceilDiv file_size block_size hfs (by omega) hfs64
  rw [hn] at hbc
  have hw1 : wrap64 (16 * (n : Int)) = 16 * (n : Int) :=
    wrap64_of_inInt64 _ (by unfold InInt64; omega)
  have hw2 : wrap64 (16 + 16 * (n : Int)) = ((16 + 16 * n : Nat) : Int) := by
    rw [wrap64_of_inInt64 _ (by unfold InInt64; omega)]
    push_cast
    rfl
  -- the file after Truncate
  obtain ⟨c1, hc1, hlen1⟩ : ∃ c1 : Bytes,
      c1 = file.f.content.take (16 + 16 * n) ++ zeros (16 + 16 * n - file.f.content.length)
        ∧ c1.length = 16 + 16 * n := by
    refine ⟨_, rfl, ?_⟩
    simp only [List.length_append, List.length_take, length_zeros]
    omega
  have hT : file.f.Truncate ((16 + 16 * n : Nat) : Int)
      = (.ok (), { file.f with content := c1 }) := by
    have : ¬ (((16 + 16 * n : Nat) : Int) < 0) := by omega
    simp only [OsFile.Truncate, this, if_false, Int.toNat_ofNat, hc1]
  have hS : ({ file.f with content := c1 } : OsFile).Seek 0 = (.ok (), OsFile.mk c1 0) := by
    simp [OsFile.Seek]
  have hsplit : c1 = [] ++ c1.take 8 ++ ((c1.drop 8).take 8 ++ c1.drop 16) := by
    have e : c1.drop 16 = (c1.drop 8).drop 8 := by rw [List.drop_drop]
    rw [e, List.nil_append, List.take_append_drop, List.take_append_drop]
  have hW1 : (OsFile.mk c1 0).Write (PutUint64 (toUint64 file_size))
      = (.ok (), OsFile.mk (PutUint64 file_size.toNat ++ ((c1.drop 8).take 8 ++ c1.drop 16)) 8) := by
    rw [toUint64_of_nonneg _ hfs hfs64]
    have := Write_over (OsFile.mk c1 0) [] (c1.take 8) ((c1.drop 8).take 8 ++ c1.drop 16)
      (PutUint64 file_size.toNat) hsplit rfl
      (by rw [List.length_take, length_PutUint64]; omega) (by simp)
    simpa using this
  have hW2 : (OsFile.mk (PutUint64 file_size.toNat ++ ((c1.drop 8).take 8 ++ c1.drop 16)) 8).Write
        (PutUint64 (toUint64 block_size))
      = (.ok (), OsFile.mk (PutUint64 file_size.toNat ++ PutUint64 block_size.toNat
          ++ c1.drop 16) 16) := by
    rw [toUint64_of_nonneg _ (by omega) hbs64]
    have := Write_over
      (OsFile.mk (PutUint64 file_size.toNat ++ ((c1.drop 8).take 8 ++ c1.drop 16)) 8)
      (PutUint64 file_size.toNat) ((c1.drop 8).take 8) (c1.drop 16)
      (PutUint64 block_size.toNat) (by simp only [List.append_assoc]) rfl
      (by rw [List.length_take, List.length_drop, length_PutUint64]; omega) (by simp)
    simpa using this
  have hE := writeDefaultEntries_ok n
    (OsFile.mk (PutUint64 file_size.toNat ++ PutUint64 block_size.toNat ++ c1.drop 16) 16)
    (PutUint64 file_size.toNat ++ PutUint64 block_size.toNat) (c1.drop 16) rfl (by simp)
    (by rw [List.length_drop]; omega) (by simp; omega)
  have hdrop : (c1.drop 16).drop (16 * n) = [] := by
    apply List.drop_of_length_le
    rw [List.length_drop]
    omega
  rw [hdrop, List.append_nil] at hE
  have hlen : (PutUint64 file_size.toNat ++ PutUint64 block_size.toNat).length + 16 * n
      = 16 + 16 * n := by simp
  rw [hlen] at hE
  simp only [FileBlockEncryptWriteStream.Initialize, hb0, if_false, hbc, hw1, hw2, hT, hS, hW1,
    hW2, Int.toNat_ofNat, hE]

/-- Opening a read stream on a file that starts with the header of `file_size` and
`block_size`. -/
theorem CreateFileBlockEncryptReadStream_ok (rest key : Bytes) (file_size block_size : Int)
    (hfs : 0 ≤ file_size) (hbs : 0 < block_size) (hfs64 : InInt64 file_size)
    (hbs64 : InInt64 block_size) :
    CreateFileBlockEncryptReadStream
        (OsFile.mk (PutUint64 file_size.toNat ++ PutUint64 block_size.toNat ++ rest) 0) key
      = .ok { f := OsFile.mk (PutUint64 file_size.toNat ++ PutUint64 block_size.toNat ++ rest) 16,
              file_size := file_size, block_size := block_size,
              block_count := ceilDiv file_size block_size, key := key, cur_pos := 0,
              cur_block := -1, cur_block_data := [] } := by
  have hb0 : ¬ block_size = 0 := by omega
  have hbc := blockCount_eq_ceilDiv file_size block_size hfs (by omega) hfs64
  have hR1 := Read_exact
    (OsFile.mk (PutUint64 file_size.toNat ++ PutUint64 block_size.toNat ++ rest) 0) []
    (PutUint64 file_size.toNat) (PutUint64 block_size.toNat ++ rest) (zeros 8)
    (by simp only [List.nil_append, List.append_assoc]) rfl (by simp)
  have hR2 := Read_exact
    (OsFile.mk (PutUint64 file_size.toNat ++ PutUint64 block_size.toNat ++ rest) 8)
    (PutUint64 file_size.toNat) (PutUint64 block_size.toNat) rest (PutUint64 file_size.toNat)
    rfl rfl (by simp)
  simp only [List.length_nil, Nat.zero_add, length_PutUint64] at hR1 hR2
  simp only [CreateFileBlockEncryptReadStream, hR1, hR2, ofUint64_toNat _ hfs hfs64,
    ofUint64_toNat _ (le_of_lt hbs) hbs64, hb0, if_false, hbc]

/-- C7, as stated, fails: for `file_size = 2^59 - 1` and `block_size = 1` the length
`16 + 16 * block_count` is `2^63`, which wraps to a negative `int64`; `Truncate` rejects
it, `Initialize` returns its error, and the file is left empty. -/
theorem C7_index_length_overflow :
    (CreateFileBlockEncryptWriteStream.Initialize (2 ^ 59 - 1) 1 key32).1
        = .error .invalidArgument
      ∧ (CreateFileBlockEncryptWriteStream.Initialize (2 ^ 59 - 1) 1 key32).2.block_count
        = 2 ^ 59 - 1
      ∧ (CreateFileBlockEncryptWriteStream.Initialize (2 ^ 59 - 1) 1 key32).2.f.content.length
        = 0 := by
  decide

/-- C7, amended. For `file_size ≥ 0` and `block_size > 0` such that
`16 + 16 * ceil(file_size / block_size)` is below `2^63`, `Initialize` succeeds, sets
`block_count` to `ceil(file_size / block_size)` and leaves a file of
`16 + 16 * block_count` bytes; a read stream opened on it reports the same file size,
block size and block count. -/
theorem C7_header_round_trip (file : FileBlockEncryptWriteStream) (file_size block_size : Int)
    (key key2 : Bytes) (hfs : 0 ≤ file_size) (hbs : 0 < block_size)
    (hfs64 : InInt64 file_size) (hbs64 : InInt64 block_size)
    (hfit : 16 + 16 * ceilDiv file_size block_size < 2 ^ 63) :
    ∃ w, file.Initialize file_size block_size key = (.ok (), w)
      ∧ w.block_count = ceilDiv file_size block_size
      ∧ file_size ≤ w.block_count * block_size
      ∧ w.block_count * block_size < file_size + block_size
      ∧ (w.f.content.length : Int) = 16 + 16 * w.block_count
      ∧ ∃ r, CreateFileBlockEncryptReadStream (OsFile.mk w.f.content 0) key2 = .ok r
          ∧ r.FileSize = file_size ∧ r.BlockSize = block_size
          ∧ r.BlockCount = w.block_count := by
  obtain ⟨c0, c1, c2⟩ := ceilDiv_spec file_size block_size hfs hbs
  obtain ⟨n, hn⟩ := Int.eq_ofNat_of_zero_le c0
  rw [hn] at hfit c1 c2
  refine ⟨_, Initialize_ok file file_size block_size key n hfs hbs hfs64 hbs64 hn
    (by omega), hn.symm, c1, c2, ?_, ?_⟩
  · simp only [List.length_append, length_PutUint64, length_zeros]
    omega
  · refine ⟨_, CreateFileBlockEncryptReadStream_ok _ key2 file_size block_size hfs hbs hfs64
      hbs64, rfl, rfl, ?_⟩
    simp [FileBlockEncryptReadStream.BlockCount, hn]

theorem C7_header_round_trip_witness :
    ceilDiv (48 * 1024 * 1024) (5 * 1024 * 1024) = 10
      ∧ ∃ w, CreateFileBlockEncryptWriteStream.Initialize (48 * 1024 * 1024) (5 * 1024 * 1024)
            key32 = (.ok (), w)
          ∧ w.block_count = ceilDiv (48 * 1024 * 1024) (5 * 1024 * 1024)
          ∧ (48 * 1024 * 1024 : Int) ≤ w.block_count * (5 * 1024 * 1024)
          ∧ w.block_count * (5 * 1024 * 1024) < 48 * 1024 * 1024 + 5 * 1024 * 1024
          ∧ (w.f.content.length : Int) = 16 + 16 * w.block_count
          ∧ ∃ r, CreateFileBlockEncryptReadStream (OsFile.mk w.f.content 0) key32 = .ok r
              ∧ r.FileSize = 48 * 1024 * 1024 ∧ r.BlockSize = 5 * 1024 * 1024
              ∧ r.BlockCount = w.block_count :=
  ⟨by decide, C7_header_round_trip CreateFileBlockEncryptWriteStream (48 * 1024 * 1024)
    (5 * 1024 * 1024) key32 key32 (by decide) (by decide) (by decide) (by decide) (by decide)⟩

/-! ## The write stream: what every call preserves -/

theorem Seek_outcome (f : OsFile) (o : Int) :
    (f.Seek o = (.ok (), { f with offset := o.toNat }))
      ∨ (f.Seek o = (.error .invalidArgument, f)) := by
  unfold OsFile.Seek
  by_cases h : o < 0
  · right; simp [h]
  · left; simp [h]

theorem Write_outcome (f : OsFile) (b : Bytes) :
    (∃ f2, f.Write b = (.ok (), f2)) ∨ (f.Write b = (.error .invalidArgument, f)) := by
  unfold OsFile.Write
  by_cases h : b.length = 0
  · left; exact ⟨f, by simp [h]⟩
  · by_cases h2 : f.offset + b.length ≥ 2 ^ 63
    · right; simp only [h, h2, if_false, if_true]
    · left
      exact ⟨OsFile.mk (writeAt f.content f.offset b) (f.offset + b.length),
        by simp only [h, h2, if_false]⟩

theorem CryptBlocks_zeros_ne_panic (g : Bytes → Bytes) (d : Bytes) :
    CryptBlocks g (zeros (add_padding d 16).length) (add_padding d 16) ≠ .panic := by
  rw [CryptBlocks_ok _ _ (add_padding_mod d)]
  simp

theorem encryptBody_ne_panic (P : Primitives) (rnd : Option Bytes) (result fd key : Bytes) :
    encryptBody P rnd result fd key ≠ .panic := by
  unfold encryptBody
  cases rnd with
  | none => simp
  | some r =>
    simp only
    by_cases hk : aesKeyOk key = true
    · simp only [hk, if_true]
      rw [CryptBlocks_ok _ _ (add_padding_mod fd)]
      simp
    · simp [hk]

theorem EncryptFileContents_ne_panic (P : Primitives) (rnd : Option Bytes) (data : Bytes)
    (method : Nat) (key : Bytes) : EncryptFileContents P rnd data method key ≠ .panic := by
  unfold EncryptFileContents
  split
  · simp
  · simp only
    split
    · exact encryptBody_ne_panic _ _ _ _ _
    · split
      · exact encryptBody_ne_panic _ _ _ _ _
      · simp

/-- What `commitBlock` leaves alone and how it moves the block counter. -/
theorem commitBlock_fields (P : Primitives) (rnd : RandSource) (w : FileBlockEncryptWriteStream)
    (blockData : Bytes) :
    (commitBlock P rnd w blockData).1 ≠ .panic
      ∧ (commitBlock P rnd w blockData).2.1.buf = w.buf
      ∧ (commitBlock P rnd w blockData).2.1.block_size = w.block_size
      ∧ (commitBlock P rnd w blockData).2.1.block_count = w.block_count
      ∧ (commitBlock P rnd w blockData).2.1.file_size = w.file_size
      ∧ (commitBlock P rnd w blockData).2.1.key = w.key
      ∧ ((commitBlock P rnd w blockData).1 = .ok () →
          (commitBlock P rnd w blockData).2.1.current_write_index
            = wrap64 (w.current_write_index + 1))
      ∧ ((commitBlock P rnd w blockData).1 ≠ .ok () →
          (commitBlock P rnd w blockData).2.1.current_write_index = w.current_write_index) := by
  unfold commitBlock encryptWith
  have hE := EncryptFileContents_ne_panic P (rnd 0) blockData AES256_ZIP w.key
  cases hce : EncryptFileContents P (rnd 0) blockData AES256_ZIP w.key with
  | panic => exact absurd hce hE
  | error e => simp
  | ok content =>
    simp only
    rcases Seek_outcome w.f (wrap64 (16 + wrap64 (w.current_write_index * 16))) with h1 | h1
    · rw [h1]
      simp only
      rcases Write_outcome ({ w.f with offset := (wrap64 (16 + wrap64 (w.current_write_index * 16))).toNat }) (PutUint64 (toUint64 w.current_write_pt)) with ⟨f2, h2⟩ | h2
      · rw [h2]
        simp only
        rcases Write_outcome f2 (PutUint64 content.length) with ⟨f3, h3⟩ | h3
        · rw [h3]
          simp only
          rcases Seek_outcome f3 w.current_write_pt with h4 | h4
          · rw [h4]
            simp only
            rcases Write_outcome ({ f3 with offset := w.current_write_pt.toNat }) content with ⟨f5, h5⟩ | h5
            · rw [h5]
              simp
            · rw [h5]
              simp
          · rw [h4]
            simp
        · rw [h3]
          simp
      · rw [h2]
        simp
    · rw [h1]
      simp

/-- The loop of `Write` returns within `block_count - current_write_index + 1`
iterations, never panics, keeps the block counter within `block_count`, and accounts
for every byte when it succeeds. -/
theorem writeLoop_spec (P : Primitives) (fuel : Nat) :
    ∀ (rnd : RandSource) (w : FileBlockEncryptWriteStream), 0 < w.block_size →
      0 ≤ w.current_write_index → w.current_write_index ≤ w.block_count →
      InInt64 w.block_count → (w.block_count - w.current_write_index).toNat < fuel →
      ∃ r w2 rnd2, writeLoop P fuel rnd w = some (r, w2, rnd2)
        ∧ r ≠ .panic
        ∧ w2.block_size = w.block_size ∧ w2.block_count = w.block_count
        ∧ w2.file_size = w.file_size ∧ w2.key = w.key
        ∧ w.current_write_index ≤ w2.current_write_index
        ∧ w2.current_write_index ≤ w.block_count
        ∧ (r = .ok () → (w2.buf.length : Int) < w.block_size
            ∧ w2.current_write_index * w.block_size + w2.buf.length
              = w.current_write_index * w.block_size + w.buf.length) := by
  induction fuel with
  | zero => intro rnd w _ _ _ _ hf; omega
  | succ fuel ih =>
    intro rnd w hbs hi0 hi1 hbc hf
    unfold writeLoop
    by_cases hfull : (w.buf.length : Int) ≥ w.block_size
    · simp only [hfull, if_true]
      by_cases hcap : w.current_write_index ≥ w.block_count
      · simp only [hcap, if_true]
        exact ⟨_, _, _, rfl, by simp, rfl, rfl, rfl, rfl, le_refl _, hi1, by simp⟩
      · have hneg : ¬ w.block_size < 0 := by omega
        simp only [hcap, if_false, hneg]
        obtain ⟨c1, c2, c3, c4, c5, c6, c7, c8⟩ := commitBlock_fields P rnd
          { w with buf := w.buf.drop w.block_size.toNat } (w.buf.take w.block_size.toNat)
        generalize commitBlock P rnd { w with buf := w.buf.drop w.block_size.toNat }
          (w.buf.take w.block_size.toNat) = res at c1 c2 c3 c4 c5 c6 c7 c8
        obtain ⟨r1, w1, rnd1⟩ := res
        simp only at c1 c2 c3 c4 c5 c6 c7 c8
        cases r1 with
        | ok u =>
          simp only
          have hidx : w1.current_write_index = w.current_write_index + 1 := by
            rw [c7 rfl]
            apply wrap64_of_inInt64
            unfold InInt64 at *
            omega
          obtain ⟨r, w2, rnd2, e, d1, d2, d3, d4, d5, d6, d7, d8⟩ :=
            ih rnd1 w1 (by rw [c3]; exact hbs) (by omega) (by rw [c4]; omega)
              (by rw [c4]; exact hbc) (by rw [c4, hidx]; omega)
          refine ⟨r, w2, rnd2, e, d1, by rw [d2, c3], by rw [d3, c4], by rw [d4, c5],
            by rw [d5, c6], by omega, by rw [← c4]; exact d7, ?_⟩
          intro hr
          obtain ⟨e1, e2⟩ := d8 hr
          rw [c3] at e1 e2
          refine ⟨e1, ?_⟩
          rw [e2, hidx, c2, List.length_drop, Int.add_mul]
          have : ((w.buf.length - w.block_size.toNat : Nat) : Int)
              = (w.buf.length : Int) - w.block_size := by omega
          rw [this]
          ring
        | error e =>
          simp only
          exact ⟨_, _, _, rfl, by simp, c3, c4, c5, c6, by rw [c8 (by simp)],
            by rw [c8 (by simp)]; exact hi1, by simp⟩
        | panic => exact absurd rfl c1
    · simp only [hfull, if_false]
      exact ⟨_, _, _, rfl, by simp, rfl, rfl, rfl, rfl, le_refl _, hi1,
        fun _ => ⟨by omega, rfl⟩⟩

/-- The state between the calls of a write stream, as far as the block counter goes. -/
theorem Write_spec (P : Primitives) (rnd : RandSource) (w : FileBlockEncryptWriteStream)
    (data : Bytes) (hbs : 0 < w.block_size) (hi0 : 0 ≤ w.current_write_index)
    (hi1 : w.current_write_index ≤ w.block_count) (hbc : InInt64 w.block_count) :
    ∃ r w2 rnd2, w.Write P rnd data = some (r, w2, rnd2)
      ∧ r ≠ .panic
      ∧ w2.block_size = w.block_size ∧ w2.block_count = w.block_count
      ∧ w2.file_size = w.file_size ∧ w2.key = w.key
      ∧ w.current_write_index ≤ w2.current_write_index
      ∧ w2.current_write_index ≤ w.block_count
      ∧ (r = .ok () → (w2.buf.length : Int) < w.block_size
          ∧ w2.current_write_index * w.block_size + w2.buf.length
            = w.current_write_index * w.block_size + w.buf.length + data.length) := by
  unfold FileBlockEncryptWriteStream.Write
  by_cases hcap : w.current_write_index ≥ w.block_count
  · simp only [hcap, if_true]
    exact ⟨_, _, _, rfl, by simp, rfl, rfl, rfl, rfl, le_refl _, hi1, by simp⟩
  · simp only [hcap, if_false]
    obtain ⟨r, w2, rnd2, e, d1, d2, d3, d4, d5, d6, d7, d8⟩ :=
      writeLoop_spec P ((w.block_count - w.current_write_index).toNat + 1) rnd
        { w with buf := w.buf ++ data } hbs hi0 hi1 hbc (by simp)
    refine ⟨r, w2, rnd2, e, d1, d2, d3, d4, d5, d6, d7, ?_⟩
    intro hr
    obtain ⟨e1, e2⟩ := d8 hr
    refine ⟨e1, ?_⟩
    rw [e2]
    simp only [List.length_append]
    push_cast
    ring

theorem Close_spec (P : Primitives) (rnd : RandSource) (w : FileBlockEncryptWriteStream)
    (hi0 : 0 ≤ w.current_write_index) (hi1 : w.current_write_index ≤ w.block_count)
    (hbc : InInt64 w.block_count) :
    (w.Close P rnd).1 ≠ .panic
      ∧ (w.Close P rnd).2.1.block_count = w.block_count
      ∧ w.current_write_index ≤ (w.Close P rnd).2.1.current_write_index
      ∧ (w.Close P rnd).2.1.current_write_index ≤ w.block_count
      ∧ (w.buf.length > 0 → w.current_write_index ≥ w.block_count →
          (w.Close P rnd).1 = .error .exceededLimit) := by
  by_cases hb : w.buf.length > 0
  · by_cases hcap : w.current_write_index ≥ w.block_count
    · have hC : w.Close P rnd = (.error .exceededLimit, w, rnd) := by
        simp only [FileBlockEncryptWriteStream.Close, hb, hcap, if_true]
      rw [hC]
      exact ⟨by simp, rfl, le_refl _, hi1, fun _ _ => rfl⟩
    · have hC : w.Close P rnd = commitBlock P rnd w w.buf := by
        simp only [FileBlockEncryptWriteStream.Close, hb, hcap, if_true, if_false]
      rw [hC]
      obtain ⟨c1, c2, c3, c4, c5, c6, c7, c8⟩ := commitBlock_fields P rnd w w.buf
      refine ⟨c1, c4, ?_, ?_, fun _ h => absurd h hcap⟩
      · by_cases hr : (commitBlock P rnd w w.buf).1 = .ok ()
        · rw [c7 hr, wrap64_of_inInt64 _ (by unfold InInt64 at *; omega)]
          omega
        · rw [c8 hr]
      · by_cases hr : (commitBlock P rnd w w.buf).1 = .ok ()
        · rw [c7 hr, wrap64_of_inInt64 _ (by unfold InInt64 at *; omega)]
          omega
        · rw [c8 hr]
          exact hi1
  · have hC : w.Close P rnd = (.ok (), w, rnd) := by
      simp only [FileBlockEncryptWriteStream.Close, hb, if_false]
    rw [hC]
    exact ⟨by simp, rfl, le_refl _, hi1, fun h => absurd h hb⟩

theorem runWriter_spec (P : Primitives) (chunks : List Bytes) :
    ∀ (rnd : RandSource) (w : FileBlockEncryptWriteStream), 0 < w.block_size →
      0 ≤ w.current_write_index → w.current_write_index ≤ w.block_count →
      InInt64 w.block_count →
      ∃ trace, runWriter P chunks rnd w = some trace
        ∧ trace.length = chunks.length + 1
        ∧ (∀ e ∈ trace, e.1 ≠ .panic ∧ e.2.block_count = w.block_count
            ∧ 0 ≤ e.2.current_write_index ∧ e.2.current_write_index ≤ e.2.block_count)
        ∧ ((w.buf.length : Int) < w.block_size →
            w.current_write_index * w.block_size + w.buf.length
                + ((chunks.map List.length).sum : Nat)
              > w.block_count * w.block_size →
            ¬ (∀ e ∈ trace, e.1 = .ok ())) := by
  induction chunks with
  | nil =>
    intro rnd w hbs hi0 hi1 hbc
    obtain ⟨c1, c2, c3, c4, c5⟩ := Close_spec P rnd w hi0 hi1 hbc
    refine ⟨_, rfl, rfl, ?_, ?_⟩
    · intro e he
      simp only [List.mem_singleton] at he
      subst he
      exact ⟨c1, c2, le_trans hi0 c3, by rw [c2]; exact c4⟩
    · intro hlt hsum hall
      simp only [List.map_nil, List.sum_nil, Nat.cast_zero, add_zero] at hsum
      have hidx : w.current_write_index ≥ w.block_count := by
        by_contra hcon
        have h1 : w.current_write_index + 1 ≤ w.block_count := by omega
        have h2 : (w.current_write_index + 1) * w.block_size ≤ w.block_count * w.block_size :=
          Int.mul_le_mul_of_nonneg_right h1 (by omega)
        rw [Int.add_mul] at h2
        omega
      have hbuf : w.buf.length > 0 := by
        have : w.current_write_index = w.block_count := by omega
        rw [this] at hsum
        omega
      have := hall _ (List.mem_singleton.mpr rfl)
      simp only at this
      rw [c5 hbuf hidx] at this
      cases this
  | cons c cs ih =>
    intro rnd w hbs hi0 hi1 hbc
    obtain ⟨r, w1, rnd1, e, d1, d2, d3, d4, d5, d6, d7, d8⟩ :=
      Write_spec P rnd w c hbs hi0 hi1 hbc
    obtain ⟨rest, hrest, hlen, hall, hlive⟩ :=
      ih rnd1 w1 (by rw [d2]; exact hbs) (by omega) (by rw [d3]; exact d7) (by rw [d3]; exact hbc)
    have hrun : runWriter P (c :: cs) rnd w = some ((r, w1) :: rest) := by
      unfold runWriter
      rw [e]
      cases r with
      | panic => exact absurd rfl d1
      | ok u => simp only [hrest]
      | error x => simp only [hrest]
    refine ⟨_, hrun, by simp [hlen], ?_, ?_⟩
    · intro x hx
      rcases List.mem_cons.mp hx with hx | hx
      · subst hx
        exact ⟨d1, d3, le_trans hi0 d6, by rw [d3]; exact d7⟩
      · obtain ⟨a1, a2, a3, a4⟩ := hall x hx
        exact ⟨a1, by rw [a2, d3], a3, a4⟩
    · intro hlt hsum hok
      have hr : r = .ok () := hok (r, w1) (List.mem_cons_self _ _)
      obtain ⟨e1, e2⟩ := d8 hr
      apply hlive (by rw [d2]; exact e1) _ (fun x hx => hok x (List.mem_cons_of_mem _ hx))
      rw [d2, d3, e2]
      simp only [List.map_cons, List.sum_cons, Nat.cast_add] at hsum
      omega


set_option maxRecDepth 4000 in
/-- C8, as stated, fails: when another error comes first, no call returns the
capacity error. With a key `aes.NewCipher` rejects, `Initialize(1, 1, key)` succeeds
(`block_count = 1`), `Write` of two bytes returns the key-size error and so does
`Close`, although two bytes exceed `block_count * block_size = 1`. -/
theorem C8_key_error_comes_first :
    (CreateFileBlockEncryptWriteStream.Initialize 1 1 []).1 = .ok ()
      ∧ (CreateFileBlockEncryptWriteStream.Initialize 1 1 []).2.block_count * 1
          < ((([[1, 2]] : List Bytes).map List.length).sum : Nat)
      ∧ (runWriter toyPrimitives [[1, 2]] sampleRand
            (CreateFileBlockEncryptWriteStream.Initialize 1 1 []).2).map (List.map Prod.fst)
          = some [.error .keySize, .error .keySize] := by
  decide

/-- C8, amended. After a successful `Initialize`, in a run of `Write` calls followed by
`Close` (each made whatever the previous one returned) no call panics and after every
call `0 ≤ current_write_index ≤ block_count`; in a stream with
`current_write_index ≥ block_count`, `Write`, its loop and `Close` return without
touching the stream or the file, with the capacity error when a block is pending; and
when the bytes supplied exceed `block_count * block_size`, some call returns the
capacity error unless some call returns a different error. -/
theorem C8_capacity_limit (P : Primitives) (rnd : RandSource)
    (file : FileBlockEncryptWriteStream) (file_size block_size : Int) (key : Bytes)
    (chunks : List Bytes) (hfs : 0 ≤ file_size) (hbs : 0 < block_size)
    (hfs64 : InInt64 file_size) (hbs64 : InInt64 block_size)
    (hfit : 16 + 16 * ceilDiv file_size block_size < 2 ^ 63) :
    ∃ w0 trace, file.Initialize file_size block_size key = (.ok (), w0)
      ∧ runWriter P chunks rnd w0 = some trace
      ∧ trace.length = chunks.length + 1
      ∧ (∀ e ∈ trace, e.1 ≠ .panic ∧ e.2.block_count = w0.block_count
          ∧ 0 ≤ e.2.current_write_index ∧ e.2.current_write_index ≤ e.2.block_count)
      ∧ (∀ (w : FileBlockEncryptWriteStream) (rnd2 : RandSource) (data : Bytes),
          w.current_write_index ≥ w.block_count →
          w.Write P rnd2 data = some (.error .exceededLimit, w, rnd2))
      ∧ (∀ (w : FileBlockEncryptWriteStream) (rnd2 : RandSource) (fuel : Nat),
          w.current_write_index ≥ w.block_count →
          writeLoop P (fuel + 1) rnd2 w
            = some (if (w.buf.length : Int) ≥ w.block_size then .error .exceededLimit
                else .ok (), w, rnd2))
      ∧ (∀ (w : FileBlockEncryptWriteStream) (rnd2 : RandSource),
          w.current_write_index ≥ w.block_count →
          w.Close P rnd2
            = (if w.buf.length > 0 then .error .exceededLimit else .ok (), w, rnd2))
      ∧ (w0.block_count * block_size < ((chunks.map List.length).sum : Nat) →
          (∀ e ∈ trace, e.1 = .ok () ∨ e.1 = .error .exceededLimit) →
          ∃ e ∈ trace, e.1 = .error .exceededLimit) := by
  obtain ⟨c0, c1, c2⟩ := ceilDiv_spec file_size block_size hfs hbs
  obtain ⟨n, hn⟩ := Int.eq_ofNat_of_zero_le c0
  rw [hn] at hfit
  obtain ⟨w0, hI, hb, hidx, hcnt, hbuf⟩ : ∃ w0, file.Initialize file_size block_size key
        = (.ok (), w0) ∧ w0.block_size = block_size ∧ w0.current_write_index = 0
      ∧ w0.block_count = (n : Int) ∧ w0.buf = [] :=
    ⟨_, Initialize_ok file file_size block_size key n hfs hbs hfs64 hbs64 hn (by omega),
      rfl, rfl, rfl, rfl⟩
  obtain ⟨trace, ht, hlen, hall, hlive⟩ := runWriter_spec P chunks rnd w0 (by rw [hb]; exact hbs)
    (by rw [hidx]) (by rw [hidx, hcnt]; omega) (by rw [hcnt]; unfold InInt64; omega)
  refine ⟨w0, trace, hI, ht, hlen, hall, ?_, ?_, ?_, ?_⟩
  · intro w rnd2 data hcap
    simp only [FileBlockEncryptWriteStream.Write, hcap, if_true]
  · intro w rnd2 fuel hcap
    unfold writeLoop
    by_cases hfull : (w.buf.length : Int) ≥ w.block_size
    · simp only [hfull, hcap, if_true]
    · simp only [hfull, if_false]
  · intro w rnd2 hcap
    unfold FileBlockEncryptWriteStream.Close
    by_cases hb : w.buf.length > 0
    · simp only [hb, hcap, if_true]
    · simp only [hb, if_false]
  · intro hsum hkinds
    by_contra hnone
    apply hlive (by rw [hbuf, hb]; simpa using hbs)
      (by rw [hbuf, hidx, hb]
          simp only [List.length_nil, Nat.cast_zero, zero_mul, zero_add, add_zero]
          exact hsum)
    intro e he
    rcases hkinds e he with h | h
    · exact h
    · exact absurd ⟨e, he, h⟩ hnone

set_option maxRecDepth 4000 in
theorem C8_capacity_limit_witness :
    ∃ w0 trace, CreateFileBlockEncryptWriteStream.Initialize 4 2 key32 = (.ok (), w0)
      ∧ runWriter toyPrimitives [[1, 2, 3], [4, 5]] sampleRand w0 = some trace
      ∧ trace.length = 3
      ∧ ∃ e ∈ trace, e.1 = .error .exceededLimit := by
  obtain ⟨w0, trace, h1, h2, h3, h4, -, -, -, h5⟩ :=
    C8_capacity_limit toyPrimitives sampleRand CreateFileBlockEncryptWriteStream 4 2 key32
      [[1, 2, 3], [4, 5]] (by decide) (by decide) (by decide) (by decide) (by decide)
  refine ⟨w0, trace, h1, h2, h3, h5 ?_ ?_⟩
  · have e : w0 = (CreateFileBlockEncryptWriteStream.Initialize 4 2 key32).2 := by rw [h1]
    rw [e]
    decide
  · have e : w0 = (CreateFileBlockEncryptWriteStream.Initialize 4 2 key32).2 := by rw [h1]
    subst e
    have ht : trace = ((runWriter toyPrimitives [[1, 2, 3], [4, 5]] sampleRand
        (CreateFileBlockEncryptWriteStream.Initialize 4 2 key32).2).getD []) := by rw [h2]; rfl
    subst ht
    decide

/-! ## The container layout -/

theorem length_indexBytes (envs : List Bytes) :
    ∀ start, (indexBytes start envs).length = 16 * envs.length := by
  induction envs with
  | nil => intro start; rfl
  | cons e rest ih =>
    intro start
    simp only [indexBytes, List.length_append, length_PutUint64, ih, List.length_cons]
    omega

theorem indexBytes_append (a b : List Bytes) :
    ∀ start, indexBytes start (a ++ b)
      = indexBytes start a ++ indexBytes (start + a.flatten.length) b := by
  induction a with
  | nil => intro start; simp [indexBytes]
  | cons e rest ih =>
    intro start
    show PutUint64 start ++ PutUint64 e.length ++ indexBytes (start + e.length) (rest ++ b) = _
    rw [ih]
    simp only [indexBytes, List.flatten_cons, List.length_append, List.append_assoc,
      Nat.add_assoc]

theorem length_containerBytes (fs bs : Int) (bc : Nat) (envs : List Bytes)
    (h : envs.length ≤ bc) :
    (containerBytes fs bs bc envs).length = 16 + 16 * bc + envs.flatten.length := by
  simp only [containerBytes, List.length_append, length_PutUint64, length_indexBytes,
    length_zeros]
  omega

/-- The container with one more envelope, as the file after the three writes of
`commitBlock`. -/
theorem containerBytes_snoc (fs bs : Int) (bc : Nat) (envs : List Bytes) (env : Bytes)
    (h : envs.length < bc) :
    containerBytes fs bs bc (envs ++ [env])
      = (PutUint64 fs.toNat ++ PutUint64 bs.toNat ++ indexBytes (16 + 16 * bc) envs)
          ++ PutUint64 (16 + 16 * bc + envs.flatten.length) ++ PutUint64 env.length
          ++ zeros (16 * (bc - envs.length - 1)) ++ envs.flatten ++ env := by
  simp only [containerBytes, indexBytes_append, indexBytes, List.flatten_append, List.flatten_cons,
    List.flatten_nil, List.append_nil, List.length_append, List.length_cons, List.length_nil,
    List.append_assoc]
  have : bc - (envs.length + (0 + 1)) = bc - envs.length - 1 := by omega
  rw [this]

/-- The container before the entry of block `envs.length` is written: that entry is 16
zero bytes. -/
theorem containerBytes_next (fs bs : Int) (bc : Nat) (envs : List Bytes)
    (h : envs.length < bc) :
    containerBytes fs bs bc envs
      = (PutUint64 fs.toNat ++ PutUint64 bs.toNat ++ indexBytes (16 + 16 * bc) envs)
          ++ zeros 8 ++ zeros 8 ++ zeros (16 * (bc - envs.length - 1)) ++ envs.flatten := by
  have hz : zeros (16 * (bc - envs.length))
      = zeros 8 ++ zeros 8 ++ zeros (16 * (bc - envs.length - 1)) := by
    simp only [zeros, List.append_replicate_replicate]
    congr 1
    omega
  simp only [containerBytes, hz, List.append_assoc]

/-! ## Committing a block -/

theorem encrypt_zip_ok (P : Primitives) (r blk key : Bytes) (hblk : blk ≠ [])
    (hkey : aesKeyOk key = true) :
    ∃ env, EncryptFileContents P (some r) blk AES256_ZIP key = .ok env
      ∧ env.length = envelopeLength P blk := by
  have hd0 : ¬ blk.length = 0 := fun h => hblk (List.length_eq_zero.mp h)
  refine ⟨PutUint16 AES256_ZIP
      ++ (PutUint32 (P.deflate blk).length ++ copyBytes (zeros 16) r)
      ++ copyBytes (zeros (add_padding (P.deflate blk) 16).length)
          (P.cbcEncrypt key (copyBytes (zeros 16) r) (add_padding (P.deflate blk) 16)), ?_, ?_⟩
  · simp only [EncryptFileContents, hd0, if_false, if_true]
    exact encryptBody_ok P r _ _ key hkey
  · simp only [List.length_append, length_PutUint16, length_PutUint32, length_copyBytes,
      length_zeros, length_add_padding, envelopeLength]

/-- With a valid key, a working random source and room in the file, `commitBlock`
succeeds: it appends one envelope of the block and fills the next index entry. -/
theorem commitBlock_ok (P : Primitives) (rnd : RandSource) (w : FileBlockEncryptWriteStream)
    (blk r key : Bytes) (fs bs : Int) (bc : Nat) (envs : List Bytes)
    (hinv : WriterInv fs bs bc key envs w) (hlt : envs.length < bc) (hblk : blk ≠ [])
    (hkey : aesKeyOk key = true) (hr : rnd 0 = some r)
    (hfit : 16 + 16 * bc + envs.flatten.length + envelopeLength P blk < 2 ^ 63) :
    ∃ env w2, IsEnvelopeOf P key env blk ∧ env.length = envelopeLength P blk
      ∧ commitBlock P rnd w blk = (.ok (), w2, rnd.next)
      ∧ WriterInv fs bs bc key (envs ++ [env]) w2 ∧ w2.buf = w.buf := by
  obtain ⟨env, henc, henvlen⟩ := encrypt_zip_ok P r blk key hblk hkey
  have hd0 : ¬ blk.length = 0 := fun h => hblk (List.length_eq_zero.mp h)
  have hE : encryptWith P rnd blk AES256_ZIP w.key = (.ok env, rnd.next) := by
    simp only [encryptWith, hr, hinv.key_eq, henc, hd0, if_false, true_or, if_true]
  obtain ⟨pre, hpre⟩ : ∃ pre, pre = PutUint64 fs.toNat ++ PutUint64 bs.toNat
      ++ indexBytes (16 + 16 * bc) envs := ⟨_, rfl⟩
  have hprelen : pre.length = 16 + 16 * envs.length := by
    rw [hpre]
    simp only [List.length_append, length_PutUint64, length_indexBytes]
  have hclen : w.f.content.length = 16 + 16 * bc + envs.flatten.length := by
    rw [hinv.content_eq, length_containerBytes _ _ _ _ hinv.count_le]
  have hc : w.f.content = pre ++ zeros 8
      ++ (zeros 8 ++ (zeros (16 * (bc - envs.length - 1)) ++ envs.flatten)) := by
    rw [hinv.content_eq, containerBytes_next fs bs bc envs hlt, hpre]
    simp only [List.append_assoc]
  have hw1 : wrap64 (16 + wrap64 (w.current_write_index * 16))
      = ((16 + 16 * envs.length : Nat) : Int) := by
    rw [hinv.index_eq, wrap64_of_inInt64 (_ * 16) (by unfold InInt64; omega),
      wrap64_of_inInt64 _ (by unfold InInt64; omega)]
    push_cast
    ring
  have h1 : w.f.Seek (wrap64 (16 + wrap64 (w.current_write_index * 16)))
      = (.ok (), OsFile.mk w.f.content (16 + 16 * envs.length)) := by
    rw [hw1, Seek_ok _ _ (by omega)]
    rfl
  have hpt : toUint64 w.current_write_pt = 16 + 16 * bc + envs.flatten.length := by
    rw [hinv.pt_eq, toUint64_of_nonneg _ (by omega) (by unfold InInt64; omega), hclen]
    rfl
  have h2 := Write_over (OsFile.mk w.f.content (16 + 16 * envs.length)) pre (zeros 8)
    (zeros 8 ++ (zeros (16 * (bc - envs.length - 1)) ++ envs.flatten))
    (PutUint64 (16 + 16 * bc + envs.flatten.length)) hc hprelen.symm (by simp)
    (by rw [hprelen, length_PutUint64]; omega)
  have h3 := Write_over
    (OsFile.mk (pre ++ PutUint64 (16 + 16 * bc + envs.flatten.length)
      ++ (zeros 8 ++ (zeros (16 * (bc - envs.length - 1)) ++ envs.flatten)))
      (pre.length + (PutUint64 (16 + 16 * bc + envs.flatten.length)).length))
    (pre ++ PutUint64 (16 + 16 * bc + envs.flatten.length)) (zeros 8)
    (zeros (16 * (bc - envs.length - 1)) ++ envs.flatten) (PutUint64 env.length)
    (by simp only [List.append_assoc]) (by simp) (by simp)
    (by simp only [List.length_append, hprelen, length_PutUint64]; omega)
  obtain ⟨c3, hc3⟩ : ∃ c3, c3 = pre ++ PutUint64 (16 + 16 * bc + envs.flatten.length)
      ++ PutUint64 env.length ++ (zeros (16 * (bc - envs.length - 1)) ++ envs.flatten) :=
    ⟨_, rfl⟩
  rw [← hc3] at h3
  have hc3len : c3.length = 16 + 16 * bc + envs.flatten.length := by
    rw [hc3]
    simp only [List.length_append, hprelen, length_PutUint64, length_zeros]
    omega
  have h4 : (OsFile.mk c3 ((pre ++ PutUint64 (16 + 16 * bc + envs.flatten.length)).length
        + (PutUint64 env.length).length)).Seek w.current_write_pt
      = (.ok (), OsFile.mk c3 c3.length) := by
    rw [Seek_ok _ _ (by rw [hinv.pt_eq]; omega), hinv.pt_eq, hclen, hc3len]
    rfl
  have h5 := Write_append (OsFile.mk c3 c3.length) env rfl
    (by simp only; rw [hc3len, henvlen]; omega)
  simp only at h5
  have hfinal : c3 ++ env = containerBytes fs bs bc (envs ++ [env]) := by
    rw [containerBytes_snoc fs bs bc envs env hlt, hc3, ← hpre]
    simp only [List.append_assoc]
  refine ⟨env,
    { w with
      f := OsFile.mk (c3 ++ env) (c3.length + env.length)
      current_write_index := wrap64 (w.current_write_index + 1)
      current_write_pt := wrap64 (w.current_write_pt + env.length) },
    ⟨r, henc⟩, henvlen, ?_, ?_, ?_⟩
  · simp only [commitBlock, hE, h1, hpt, h2, h3, h4, h5]
  · constructor
    · exact hinv.file_size_eq
    · exact hinv.block_size_eq
    · exact hinv.block_count_eq
    · exact hinv.key_eq
    · show wrap64 (w.current_write_index + 1) = ((envs ++ [env]).length : Int)
      rw [hinv.index_eq, wrap64_of_inInt64 _ (by unfold InInt64; omega)]
      simp
    · show wrap64 (w.current_write_pt + env.length) = ((c3 ++ env).length : Int)
      rw [hinv.pt_eq, hclen, wrap64_of_inInt64 _ (by unfold InInt64; rw [henvlen]; omega),
        List.length_append, hc3len]
      push_cast
      rfl
    · exact hfinal
    · simp only [List.length_append, List.length_singleton]
      omega
  · rfl

/-! ## Writing all of the data -/

theorem payloadLength_succ (P : Primitives) (bs : Nat) (data : Bytes) (k : Nat) :
    payloadLength P bs data (k + 1)
      = payloadLength P bs data k + envelopeLength P (blockAt bs data k) := by
  simp [payloadLength, List.range_succ]

theorem payloadLength_mono (P : Primitives) (bs : Nat) (data : Bytes) (k n : Nat) (h : k ≤ n) :
    payloadLength P bs data k ≤ payloadLength P bs data n := by
  induction n with
  | zero =>
    have : k = 0 := by omega
    rw [this]
  | succ n ih =>
    by_cases hk : k = n + 1
    · rw [hk]
    · have := ih (by omega)
      rw [payloadLength_succ]
      omega

theorem blockCountOf_spec (bs : Nat) (data : Bytes) (hbs : 0 < bs) :
    data.length ≤ blockCountOf bs data * bs ∧ blockCountOf bs data * bs < data.length + bs := by
  unfold blockCountOf
  have h1 := Nat.div_add_mod (data.length + bs - 1) bs
  have h2 := Nat.mod_lt (data.length + bs - 1) hbs
  have h3 : (data.length + bs - 1) / bs * bs = bs * ((data.length + bs - 1) / bs) :=
    Nat.mul_comm _ _
  rw [h3]
  omega

theorem lt_blockCountOf (bs : Nat) (data : Bytes) (hbs : 0 < bs) (k : Nat)
    (h : k * bs < data.length) : k < blockCountOf bs data := by
  obtain ⟨h1, -⟩ := blockCountOf_spec bs data hbs
  by_contra hcon
  have : blockCountOf bs data * bs ≤ k * bs := Nat.mul_le_mul_right bs (by omega)
  omega

theorem blockCountOf_eq (bs : Nat) (data : Bytes) (hbs : 0 < bs) (k : Nat)
    (h1 : data.length ≤ k * bs) (h2 : k * bs < data.length + bs) :
    blockCountOf bs data = k := by
  obtain ⟨c1, c2⟩ := blockCountOf_spec bs data hbs
  have a1 : ¬ blockCountOf bs data < k := by
    intro hlt
    have : (blockCountOf bs data + 1) * bs ≤ k * bs := Nat.mul_le_mul_right bs (by omega)
    rw [Nat.add_mul] at this
    omega
  have a2 : ¬ k < blockCountOf bs data := by
    intro hlt
    have : (k + 1) * bs ≤ blockCountOf bs data * bs := Nat.mul_le_mul_right bs (by omega)
    rw [Nat.add_mul] at this
    omega
  omega

theorem ceilDiv_eq_blockCountOf (bs : Nat) (data : Bytes) (hbs : 0 < bs) :
    ceilDiv (data.length : Int) (bs : Int) = (blockCountOf bs data : Int) := by
  obtain ⟨c0, c1, c2⟩ := ceilDiv_spec (data.length : Int) (bs : Int) (by omega) (by omega)
  obtain ⟨n, hn⟩ := Int.eq_ofNat_of_zero_le c0
  rw [hn] at c1 c2 ⊢
  have e := blockCountOf_eq bs data hbs n (by exact_mod_cast c1) (by exact_mod_cast c2)
  rw [e]

theorem WriterInv_buf (fs bs : Int) (bc : Nat) (key : Bytes) (envs : List Bytes)
    (w : FileBlockEncryptWriteStream) (b : Bytes) (h : WriterInv fs bs bc key envs w) :
    WriterInv fs bs bc key envs { w with buf := b } :=
  ⟨h.file_size_eq, h.block_size_eq, h.block_count_eq, h.key_eq, h.index_eq, h.pt_eq,
    h.content_eq, h.count_le⟩

theorem WriterProgress_buf (P : Primitives) (key data : Bytes) (bs : Nat) (envs : List Bytes)
    (w : FileBlockEncryptWriteStream) (b : Bytes) (h : WriterProgress P key data bs envs w) :
    WriterProgress P key data bs envs { w with buf := b } :=
  ⟨WriterInv_buf _ _ _ _ _ _ _ h.inv, h.envelopes, h.payload⟩

/-- One more block committed: the step of the loop of `Write`, and of `Close`. -/
theorem commit_progress (P : Primitives) (rnd : RandSource) (w : FileBlockEncryptWriteStream)
    (key data : Bytes) (bs : Nat) (envs : List Bytes) (blk : Bytes)
    (hbs : 0 < bs) (hkey : aesKeyOk key = true) (hrnd : ∀ n, (rnd n).isSome = true)
    (hfit : containerLength P bs data < 2 ^ 63)
    (hp : WriterProgress P key data bs envs w)
    (hblk : blk = blockAt bs data envs.length) (hne : blk ≠ [])
    (hk : envs.length * bs < data.length) :
    ∃ env w2, commitBlock P rnd w blk = (.ok (), w2, rnd.next)
      ∧ WriterProgress P key data bs (envs ++ [env]) w2 ∧ w2.buf = w.buf := by
  have hlt := lt_blockCountOf bs data hbs envs.length hk
  obtain ⟨r, hr⟩ := Option.isSome_iff_exists.mp (hrnd 0)
  have hfit2 : 16 + 16 * blockCountOf bs data + envs.flatten.length + envelopeLength P blk
      < 2 ^ 63 := by
    have h1 := payloadLength_succ P bs data envs.length
    have h2 := payloadLength_mono P bs data (envs.length + 1) (blockCountOf bs data) hlt
    rw [hp.payload, hblk]
    unfold containerLength at hfit
    omega
  obtain ⟨env, w2, henv, hlen, hc, hinv2, hbuf⟩ :=
    commitBlock_ok P rnd w blk r key _ _ _ envs hp.inv hlt hne hkey hr hfit2
  refine ⟨env, w2, hc, ⟨hinv2, ?_, ?_⟩, hbuf⟩
  · intro i hi
    rw [List.length_append, List.length_singleton] at hi
    by_cases hik : i < envs.length
    · rw [List.getD_append _ _ _ _ hik]
      exact hp.envelopes i hik
    · have : i = envs.length := by omega
      subst this
      rw [List.getD_append_right _ _ _ _ (le_refl _)]
      simp only [Nat.sub_self, List.getD_cons_zero]
      rw [← hblk]
      exact henv
  · rw [List.flatten_append, List.length_append, List.length_append, List.length_singleton,
      payloadLength_succ, hp.payload, ← hblk, ← hlen]
    simp

theorem next_all_some (rnd : RandSource) (h : ∀ n, (rnd n).isSome = true) :
    ∀ n, (rnd.next n).isSome = true := fun n => h (n + 1)

/-- The loop of `Write` on the way through `data`: it commits whole blocks while the
buffer holds one, and succeeds. -/
theorem writeLoop_progress (P : Primitives) (key data : Bytes) (bs : Nat) (hbs : 0 < bs)
    (hkey : aesKeyOk key = true) (hfit : containerLength P bs data < 2 ^ 63) (fuel : Nat) :
    ∀ (rnd : RandSource) (w : FileBlockEncryptWriteStream) (envs : List Bytes) (future : Bytes),
      (∀ n, (rnd n).isSome = true) → WriterProgress P key data bs envs w →
      data.drop (envs.length * bs) = w.buf ++ future →
      blockCountOf bs data - envs.length < fuel →
      ∃ w2 envs2 rnd2, writeLoop P fuel rnd w = some (.ok (), w2, rnd2)
        ∧ (∀ n, (rnd2 n).isSome = true) ∧ WriterProgress P key data bs envs2 w2
        ∧ data.drop (envs2.length * bs) = w2.buf ++ future ∧ w2.buf.length < bs := by
  induction fuel with
  | zero => intro _ _ _ _ _ _ _ hf; omega
  | succ fuel ih =>
    intro rnd w envs future hrnd hp hrest hf
    unfold writeLoop
    have hbsz := hp.inv.block_size_eq
    have htn : w.block_size.toNat = bs := by rw [hbsz]; rfl
    by_cases hfull : (w.buf.length : Int) ≥ w.block_size
    · have hfullN : bs ≤ w.buf.length := by omega
      have hk : envs.length * bs < data.length := by
        by_contra hcon
        rw [List.drop_of_length_le (by omega)] at hrest
        have := congrArg List.length hrest
        simp only [List.length_nil, List.length_append] at this
        omega
      have hlt := lt_blockCountOf bs data hbs envs.length hk
      have hcap : ¬ (w.current_write_index ≥ w.block_count) := by
        rw [hp.inv.index_eq, hp.inv.block_count_eq]
        omega
      have hneg : ¬ (w.block_size < 0) := by omega
      have hblk : w.buf.take bs = blockAt bs data envs.length := by
        unfold blockAt
        rw [hrest, List.take_append_of_le_length hfullN]
      have hne : w.buf.take bs ≠ [] := by
        intro h
        have := congrArg List.length h
        rw [List.length_take] at this
        simp only [List.length_nil] at this
        omega
      obtain ⟨env, w2, hc, hp2, hbuf⟩ := commit_progress P rnd
        { w with buf := w.buf.drop bs } key data bs envs (w.buf.take bs) hbs hkey hrnd hfit
        (WriterProgress_buf _ _ _ _ _ _ _ hp) hblk hne hk
      have hrest2 : data.drop ((envs ++ [env]).length * bs) = w2.buf ++ future := by
        rw [hbuf, List.length_append, List.length_singleton, Nat.add_mul, Nat.one_mul,
          ← List.drop_drop, hrest, List.drop_append_of_le_length hfullN]
      obtain ⟨w3, envs3, rnd3, e, d1, d2, d3, d4⟩ :=
        ih rnd.next w2 (envs ++ [env]) future (next_all_some rnd hrnd) hp2 hrest2
          (by rw [List.length_append, List.length_singleton]; omega)
      refine ⟨w3, envs3, rnd3, ?_, d1, d2, d3, d4⟩
      simp only [hfull, hcap, hneg, if_true, if_false, htn, hc, e]
    · refine ⟨w, envs, rnd, ?_, hrnd, hp, hrest, by omega⟩
      simp only [hfull, if_false]

theorem Write_progress (P : Primitives) (key data : Bytes) (bs : Nat) (hbs : 0 < bs)
    (hkey : aesKeyOk key = true) (hfit : containerLength P bs data < 2 ^ 63)
    (rnd : RandSource) (w : FileBlockEncryptWriteStream) (envs : List Bytes)
    (chunk future : Bytes) (hrnd : ∀ n, (rnd n).isSome = true)
    (hp : WriterProgress P key data bs envs w)
    (hrest : data.drop (envs.length * bs) = w.buf ++ (chunk ++ future)) (hne : chunk ≠ []) :
    ∃ w2 envs2 rnd2, w.Write P rnd chunk = some (.ok (), w2, rnd2)
      ∧ (∀ n, (rnd2 n).isSome = true) ∧ WriterProgress P key data bs envs2 w2
      ∧ data.drop (envs2.length * bs) = w2.buf ++ future ∧ w2.buf.length < bs := by
  have hk : envs.length * bs < data.length := by
    by_contra hcon
    rw [List.drop_of_length_le (by omega)] at hrest
    have := congrArg List.length hrest
    simp only [List.length_nil, List.length_append] at this
    have : chunk.length = 0 := by omega
    exact hne (List.length_eq_zero.mp this)
  have hlt := lt_blockCountOf bs data hbs envs.length hk
  have hcap : ¬ (w.current_write_index ≥ w.block_count) := by
    rw [hp.inv.index_eq, hp.inv.block_count_eq]
    omega
  have hfuel : (w.block_count - w.current_write_index).toNat + 1
      = blockCountOf bs data - envs.length + 1 := by
    rw [hp.inv.index_eq, hp.inv.block_count_eq]
    omega
  obtain ⟨w2, envs2, rnd2, e, d1, d2, d3, d4⟩ :=
    writeLoop_progress P key data bs hbs hkey hfit (blockCountOf bs data - envs.length + 1) rnd
      { w with buf := w.buf ++ chunk } envs future hrnd (WriterProgress_buf _ _ _ _ _ _ _ hp)
      (by rw [hrest]; simp only [List.append_assoc]) (by omega)
  refine ⟨w2, envs2, rnd2, ?_, d1, d2, d3, d4⟩
  simp only [FileBlockEncryptWriteStream.Write, hcap, if_false, hfuel, e]

theorem writeAll_progress (P : Primitives) (key data : Bytes) (bs : Nat) (hbs : 0 < bs)
    (hkey : aesKeyOk key = true) (hfit : containerLength P bs data < 2 ^ 63)
    (chunks : List Bytes) :
    ∀ (rnd : RandSource) (w : FileBlockEncryptWriteStream) (envs : List Bytes),
      (∀ n, (rnd n).isSome = true) → WriterProgress P key data bs envs w →
      data.drop (envs.length * bs) = w.buf ++ chunks.flatten → (∀ c ∈ chunks, c ≠ []) →
      w.buf.length < bs →
      ∃ w2 envs2 rnd2, writeAll P chunks rnd w = some (.ok (), w2, rnd2)
        ∧ (∀ n, (rnd2 n).isSome = true) ∧ WriterProgress P key data bs envs2 w2
        ∧ data.drop (envs2.length * bs) = w2.buf ∧ w2.buf.length < bs := by
  induction chunks with
  | nil =>
    intro rnd w envs hrnd hp hrest _ hlt
    exact ⟨w, envs, rnd, rfl, hrnd, hp, by simpa using hrest, hlt⟩
  | cons c cs ih =>
    intro rnd w envs hrnd hp hrest hne hlt
    obtain ⟨w1, envs1, rnd1, e, d1, d2, d3, d4⟩ :=
      Write_progress P key data bs hbs hkey hfit rnd w envs c cs.flatten hrnd hp
        (by rw [hrest, List.flatten_cons]) (hne c (List.mem_cons_self _ _))
    obtain ⟨w2, envs2, rnd2, e2, f1, f2, f3, f4⟩ :=
      ih rnd1 w1 envs1 d1 d2 d3 (fun x hx => hne x (List.mem_cons_of_mem _ hx)) d4
    refine ⟨w2, envs2, rnd2, ?_, f1, f2, f3, f4⟩
    simp only [writeAll, e, e2]

theorem Close_progress (P : Primitives) (key data : Bytes) (bs : Nat) (hbs : 0 < bs)
    (hkey : aesKeyOk key = true) (hfit : containerLength P bs data < 2 ^ 63)
    (rnd : RandSource) (w : FileBlockEncryptWriteStream) (envs : List Bytes)
    (hrnd : ∀ n, (rnd n).isSome = true) (hp : WriterProgress P key data bs envs w)
    (hrest : data.drop (envs.length * bs) = w.buf) (hlt : w.buf.length < bs) :
    ∃ w2 envs2 rnd2, w.Close P rnd = (.ok (), w2, rnd2)
      ∧ WriterProgress P key data bs envs2 w2
      ∧ envs2.length = blockCountOf bs data := by
  obtain ⟨c1, c2⟩ := blockCountOf_spec bs data hbs
  have hle := hp.inv.count_le
  have hmul : envs.length * bs ≤ blockCountOf bs data * bs := Nat.mul_le_mul_right bs hle
  have hlen := congrArg List.length hrest
  rw [List.length_drop] at hlen
  by_cases hb : w.buf.length > 0
  · have hk : envs.length * bs < data.length := by omega
    have hklt := lt_blockCountOf bs data hbs envs.length hk
    have hcap : ¬ (w.current_write_index ≥ w.block_count) := by
      rw [hp.inv.index_eq, hp.inv.block_count_eq]
      omega
    have hblk : w.buf = blockAt bs data envs.length := by
      unfold blockAt
      rw [hrest, List.take_of_length_le (by omega)]
    have hne : w.buf ≠ [] := by
      intro h
      rw [h] at hb
      simp at hb
    obtain ⟨env, w2, hc, hp2, -⟩ :=
      commit_progress P rnd w key data bs envs w.buf hbs hkey hrnd hfit hp hblk hne hk
    refine ⟨w2, envs ++ [env], rnd.next, ?_, hp2, ?_⟩
    · simp only [FileBlockEncryptWriteStream.Close, hb, hcap, if_true, if_false, hc]
    · rw [List.length_append, List.length_singleton]
      symm
      apply blockCountOf_eq bs data hbs
      · rw [Nat.add_mul]
        omega
      · rw [Nat.add_mul]
        omega
  · refine ⟨w, envs, rnd, ?_, hp, ?_⟩
    · simp only [FileBlockEncryptWriteStream.Close, hb, if_false]
    · symm
      apply blockCountOf_eq bs data hbs
      · omega
      · omega

/-- The whole write of `data`: `Initialize`, a `Write` for each chunk, `Close`. All
succeed, and the file left is the container of the envelopes of the blocks of `data`. -/
theorem writer_progress (P : Primitives) (key data : Bytes) (bs : Nat) (hbs : 0 < bs)
    (hbs64 : bs < 2 ^ 63) (hdata : data.length < 2 ^ 63)
    (hkey : aesKeyOk key = true) (hfit : containerLength P bs data < 2 ^ 63)
    (rnd : RandSource) (hrnd : ∀ n, (rnd n).isSome = true) (chunks : List Bytes)
    (hchunks : chunks.flatten = data) (hne : ∀ c ∈ chunks, c ≠ [])
    (file : FileBlockEncryptWriteStream) :
    ∃ w1 w2 w3 rnd2 rnd3 envs,
      file.Initialize (data.length : Int) (bs : Int) key = (.ok (), w1)
        ∧ writeAll P chunks rnd w1 = some (.ok (), w2, rnd2)
        ∧ w2.Close P rnd2 = (.ok (), w3, rnd3)
        ∧ WriterProgress P key data bs envs w3
        ∧ envs.length = blockCountOf bs data := by
  have hfit1 : 16 + 16 * blockCountOf bs data < 2 ^ 63 := by
    unfold containerLength at hfit
    omega
  have hI := Initialize_ok file (data.length : Int) (bs : Int) key (blockCountOf bs data)
    (by omega) (by omega) (by unfold InInt64; omega) (by unfold InInt64; omega)
    (ceilDiv_eq_blockCountOf bs data hbs) hfit1
  have hp1 : WriterProgress P key data bs []
      { f := OsFile.mk (PutUint64 (data.length : Int).toNat ++ PutUint64 (bs : Int).toNat
                ++ zeros (16 * blockCountOf bs data)) (16 + 16 * blockCountOf bs data),
        file_size := (data.length : Int), block_size := (bs : Int),
        block_count := (blockCountOf bs data : Int), key := key, current_write_index := 0,
        current_write_pt := ((16 + 16 * blockCountOf bs data : Nat) : Int), buf := [] } := by
    refine ⟨⟨rfl, rfl, rfl, rfl, rfl, ?_, ?_, by simp⟩, ?_, ?_⟩
    · simp only [List.length_append, length_PutUint64, length_zeros]
    · simp [containerBytes, indexBytes]
    · intro i hi
      simp at hi
    · simp [payloadLength]
  obtain ⟨w2, envs2, rnd2, e2, d1, d2, d3, d4⟩ :=
    writeAll_progress P key data bs hbs hkey hfit chunks rnd _ [] hrnd hp1
      (by simp [hchunks]) hne (by simpa using hbs)
  obtain ⟨w3, envs3, rnd3, e3, f1, f2⟩ :=
    Close_progress P key data bs hbs hkey hfit rnd2 w2 envs2 d1 d2 d3 d4
  exact ⟨_, w2, w3, rnd2, rnd3, envs3, hI, e2, e3, f1, f2⟩

/-! ## Reading a block back -/

theorem split_at_getD (envs : List Bytes) (n : Nat) (h : n < envs.length) :
    envs = envs.take n ++ envs.getD n [] :: envs.drop (n + 1) := by
  induction envs generalizing n with
  | nil => simp at h
  | cons e rest ih =>
    cases n with
    | zero => simp
    | succ m =>
      simp only [List.length_cons] at h
      have := ih m (by omega)
      simp only [List.take_succ_cons, List.getD_cons_succ, List.drop_succ_cons, List.cons_append]
      rw [← this]

theorem length_blockAt (bs : Nat) (data : Bytes) (q : Nat) :
    (blockAt bs data q).length = min bs (data.length - q * bs) := by
  simp [blockAt, List.length_take, List.length_drop]

/-- Claim C11. Read at end of file: when the cursor equals `FileSize()`, `Read` returns
zero bytes and `io.EOF` for every buffer (the outcome `error eof` stands for the pair
`(0, io.EOF)`), whatever the fuel; the stream, with its file handle, its cursor and its
cached block, and the buffer are as before, so no block was fetched. -/
theorem C11_read_at_end_of_file (P : Primitives) (fuel : Nat) (file : FileBlockEncryptReadStream)
    (buf : Bytes) (h : file.Cursor = file.FileSize) :
    file.Read P fuel buf = some (.error .eof, file, buf) := by
  have hc : file.cur_pos ≥ file.file_size := by
    unfold FileBlockEncryptReadStream.Cursor FileBlockEncryptReadStream.FileSize at h
    omega
  simp only [FileBlockEncryptReadStream.Read, hc, if_true]

theorem C11_read_at_end_of_file_witness :
    ({ sampleReader with cur_pos := 10 } : FileBlockEncryptReadStream).Read toyPrimitives 0 [1, 2]
      = some (.error .eof, { sampleReader with cur_pos := 10 }, [1, 2]) :=
  C11_read_at_end_of_file toyPrimitives 0 { sampleReader with cur_pos := 10 } [1, 2] rfl

/-- Claim C19. Length comes from the header, padding is never inspected: on an envelope
with tag `AES256_FLAT`, under a 32-byte key, with a ciphertext part (the bytes from offset
22) whose length is a positive multiple of 16 and a length field `p` not above that
length, `DecryptFileContents` returns the first `p` bytes of the CBC decryption of the
ciphertext under the IV of the envelope, whatever the other decrypted bytes are. The
CBC decrypter is taken to keep the length of its input. -/
theorem C19_length_from_header (P : Primitives) (hP : P.Lawful) (data key : Bytes)
    (htag : Uint16 (slice data 0 2) = AES256_FLAT) (hkey : key.length = 32)
    (hpos : 22 < data.length) (hmul : (data.length - 22) % 16 = 0)
    (hp : Uint32 (slice data 2 6) ≤ data.length - 22) :
    DecryptFileContents P data key
      = .ok ((P.cbcDecrypt key (slice data 6 22) (data.drop 22)).take
          (Uint32 (slice data 2 6))) := by
  have hk := aesKeyOk_of_32 key hkey
  have h2 : ¬ data.length < 2 := by omega
  have h23 : ¬ data.length < 23 := by omega
  have hzip : ¬ (AES256_FLAT = AES256_ZIP) := by decide
  have hctlen : (data.drop 22).length = data.length - 22 := List.length_drop _ _
  have hiv : (slice data 6 22).length = 16 := by
    simp only [slice, List.length_drop, List.length_take]
    omega
  have hn : ¬ ((Uint32 (slice data 2 6) : Int) < 0
      ∨ (Uint32 (slice data 2 6) : Int) > ((data.drop 22).length : Int)) := by
    rw [hctlen]
    omega
  have hdl := hP.dec_length key (slice data 6 22) (data.drop 22) hk hiv (by rw [hctlen]; exact hmul)
  simp only [DecryptFileContents, h2, if_false, htag, hzip, if_true, decryptBody, h23, hn, hk]
  rw [CryptBlocks_ok _ _ (by rw [hctlen]; exact hmul), copyBytes_eq_of_length _ _ (by simp [hdl])]
  simp

theorem C19_length_from_header_witness :
    DecryptFileContents toyPrimitives
        ([0, 2, 0, 0, 0, 3] ++ zeros 16 ++ List.replicate 16 10) key32
      = .ok [3, 3, 3] :=
  C19_length_from_header toyPrimitives toyPrimitives_lawful
    ([0, 2, 0, 0, 0, 3] ++ zeros 16 ++ List.replicate 16 10) key32 (by decide) (by decide)
    (by decide) (by decide) (by decide)

/-! ## Inputs on which a call does not return normally -/

theorem CryptBlocks_unaligned (f : Bytes → Bytes) (dst src : Bytes)
    (h : src.length % 16 ≠ 0) : CryptBlocks f dst src = .panic := by
  unfold CryptBlocks
  rw [if_pos h]

/-- Claim C18, at a failing input. A 23-byte envelope with the tag `AES256_FLAT`, the
length field 0, an IV and one byte of ciphertext, under a 32-byte key: the length checks
pass, the key is accepted, and `CryptBlocks` panics on the input that is not a whole
number of blocks. `DecryptFileContents` neither returns data nor an error. -/
theorem C18_unaligned_ciphertext_panics (P : Primitives) :
    DecryptFileContents P ([0, 2, 0, 0, 0, 0] ++ zeros 16 ++ [9]) key32 = .panic := by
  have hk : aesKeyOk key32 = true := by decide
  have h1 : ¬ ([0, 2, 0, 0, 0, 0] ++ zeros 16 ++ [9] : Bytes).length < 2 := by decide
  have h2 : ¬ ([0, 2, 0, 0, 0, 0] ++ zeros 16 ++ [9] : Bytes).length < 23 := by decide
  have h3 : Uint16 (slice ([0, 2, 0, 0, 0, 0] ++ zeros 16 ++ [9]) 0 2) = AES256_FLAT := by
    decide
  have h4 : ¬ (AES256_FLAT = AES256_ZIP) := by decide
  have h5 : ¬ ((Uint32 (slice ([0, 2, 0, 0, 0, 0] ++ zeros 16 ++ [9]) 2 6) : Int) < 0
      ∨ (Uint32 (slice ([0, 2, 0, 0, 0, 0] ++ zeros 16 ++ [9]) 2 6) : Int)
          > ((([0, 2, 0, 0, 0, 0] ++ zeros 16 ++ [9] : Bytes).drop 22).length : Int)) := by
    decide
  have h6 : (([0, 2, 0, 0, 0, 0] ++ zeros 16 ++ [9] : Bytes).drop 22).length % 16 ≠ 0 := by
    decide
  simp only [DecryptFileContents, h1, if_false, h3, h4, if_true, decryptBody, h2, h5, hk,
    CryptBlocks_unaligned _ _ _ h6]

/-- Claim C17, at a failing input. `Initialize(4, 2, key)` followed by `Close()` leaves a
finished container whose two index entries are zero. A reader opened on it fetches block 0
as the empty envelope, which decrypts to no bytes: the loop of `Read` then copies nothing
and does not advance the cursor, so for no number of iterations does `Read` into a
one-byte buffer return. -/
theorem C17_read_does_not_return (P : Primitives) :
    ∃ w r, CreateFileBlockEncryptWriteStream.Initialize 4 2 key32 = (.ok (), w)
      ∧ w.Close P sampleRand = (.ok (), w, sampleRand)
      ∧ CreateFileBlockEncryptReadStream (OsFile.mk w.f.content 0) key32 = .ok r
      ∧ ∀ fuel, r.Read P fuel [0] = none := by
  have hI := Initialize_ok CreateFileBlockEncryptWriteStream 4 2 key32 2 (by decide) (by decide)
    (by decide) (by decide) (by decide) (by decide)
  have hR := CreateFileBlockEncryptReadStream_ok (zeros (16 * 2)) key32 4 2 (by decide)
    (by decide) (by decide) (by decide)
  have hcd : ceilDiv 4 2 = 2 := by decide
  rw [hcd] at hR
  refine ⟨_, _, hI, rfl, hR, ?_⟩
  have hstep : ∀ fuel, readLoop P (fuel + 1)
      { f := OsFile.mk (PutUint64 (4 : Int).toNat ++ PutUint64 (2 : Int).toNat ++ zeros (16 * 2)) 0,
        file_size := 4, block_size := 2, block_count := 2, key := key32, cur_pos := 0,
        cur_block := 0, cur_block_data := [] } [0] 0
      = readLoop P fuel
      { f := OsFile.mk (PutUint64 (4 : Int).toNat ++ PutUint64 (2 : Int).toNat ++ zeros (16 * 2)) 0,
        file_size := 4, block_size := 2, block_count := 2, key := key32, cur_pos := 0,
        cur_block := 0, cur_block_data := [] } [0] 0 := by
    intro fuel
    rfl
  have hfix : ∀ fuel, readLoop P fuel
      { f := OsFile.mk (PutUint64 (4 : Int).toNat ++ PutUint64 (2 : Int).toNat ++ zeros (16 * 2)) 0,
        file_size := 4, block_size := 2, block_count := 2, key := key32, cur_pos := 0,
        cur_block := 0, cur_block_data := [] } [0] 0 = none := by
    intro fuel
    induction fuel with
    | zero => rfl
    | succ fuel ih => rw [hstep, ih]
  intro fuel
  cases fuel with
  | zero => rfl
  | succ fuel =>
    have h1 : FileBlockEncryptReadStream.Read P (fuel + 1)
        { f := OsFile.mk (PutUint64 (4 : Int).toNat ++ PutUint64 (2 : Int).toNat ++ zeros (16 * 2)) 16,
          file_size := 4, block_size := 2, block_count := 2, key := key32, cur_pos := 0,
          cur_block := -1, cur_block_data := [] } [0]
      = readLoop P fuel
        { f := OsFile.mk (PutUint64 (4 : Int).toNat ++ PutUint64 (2 : Int).toNat ++ zeros (16 * 2)) 0,
          file_size := 4, block_size := 2, block_count := 2, key := key32, cur_pos := 0,
          cur_block := 0, cur_block_data := [] } [0] 0 := by
      rfl
    rw [h1, hfix]

/-! ## The capacity checks of `Write` -/

theorem encryptBody_ne_exceeded (P : Primitives) (rnd : Option Bytes) (result fd key : Bytes) :
    encryptBody P rnd result fd key ≠ .error .exceededLimit := by
  unfold encryptBody
  cases rnd with
  | none => simp
  | some r =>
    simp only
    by_cases hk : aesKeyOk key = true
    · simp only [hk, if_true]
      rw [CryptBlocks_ok _ _ (add_padding_mod fd)]
      simp
    · simp [hk]

theorem EncryptFileContents_ne_exceeded (P : Primitives) (rnd : Option Bytes) (data : Bytes)
    (method : Nat) (key : Bytes) :
    EncryptFileContents P rnd data method key ≠ .error .exceededLimit := by
  unfold EncryptFileContents
  split
  · simp
  · simp only
    split
    · exact encryptBody_ne_exceeded _ _ _ _ _
    · split
      · exact encryptBody_ne_exceeded _ _ _ _ _
      · simp

/-- The capacity error is not among the errors of `commitBlock`. -/
theorem commitBlock_ne_exceeded (P : Primitives) (rnd : RandSource)
    (w : FileBlockEncryptWriteStream) (blockData : Bytes) :
    (commitBlock P rnd w blockData).1 ≠ .error .exceededLimit := by
  unfold commitBlock encryptWith
  have hE := EncryptFileContents_ne_exceeded P (rnd 0) blockData AES256_ZIP w.key
  cases hce : EncryptFileContents P (rnd 0) blockData AES256_ZIP w.key with
  | panic => simp
  | error e =>
    simp only [ne_eq, Res.error.injEq]
    intro h
    rw [h] at hce
    exact hE hce
  | ok content =>
    simp only
    rcases Seek_outcome w.f (wrap64 (16 + wrap64 (w.current_write_index * 16))) with h1 | h1
    · rw [h1]
      simp only
      rcases Write_outcome ({ w.f with offset := (wrap64 (16 + wrap64 (w.current_write_index * 16))).toNat }) (PutUint64 (toUint64 w.current_write_pt)) with ⟨f2, h2⟩ | h2
      · rw [h2]
        simp only
        rcases Write_outcome f2 (PutUint64 content.length) with ⟨f3, h3⟩ | h3
        · rw [h3]
          simp only
          rcases Seek_outcome f3 w.current_write_pt with h4 | h4
          · rw [h4]
            simp only
            rcases Write_outcome ({ f3 with offset := w.current_write_pt.toNat }) content with ⟨f5, h5⟩ | h5
            · rw [h5]
              simp
            · rw [h5]
              simp
          · rw [h4]
            simp
        · rw [h3]
          simp
      · rw [h2]
        simp
    · rw [h1]
      simp

/-- When the loop of `Write` returns the capacity error, the buffer holds a whole block
and every block is committed. -/
theorem writeLoop_exceeded (P : Primitives) (fuel : Nat) :
    ∀ (rnd : RandSource) (w w2 : FileBlockEncryptWriteStream) (rnd2 : RandSource),
      writeLoop P fuel rnd w = some (.error .exceededLimit, w2, rnd2) →
      (w2.buf.length : Int) ≥ w2.block_size ∧ w2.current_write_index ≥ w2.block_count := by
  induction fuel with
  | zero => intro rnd w w2 rnd2 h; simp [writeLoop] at h
  | succ fuel ih =>
    intro rnd w w2 rnd2 h
    unfold writeLoop at h
    by_cases hfull : (w.buf.length : Int) ≥ w.block_size
    · simp only [hfull, if_true] at h
      by_cases hcap : w.current_write_index ≥ w.block_count
      · simp only [hcap, if_true, Option.some.injEq, Prod.mk.injEq, true_and] at h
        rw [← h.1]
        exact ⟨hfull, hcap⟩
      · simp only [hcap, if_false] at h
        by_cases hneg : w.block_size < 0
        · simp [hneg] at h
        · simp only [hneg, if_false] at h
          have hc := commitBlock_ne_exceeded P rnd
            { w with buf := w.buf.drop w.block_size.toNat } (w.buf.take w.block_size.toNat)
          generalize commitBlock P rnd { w with buf := w.buf.drop w.block_size.toNat }
            (w.buf.take w.block_size.toNat) = res at h hc
          obtain ⟨r1, w1, rnd1⟩ := res
          cases r1 with
          | ok u => exact ih rnd1 w1 w2 rnd2 h
          | error e =>
            simp only [Option.some.injEq, Prod.mk.injEq] at h
            exact absurd h.1 hc
          | panic => simp at h
    · simp [hfull] at h

/-- Claim C14, as stated, fails: with `file_size = 4` and `block_size = 2`, after a
`Write` of four bytes has committed both blocks, a `Write` of the empty chunk leaves no
byte in the buffer, fewer than `block_size`, and returns the capacity error. -/
theorem C14_empty_write_at_capacity :
    ∃ w0 w1 rnd1, CreateFileBlockEncryptWriteStream.Initialize 4 2 key32 = (.ok (), w0)
      ∧ w0.Write toyPrimitives sampleRand [1, 2, 3, 4] = some (.ok (), w1, rnd1)
      ∧ w1.current_write_index = w1.block_count
      ∧ ((w1.buf ++ []).length : Int) < w1.block_size
      ∧ w1.Write toyPrimitives rnd1 [] = some (.error .exceededLimit, w1, rnd1) := by
  have hI := Initialize_ok CreateFileBlockEncryptWriteStream 4 2 key32 2 (by decide) (by decide)
    (by decide) (by decide) (by decide) (by decide)
  have hp1 : WriterProgress toyPrimitives key32 [1, 2, 3, 4] 2 []
      { f := OsFile.mk (PutUint64 (4 : Int).toNat ++ PutUint64 (2 : Int).toNat
                ++ zeros (16 * 2)) (16 + 16 * 2),
        file_size := 4, block_size := 2, block_count := ((2 : Nat) : Int), key := key32,
        current_write_index := 0, current_write_pt := ((16 + 16 * 2 : Nat) : Int),
        buf := [] } := by
    refine ⟨⟨rfl, rfl, rfl, rfl, rfl, rfl, rfl, by decide⟩, ?_, rfl⟩
    intro i hi
    simp at hi
  obtain ⟨w1, envs, rnd1, e1, -, hp, hrest, hlt⟩ :=
    Write_progress toyPrimitives key32 [1, 2, 3, 4] 2 (by decide) (by decide)
      (by simp [containerLength, payloadLength, envelopeLength, blockCountOf, blockAt,
            toyPrimitives, List.range_succ])
      sampleRand _ [] [1, 2, 3, 4] [] (fun _ => rfl) hp1 (by simp) (by simp)
  have hlen := congrArg List.length hrest
  simp only [List.length_drop, List.length_cons, List.length_nil, List.append_nil] at hlen
  have hcl : envs.length ≤ 2 := hp.inv.count_le
  have hidx := hp.inv.index_eq
  have hbc : w1.block_count = 2 := hp.inv.block_count_eq
  have hbs : w1.block_size = 2 := hp.inv.block_size_eq
  have hcap : w1.current_write_index ≥ w1.block_count := by
    rw [hidx, hbc]
    omega
  refine ⟨_, w1, rnd1, hI, e1, ?_, ?_, ?_⟩
  · rw [hidx, hbc]
    omega
  · rw [hbs, List.append_nil]
    omega
  · simp only [FileBlockEncryptWriteStream.Write, hcap, if_true]

/-- Claim C14, amended. `Write` returns the capacity error in two situations only: at
entry, when the number of committed blocks has reached `block_count`, whatever the chunk,
and then the stream is left as it was; or in the slicing loop, when the buffer holds at
least `block_size` bytes while every block is committed. A `Write` entered with fewer
than `block_count` committed blocks whose chunk leaves fewer than `block_size` bytes
buffered succeeds, commits no block and only extends the buffer. -/
theorem C14_capacity_checks (P : Primitives) (rnd : RandSource)
    (w : FileBlockEncryptWriteStream) (data : Bytes) :
    (w.current_write_index ≥ w.block_count →
        w.Write P rnd data = some (.error .exceededLimit, w, rnd))
      ∧ (w.current_write_index < w.block_count →
          ((w.buf ++ data).length : Int) < w.block_size →
          w.Write P rnd data = some (.ok (), { w with buf := w.buf ++ data }, rnd))
      ∧ (∀ w2 rnd2, w.Write P rnd data = some (.error .exceededLimit, w2, rnd2) →
          (w.current_write_index ≥ w.block_count ∧ w2 = w)
            ∨ (w.current_write_index < w.block_count
                ∧ (w2.buf.length : Int) ≥ w2.block_size
                ∧ w2.current_write_index ≥ w2.block_count)) := by
  refine ⟨?_, ?_, ?_⟩
  · intro hcap
    simp only [FileBlockEncryptWriteStream.Write, hcap, if_true]
  · intro hlt hshort
    have hcap : ¬ w.current_write_index ≥ w.block_count := by omega
    have hfull : ¬ ((w.buf ++ data).length : Int) ≥ w.block_size := by omega
    simp only [FileBlockEncryptWriteStream.Write, hcap, if_false, writeLoop, hfull]
  · intro w2 rnd2 h
    by_cases hcap : w.current_write_index ≥ w.block_count
    · left
      simp only [FileBlockEncryptWriteStream.Write, hcap, if_true, Option.some.injEq,
        Prod.mk.injEq, true_and] at h
      exact ⟨hcap, h.1.symm⟩
    · right
      simp only [FileBlockEncryptWriteStream.Write, hcap, if_false] at h
      exact ⟨by omega, writeLoop_exceeded P _ rnd _ w2 rnd2 h⟩

theorem C14_capacity_checks_witness :
    ({ sampleWriter with current_write_index := 2 } : FileBlockEncryptWriteStream).Write
          toyPrimitives sampleRand []
        = some (.error .exceededLimit, { sampleWriter with current_write_index := 2 },
            sampleRand)
      ∧ sampleWriter.Write toyPrimitives sampleRand [5]
        = some (.ok (), { sampleWriter with buf := sampleWriter.buf ++ [5] }, sampleRand) :=
  ⟨(C14_capacity_checks toyPrimitives sampleRand
      { sampleWriter with current_write_index := 2 } []).1 (by decide),
    (C14_capacity_checks toyPrimitives sampleRand sampleWriter [5]).2.1 (by decide)
      (by decide)⟩

/-! ## `fetch_block` and the stored blocks -/

theorem readAt_zero (content : Bytes) (off : Nat) : readAt content off 0 = [] := by
  simp [readAt, copyBytes, zeros]

/-- The two outcomes of `f.Read` into a fresh buffer of `n` bytes. -/
theorem Read_zeros (f : OsFile) (n : Nat) :
    (f.Read (zeros n)
        = ((readAt f.content f.offset n, .ok (min n (f.content.length - f.offset))),
            OsFile.mk f.content (f.offset + min n (f.content.length - f.offset)))
      ∧ (n = 0 ∨ f.offset < f.content.length))
    ∨ (f.Read (zeros n) = ((zeros n, .error .eof), f) ∧ n ≠ 0
        ∧ f.content.length ≤ f.offset) := by
  obtain ⟨c, o⟩ := f
  unfold OsFile.Read
  by_cases hn : n = 0
  · subst hn
    left
    simp [readAt, copyBytes, zeros]
  · by_cases he : c.length ≤ o
    · right
      refine ⟨?_, hn, he⟩
      simp only [length_zeros, hn, if_false, he, if_true]
    · left
      refine ⟨?_, Or.inr (by simpa using he)⟩
      simp only [length_zeros, hn, if_false, he, List.length_take, List.length_drop, readAt]

theorem storedBlock_none (P : Primitives) (content key : Bytes) (n : Int)
    (h : storedEnvelope content n = none) : storedBlock P content key n = none := by
  unfold storedBlock
  rw [h]

theorem storedBlock_of (P : Primitives) (content key : Bytes) (n : Int) (env d : Bytes)
    (h1 : storedEnvelope content n = some env) (h2 : DecryptFileContents P env key = .ok d) :
    storedBlock P content key n = some d := by
  unfold storedBlock
  rw [h1]
  simp only [h2]

theorem fetch_block_failed (P : Primitives) (file : FileBlockEncryptReadStream) (n : Int)
    (res : Res Unit) (f2 : OsFile) (h : file.fetch_block P n = (res, { file with f := f2 }))
    (hc : f2.content = file.f.content) (hres : res ≠ .ok ())
    (hnone : ¬ (n < 0 ∨ n ≥ file.block_count) →
      storedBlock P file.f.content file.key n = none) :
    ∃ f2, f2.content = file.f.content
      ∧ (((file.fetch_block P n).1 ≠ .ok () ∧ (file.fetch_block P n).2 = { file with f := f2 }
          ∧ (¬ (n < 0 ∨ n ≥ file.block_count) →
              storedBlock P file.f.content file.key n = none))
        ∨ (∃ d, file.fetch_block P n
              = (.ok (), { file with f := f2, cur_block := n, cur_block_data := d })
            ∧ ¬ (n < 0 ∨ n ≥ file.block_count)
            ∧ storedBlock P file.f.content file.key n = some d)) := by
  rw [h]
  exact ⟨f2, hc, Or.inl ⟨hres, rfl, hnone⟩⟩

/-- Every outcome of `fetch_block`: the file content and all fields but the handle and
the cache are kept; a call that does not succeed keeps the cache too, and within the bounds
it fails only when there is no stored block of that number; a call that succeeds caches
the stored block of that number. -/
theorem fetch_block_frame (P : Primitives) (file : FileBlockEncryptReadStream) (n : Int) :
    ∃ f2, f2.content = file.f.content
      ∧ (((file.fetch_block P n).1 ≠ .ok () ∧ (file.fetch_block P n).2 = { file with f := f2 }
          ∧ (¬ (n < 0 ∨ n ≥ file.block_count) →
              storedBlock P file.f.content file.key n = none))
        ∨ (∃ d, file.fetch_block P n
              = (.ok (), { file with f := f2, cur_block := n, cur_block_data := d })
            ∧ ¬ (n < 0 ∨ n ≥ file.block_count)
            ∧ storedBlock P file.f.content file.key n = some d)) := by
  by_cases hb : n < 0 ∨ n ≥ file.block_count
  · have hfb : file.fetch_block P n = (.error .blockOutOfBounds, { file with f := file.f }) := by
      simp only [FileBlockEncryptReadStream.fetch_block, hb, if_true]
    exact fetch_block_failed P file n _ file.f hfb rfl (by simp) (fun h => absurd hb h)
  obtain ⟨o, ho⟩ : ∃ o, o = entryOffset n := ⟨_, rfl⟩
  have ho2 : wrap64 (16 + wrap64 (n * 16)) = o := ho.symm ▸ rfl
  by_cases hneg : o < 0
  · have s1 : file.f.Seek o = (.error .invalidArgument, file.f) := by
      simp [OsFile.Seek, hneg]
    have hfb : file.fetch_block P n = (.error .invalidArgument, { file with f := file.f }) := by
      simp only [FileBlockEncryptReadStream.fetch_block, hb, if_false, ho2, s1]
    refine fetch_block_failed P file n _ file.f hfb rfl (by simp) (fun _ => ?_)
    exact storedBlock_none P _ _ _ (by simp only [storedEnvelope, ← ho, hneg, true_or, if_true])
  have s1 : file.f.Seek o = (.ok (), OsFile.mk file.f.content o.toNat) := by
    rw [Seek_ok _ _ (by omega)]
  obtain ⟨k1, hk1⟩ : ∃ k1, k1 = o.toNat + min 8 (file.f.content.length - o.toNat) := ⟨_, rfl⟩
  rcases Read_zeros (OsFile.mk file.f.content o.toNat) 8 with ⟨r1, hr1⟩ | ⟨r1, -, he1⟩
  swap
  · have hfb : file.fetch_block P n
        = (.error .eof, { file with f := OsFile.mk file.f.content o.toNat }) := by
      simp only [FileBlockEncryptReadStream.fetch_block, hb, if_false, ho2, s1, r1]
    refine fetch_block_failed P file n _ _ hfb rfl (by simp) (fun _ => ?_)
    have c1 : o < 0 ∨ file.f.content.length ≤ o.toNat + 8 := by
      simp only at he1
      omega
    exact storedBlock_none P _ _ _ (by simp only [storedEnvelope, ← ho, c1, if_true])
  simp only at r1 hr1
  rw [← hk1] at r1
  obtain ⟨k2, hk2⟩ : ∃ k2, k2 = k1 + min 8 (file.f.content.length - k1) := ⟨_, rfl⟩
  rcases Read_zeros (OsFile.mk file.f.content k1) 8 with ⟨r2, hr2⟩ | ⟨r2, -, he2⟩
  swap
  · have hfb : file.fetch_block P n
        = (.error .eof, { file with f := OsFile.mk file.f.content k1 }) := by
      simp only [FileBlockEncryptReadStream.fetch_block, hb, if_false, ho2, s1, r1, r2]
    refine fetch_block_failed P file n _ _ hfb rfl (by simp) (fun _ => ?_)
    have c1 : o < 0 ∨ file.f.content.length ≤ o.toNat + 8 := by
      simp only at he2
      omega
    exact storedBlock_none P _ _ _ (by simp only [storedEnvelope, ← ho, c1, if_true])
  simp only at r2 hr2
  rw [← hk2] at r2
  have hk18 : k1 = o.toNat + 8 := by omega
  have hc1 : ¬ (o < 0 ∨ file.f.content.length ≤ o.toNat + 8) := by omega
  rw [hk18] at r1 r2
  obtain ⟨pt, hptd⟩ : ∃ pt, pt = ofUint64 (Uint64 (readAt file.f.content o.toNat 8)) :=
    ⟨_, rfl⟩
  obtain ⟨l, hld⟩ : ∃ l, l = ofUint64 (Uint64 (readAt file.f.content (o.toNat + 8) 8)) :=
    ⟨_, rfl⟩
  by_cases hpt : pt < 0
  · have s2 : (OsFile.mk file.f.content k2).Seek pt
        = (.error .invalidArgument, OsFile.mk file.f.content k2) := by
      simp [OsFile.Seek, hpt]
    have hfb : file.fetch_block P n
        = (.error .invalidArgument, { file with f := OsFile.mk file.f.content k2 }) := by
      simp only [FileBlockEncryptReadStream.fetch_block, hb, if_false, ho2, s1, r1, r2,
        ← hptd, s2]
    refine fetch_block_failed P file n _ _ hfb rfl (by simp) (fun _ => ?_)
    have c2 : pt < 0 ∨ l < 0 := Or.inl hpt
    exact storedBlock_none P _ _ _
      (by simp only [storedEnvelope, ← ho, hc1, ← hptd, ← hld, c2, if_false, if_true])
  have s2 : (OsFile.mk file.f.content k2).Seek pt
      = (.ok (), OsFile.mk file.f.content pt.toNat) := by
    rw [Seek_ok _ _ (by omega)]
  by_cases hl : l < 0
  · have hfb : file.fetch_block P n
        = (.panic, { file with f := OsFile.mk file.f.content pt.toNat }) := by
      simp only [FileBlockEncryptReadStream.fetch_block, hb, if_false, ho2, s1, r1, r2,
        ← hptd, s2, ← hld, hl, if_true]
    refine fetch_block_failed P file n _ _ hfb rfl (by simp) (fun _ => ?_)
    have c2 : pt < 0 ∨ l < 0 := Or.inr hl
    exact storedBlock_none P _ _ _
      (by simp only [storedEnvelope, ← ho, hc1, ← hptd, ← hld, c2, if_false, if_true])
  obtain ⟨k3, hk3⟩ : ∃ k3, k3 = pt.toNat + min l.toNat (file.f.content.length - pt.toNat) :=
    ⟨_, rfl⟩
  have hc2 : ¬ (pt < 0 ∨ l < 0) := by omega
  rcases Read_zeros (OsFile.mk file.f.content pt.toNat) l.toNat with ⟨r3, hr3⟩ | ⟨r3, hn3, he3⟩
  swap
  · have hfb : file.fetch_block P n
        = (.error .eof, { file with f := OsFile.mk file.f.content pt.toNat }) := by
      simp only [FileBlockEncryptReadStream.fetch_block, hb, if_false, ho2, s1, r1, r2,
        ← hptd, s2, ← hld, hl, r3]
    refine fetch_block_failed P file n _ _ hfb rfl (by simp) (fun _ => ?_)
    have c3 : l.toNat ≠ 0 ∧ file.f.content.length ≤ pt.toNat := ⟨hn3, he3⟩
    apply storedBlock_none
    simp only [storedEnvelope, ← ho, hc1, ← hptd, ← hld, hc2, if_false]
    rw [if_pos c3]
  simp only at r3 hr3
  rw [← hk3] at r3
  have henv : storedEnvelope file.f.content n
      = some (readAt file.f.content pt.toNat l.toNat) := by
    have c3 : ¬ (l.toNat ≠ 0 ∧ file.f.content.length ≤ pt.toNat) := by omega
    simp only [storedEnvelope, ← ho, hc1, ← hptd, ← hld, hc2, c3, if_false]
  cases hdec : DecryptFileContents P (readAt file.f.content pt.toNat l.toNat) file.key with
  | ok d =>
    have hfb : file.fetch_block P n
        = (.ok (), { file with f := OsFile.mk file.f.content k3, cur_block := n,
                               cur_block_data := d }) := by
      simp only [FileBlockEncryptReadStream.fetch_block, hb, if_false, ho2, s1, r1, r2,
        ← hptd, s2, ← hld, hl, r3, hdec]
    have hsb : storedBlock P file.f.content file.key n = some d :=
      storedBlock_of P file.f.content file.key n _ d henv hdec
    exact ⟨OsFile.mk file.f.content k3, rfl, Or.inr ⟨d, hfb, hb, hsb⟩⟩
  | error e =>
    have hfb : file.fetch_block P n
        = (.error e, { file with f := OsFile.mk file.f.content k3 }) := by
      simp only [FileBlockEncryptReadStream.fetch_block, hb, if_false, ho2, s1, r1, r2,
        ← hptd, s2, ← hld, hl, r3, hdec]
    refine fetch_block_failed P file n _ _ hfb rfl (by simp) (fun _ => ?_)
    unfold storedBlock
    rw [henv]
    simp only [hdec]
  | panic =>
    have hfb : file.fetch_block P n
        = (.panic, { file with f := OsFile.mk file.f.content k3 }) := by
      simp only [FileBlockEncryptReadStream.fetch_block, hb, if_false, ho2, s1, r1, r2,
        ← hptd, s2, ← hld, hl, r3, hdec]
    refine fetch_block_failed P file n _ _ hfb rfl (by simp) (fun _ => ?_)
    unfold storedBlock
    rw [henv]
    simp only [hdec]

/-- Within the bounds, `fetch_block` succeeds on a stored block and caches it. -/
theorem fetch_block_stored (P : Primitives) (file : FileBlockEncryptReadStream) (n : Int)
    (d : Bytes) (hb : ¬ (n < 0 ∨ n ≥ file.block_count))
    (hs : storedBlock P file.f.content file.key n = some d) :
    ∃ f2, f2.content = file.f.content
      ∧ file.fetch_block P n
        = (.ok (), { file with f := f2, cur_block := n, cur_block_data := d }) := by
  obtain ⟨f2, hc, hcase | ⟨d2, heq, -, hsb⟩⟩ := fetch_block_frame P file n
  · rw [hcase.2.2 hb] at hs
    simp at hs
  · rw [hs] at hsb
    rw [Option.some.inj hsb]
    exact ⟨f2, hc, heq⟩

/-! ## Coherence of the cache -/

theorem fetch_block_coherent (P : Primitives) (file : FileBlockEncryptReadStream) (n : Int)
    (h : CacheCoherent P file) : CacheCoherent P (file.fetch_block P n).2 := by
  obtain ⟨f2, hc, hcase | ⟨d, heq, -, hsb⟩⟩ := fetch_block_frame P file n
  · rw [hcase.2.1]
    unfold CacheCoherent at h ⊢
    simp only [hc]
    exact h
  · rw [heq]
    unfold CacheCoherent
    simp only [hc]
    exact Or.inr hsb

/-- The loop of `Read` keeps the cache coherent, whatever it returns. -/
theorem readLoop_coherent (P : Primitives) (fuel : Nat) :
    ∀ (r : FileBlockEncryptReadStream) (buf : Bytes) (filled : Int)
      (out : Res Int × FileBlockEncryptReadStream × Bytes),
      CacheCoherent P r → readLoop P fuel r buf filled = some out →
      CacheCoherent P out.2.1 := by
  induction fuel with
  | zero => intro r buf filled out _ h; simp [readLoop] at h
  | succ fuel ih =>
    intro r buf filled out hc h
    unfold readLoop at h
    by_cases hcond : filled < (buf.length : Int) ∧ r.cur_pos < r.file_size
    · simp only [hcond, and_self, if_true] at h
      by_cases hbs : r.block_size = 0
      · simp only [hbs, if_true, Option.some.injEq] at h
        rw [← h]
        exact hc
      · simp only [hbs, if_false] at h
        have hf : CacheCoherent P
            (if wrap64 (Int.tdiv r.cur_pos r.block_size) ≠ r.cur_block
              then r.fetch_block P (wrap64 (Int.tdiv r.cur_pos r.block_size))
              else (.ok (), r)).2 := by
          split
          · exact fetch_block_coherent P r _ hc
          · exact hc
        generalize (if wrap64 (Int.tdiv r.cur_pos r.block_size) ≠ r.cur_block
              then r.fetch_block P (wrap64 (Int.tdiv r.cur_pos r.block_size))
              else (.ok (), r)) = ft at h hf
        obtain ⟨res, r1⟩ := ft
        cases res with
        | ok u =>
          have hf1 : CacheCoherent P r1 := hf
          simp only at h
          split at h <;> (try split at h) <;>
            first
              | (simp only [Option.some.injEq] at h
                 rw [← h]
                 exact hf1)
              | (refine ih _ _ _ out ?_ h
                 exact hf1)
        | error e =>
          simp only [Option.some.injEq] at h
          rw [← h]
          exact hf
        | panic =>
          simp only [Option.some.injEq] at h
          rw [← h]
          exact hf
    · simp only [hcond, if_false, Option.some.injEq] at h
      rw [← h]
      exact hc

theorem Read_coherent (P : Primitives) (fuel : Nat) (r : FileBlockEncryptReadStream)
    (buf : Bytes) (out : Res Int × FileBlockEncryptReadStream × Bytes)
    (hc : CacheCoherent P r) (h : r.Read P fuel buf = some out) : CacheCoherent P out.2.1 := by
  unfold FileBlockEncryptReadStream.Read at h
  split at h
  · simp only [Option.some.injEq] at h
    rw [← h]
    exact hc
  · exact readLoop_coherent P fuel r buf 0 out hc h

theorem Seek_coherent (P : Primitives) (r : FileBlockEncryptReadStream) (pos whence : Int)
    (hc : CacheCoherent P r) : CacheCoherent P (r.Seek pos whence).2 := by
  unfold FileBlockEncryptReadStream.Seek
  simp only
  generalize (if whence = 1 then wrap64 (r.cur_pos + pos)
    else if whence = 2 then wrap64 (r.file_size - pos) else pos) = p
  split
  · exact hc
  · exact hc

theorem readerRun_coherent (P : Primitives) (calls : List ReaderCall) :
    ∀ (r0 r : FileBlockEncryptReadStream), CacheCoherent P r0 →
      readerRun P r0 calls = some r → CacheCoherent P r := by
  induction calls with
  | nil =>
    intro r0 r hc h
    simp only [readerRun, Option.some.injEq] at h
    rw [← h]
    exact hc
  | cons c rest ih =>
    intro r0 r hc h
    cases c with
    | seek pos whence =>
      simp only [readerRun] at h
      exact ih _ r (Seek_coherent P r0 pos whence hc) h
    | read buf fuel =>
      simp only [readerRun] at h
      cases hr : r0.Read P fuel buf with
      | none => simp [hr] at h
      | some out =>
        obtain ⟨res, r2, buf2⟩ := out
        simp only [hr] at h
        exact ih _ r (Read_coherent P fuel r0 buf _ hc hr) h

theorem Create_cache_empty (f : OsFile) (key : Bytes) (r : FileBlockEncryptReadStream)
    (h : CreateFileBlockEncryptReadStream f key = .ok r) : r.cur_block = -1 := by
  unfold CreateFileBlockEncryptReadStream at h
  split at h
  · simp only at h
    split at h
    · split at h
      · simp at h
      · simp only [Res.ok.injEq] at h
        rw [← h]
    · simp at h
    · simp at h
  · simp at h
  · simp at h

/-- Claim C20. Single-block cache coherence: `fetch_block(n)` with `n < 0` or
`n ≥ block_count` returns the bounds error and leaves the stream as it is; a
`fetch_block` that does not succeed (bounds, file or decrypt error, or a panic) leaves the
cached block number and plaintext unchanged; one that succeeds sets the cache to `n` and
the decryption of the envelope stored at index entry `n`. Hence in every state a read
stream reaches from `CreateFileBlockEncryptReadStream` by `Seek` and `Read` calls, no
block is cached or the cached plaintext is the decryption of the stored block whose
number is cached. -/
theorem C20_cache_coherence (P : Primitives) (file : FileBlockEncryptReadStream) (n : Int) :
    ((n < 0 ∨ n ≥ file.block_count) →
        file.fetch_block P n = (.error .blockOutOfBounds, file))
      ∧ ((file.fetch_block P n).1 ≠ .ok () →
          (file.fetch_block P n).2.cur_block = file.cur_block
            ∧ (file.fetch_block P n).2.cur_block_data = file.cur_block_data)
      ∧ ((file.fetch_block P n).1 = .ok () →
          (file.fetch_block P n).2.cur_block = n
            ∧ storedBlock P file.f.content file.key n
              = some (file.fetch_block P n).2.cur_block_data)
      ∧ (∀ (f : OsFile) (key : Bytes) (r0 r : FileBlockEncryptReadStream)
          (calls : List ReaderCall),
          CreateFileBlockEncryptReadStream f key = .ok r0 → readerRun P r0 calls = some r →
          CacheCoherent P r) := by
  refine ⟨?_, ?_, ?_, ?_⟩
  · intro hb
    simp only [FileBlockEncryptReadStream.fetch_block, hb, if_true]
  · intro hne
    obtain ⟨f2, -, hcase | ⟨d, heq, -, -⟩⟩ := fetch_block_frame P file n
    · rw [hcase.2.1]
      exact ⟨rfl, rfl⟩
    · rw [heq] at hne
      exact absurd rfl hne
  · intro hok
    obtain ⟨f2, -, hcase | ⟨d, heq, -, hsb⟩⟩ := fetch_block_frame P file n
    · exact absurd hok hcase.1
    · rw [heq]
      exact ⟨rfl, hsb⟩
  · intro f key r0 r calls hopen hrun
    exact readerRun_coherent P calls r0 r (Or.inl (Create_cache_empty f key r0 hopen)) hrun

set_option maxRecDepth 8000 in
theorem C20_cache_coherence_witness :
    containerReader.fetch_block toyPrimitives 2 = (.error .blockOutOfBounds, containerReader)
      ∧ (containerReader.fetch_block toyPrimitives 1).2.cur_block = 1
      ∧ storedBlock toyPrimitives sampleContainer key32 1 = some [3]
      ∧ (containerReader.fetch_block toyPrimitives 1).2.cur_block_data = [3] := by
  have h := (C20_cache_coherence toyPrimitives containerReader 1).2.2.1 (by decide)
  refine ⟨(C20_cache_coherence toyPrimitives containerReader 2).1 (by decide), h.1, by decide,
    ?_⟩
  have h2 : storedBlock toyPrimitives sampleContainer key32 1 = some [3] := by decide
  have h3 := h.2
  rw [show containerReader.f.content = sampleContainer from rfl,
    show containerReader.key = key32 from rfl, h2] at h3
  exact (Option.some.inj h3).symm

/-! ## The number of bytes `Read` returns -/

/-- One iteration of the loop of `Read` over a container whose blocks have the lengths
the header implies: at least one byte is copied, as many as the block and the buffer
allow. -/
theorem readLoop_sized_step (P : Primitives) (content key : Bytes) (fs bs : Nat) (bc : Int)
    (hbs : 0 < bs) (hfs : fs < 2 ^ 63) (hcover : (fs : Int) ≤ bc * (bs : Int))
    (hblocks : ∀ n : Int, 0 ≤ n → n < bc →
      ∃ d, storedBlock P content key n = some d
        ∧ (d.length : Int) = min (bs : Int) ((fs : Int) - n * (bs : Int)))
    (fuel : Nat) (r : FileBlockEncryptReadStream) (buf : Bytes) (filled p : Nat)
    (hg : ReaderSized P content key fs bs bc r) (hpos : r.cur_pos = (p : Int))
    (hfilled : filled < buf.length) (hp : p < fs) :
    ∃ r1 buf1 n1, readLoop P (fuel + 1) r buf (filled : Int)
        = readLoop P fuel r1 buf1 ((filled + n1 : Nat) : Int)
      ∧ ReaderSized P content key fs bs bc r1 ∧ r1.cur_pos = ((p + n1 : Nat) : Int)
      ∧ buf1.length = buf.length ∧ 0 < n1 ∧ n1 ≤ fs - p ∧ n1 ≤ buf.length - filled := by
  have hdm := Nat.div_add_mod p bs
  have hmod := Nat.mod_lt p hbs
  have hqmul : p / bs * bs = bs * (p / bs) := Nat.mul_comm _ _
  have hq0 : (0 : Int) ≤ ((p / bs : Nat) : Int) := Int.ofNat_nonneg _
  have hqlt : ((p / bs : Nat) : Int) < bc := by
    by_contra hcon
    have h1 : bc * (bs : Int) ≤ ((p / bs : Nat) : Int) * (bs : Int) :=
      Int.mul_le_mul_of_nonneg_right (by omega) (by omega)
    have h2 : ((p / bs : Nat) : Int) * (bs : Int) = ((p / bs * bs : Nat) : Int) := by
      push_cast
      rfl
    omega
  have hcond : ((filled : Int) < (buf.length : Int) ∧ r.cur_pos < r.file_size) := by
    rw [hpos, hg.file_size_eq]
    omega
  have hbs0 : ¬ (r.block_size = 0) := by
    rw [hg.block_size_eq]
    omega
  have hq : wrap64 (Int.tdiv r.cur_pos r.block_size) = ((p / bs : Nat) : Int) := by
    rw [hpos, hg.block_size_eq, Int.tdiv_eq_ediv (by omega) (by omega)]
    have : ((p : Int) / (bs : Int)) = ((p / bs : Nat) : Int) := by norm_cast
    rw [this]
    apply wrap64_of_inInt64
    unfold InInt64
    have h1 : p / bs ≤ p := Nat.div_le_self _ _
    have h2 : ((p / bs : Nat) : Int) ≤ (p : Int) := Int.ofNat_le.mpr h1
    constructor
    · exact le_trans (by decide) hq0
    · exact lt_of_le_of_lt h2 (by omega)
  have hoff : Int.tmod r.cur_pos r.block_size = ((p % bs : Nat) : Int) := by
    rw [hpos, hg.block_size_eq, Int.tmod_eq_emod (by omega) (by omega)]
    norm_cast
  obtain ⟨d, hsd, hdlen⟩ := hblocks ((p / bs : Nat) : Int) hq0 hqlt
  have hdlen2 : d.length = min bs (fs - p / bs * bs) := by
    have h2 : ((p / bs : Nat) : Int) * (bs : Int) = ((p / bs * bs : Nat) : Int) := by
      push_cast
      rfl
    rw [h2] at hdlen
    omega
  -- the stream once the block under the cursor is cached
  obtain ⟨r1, hfetch, hg1, hpos1, hcache1⟩ : ∃ r1,
      (if ((p / bs : Nat) : Int) ≠ r.cur_block then r.fetch_block P ((p / bs : Nat) : Int)
        else (.ok (), r)) = (.ok (), r1)
      ∧ ReaderSized P content key fs bs bc r1 ∧ r1.cur_pos = (p : Int)
      ∧ r1.cur_block_data = d := by
    by_cases hne : ((p / bs : Nat) : Int) ≠ r.cur_block
    · obtain ⟨f2, hfc, hf⟩ := fetch_block_stored P r ((p / bs : Nat) : Int) d
        (by rw [hg.block_count_eq]; omega) (by rw [hg.content_eq, hg.key_eq]; exact hsd)
      refine ⟨{ r with f := f2, cur_block := ((p / bs : Nat) : Int), cur_block_data := d },
        by rw [if_pos hne]; exact hf, ?_, hpos, rfl⟩
      refine ⟨by rw [← hg.content_eq]; exact hfc, hg.key_eq, hg.file_size_eq, hg.block_size_eq,
        hg.block_count_eq, hg.pos_nonneg, hg.pos_le, Or.inr ?_⟩
      show storedBlock P f2.content r.key ((p / bs : Nat) : Int) = some d
      rw [hfc, hg.content_eq, hg.key_eq]
      exact hsd
    · have heq : r.cur_block = ((p / bs : Nat) : Int) := by
        by_contra h
        exact hne (fun h2 => h h2.symm)
      refine ⟨r, by rw [if_neg hne], hg, hpos, ?_⟩
      rcases hg.cache with hc | hc
      · exfalso
        rw [heq] at hc
        omega
      · rw [hg.content_eq, hg.key_eq, heq, hsd] at hc
        exact (Option.some.inj hc).symm
  obtain ⟨n1, hn1⟩ : ∃ n1, n1 = min (min bs (fs - p / bs * bs) - p % bs)
      (buf.length - filled) := ⟨_, rfl⟩
  have hn1pos : 0 < n1 := by omega
  have hn1a : n1 ≤ fs - p := by omega
  have hn1b : n1 ≤ buf.length - filled := by omega
  have hcopy : (if ((r1.cur_block_data.length : Int) - ((p % bs : Nat) : Int))
        > ((buf.length : Int) - (filled : Int))
      then ((buf.length : Int) - (filled : Int))
      else ((r1.cur_block_data.length : Int) - ((p % bs : Nat) : Int))) = (n1 : Int) := by
    rw [hcache1, hdlen2]
    split <;> omega
  have hnopanic : ¬ ((n1 : Int) < 0 ∨ ((p % bs : Nat) : Int) < 0 ∨ (filled : Int) < 0) := by
    omega
  have hwrap : wrap64 (r1.cur_pos + (n1 : Int)) = ((p + n1 : Nat) : Int) := by
    rw [hpos1, wrap64_of_inInt64 _ (by unfold InInt64; omega)]
    push_cast
    rfl
  have hfl : ((filled : Int) + (n1 : Int)).toNat = filled + n1 := by omega
  have hfl2 : (filled : Int) + (n1 : Int) = ((filled + n1 : Nat) : Int) := by push_cast; rfl
  refine ⟨{ r1 with cur_pos := ((p + n1 : Nat) : Int) },
    buf.take filled
      ++ copyBytes (slice buf filled (filled + n1))
          (slice r1.cur_block_data (p % bs) (((p % bs : Nat) : Int) + (n1 : Int)).toNat)
      ++ buf.drop (filled + n1), n1, ?_, ?_, rfl, ?_, hn1pos, hn1a, hn1b⟩
  · rw [readLoop]
    simp only [hcond, and_self, if_true, hbs0, if_false, hq, hoff, hfetch, hcopy, hnopanic,
      hwrap, hfl, hfl2, Int.toNat_ofNat]
  · refine ⟨hg1.content_eq, hg1.key_eq, hg1.file_size_eq, hg1.block_size_eq, hg1.block_count_eq,
      Int.ofNat_nonneg _, ?_, hg1.cache⟩
    show ((p + n1 : Nat) : Int) ≤ (fs : Int)
    omega
  · simp only [List.length_append, List.length_take, length_copyBytes, slice, List.length_drop]
    omega

/-- The loop of `Read` over a container whose blocks have the lengths the header implies:
it returns once the buffer is full or the cursor is at the end of the file. -/
theorem readLoop_sized (P : Primitives) (content key : Bytes) (fs bs : Nat) (bc : Int)
    (hbs : 0 < bs) (hfs : fs < 2 ^ 63) (hcover : (fs : Int) ≤ bc * (bs : Int))
    (hblocks : ∀ n : Int, 0 ≤ n → n < bc →
      ∃ d, storedBlock P content key n = some d
        ∧ (d.length : Int) = min (bs : Int) ((fs : Int) - n * (bs : Int)))
    (fuel : Nat) :
    ∀ (r : FileBlockEncryptReadStream) (buf : Bytes) (filled p : Nat),
      ReaderSized P content key fs bs bc r → r.cur_pos = (p : Int) →
      filled ≤ buf.length → buf.length - filled < fuel →
      ∃ r2 buf2, readLoop P fuel r buf (filled : Int)
          = some (.ok ((filled + min (buf.length - filled) (fs - p) : Nat) : Int), r2, buf2)
        ∧ ReaderSized P content key fs bs bc r2
        ∧ r2.cur_pos = ((p + min (buf.length - filled) (fs - p) : Nat) : Int)
        ∧ buf2.length = buf.length := by
  induction fuel with
  | zero => intro r buf filled p _ _ _ hf; omega
  | succ fuel ih =>
    intro r buf filled p hg hpos hfl hf
    have hple : p ≤ fs := by
      have := hg.pos_le
      rw [hpos] at this
      omega
    by_cases hcont : filled < buf.length ∧ p < fs
    · obtain ⟨r1, buf1, n1, hstep, hg1, hpos1, hlen1, hn1pos, hn1a, hn1b⟩ :=
        readLoop_sized_step P content key fs bs bc hbs hfs hcover hblocks fuel r buf filled p
          hg hpos hcont.1 hcont.2
      obtain ⟨r2, buf2, hrun, hg2, hpos2, hlen2⟩ :=
        ih r1 buf1 (filled + n1) (p + n1) hg1 hpos1 (by rw [hlen1]; omega)
          (by rw [hlen1]; omega)
      rw [hlen1] at hrun hpos2
      have hm : min (buf.length - filled) (fs - p)
          = n1 + min (buf.length - (filled + n1)) (fs - (p + n1)) := by omega
      refine ⟨r2, buf2, ?_, hg2, ?_, by rw [hlen2, hlen1]⟩
      · rw [hstep, hrun, hm]
        simp only [Nat.add_assoc]
      · rw [hpos2, hm]
        simp only [Nat.add_assoc]
    · have hm : min (buf.length - filled) (fs - p) = 0 := by omega
      have hcond : ¬ ((filled : Int) < (buf.length : Int) ∧ r.cur_pos < r.file_size) := by
        rw [hpos, hg.file_size_eq]
        omega
      refine ⟨r, buf, ?_, hg, by rw [hm]; exact hpos, rfl⟩
      rw [readLoop, if_neg hcond, hm]
      rfl

/-- Claim C12. Read byte count: for a read stream with a positive block size, the block
count of the header and the cursor `c` in `[0, FileSize())`, over a container in which
every block `n` decrypts to exactly `min(block_size, file_size - n * block_size)` bytes
(the cache holding nothing or such a block), `Read(buf)` returns
`min(len(buf), FileSize() - c)` with no error and advances the cursor by that count; the
count is below the buffer size only when the cursor has reached `FileSize()`. `Read` is
given more loop iterations than the buffer has bytes. -/
theorem C12_read_byte_count (P : Primitives) (r : FileBlockEncryptReadStream) (buf : Bytes)
    (fuel : Nat) (hbs : 0 < r.BlockSize) (hpos0 : 0 ≤ r.Cursor) (hpos : r.Cursor < r.FileSize)
    (hfs64 : InInt64 r.FileSize) (hbc : r.BlockCount = ceilDiv r.FileSize r.BlockSize)
    (hblocks : ∀ n : Int, 0 ≤ n → n < r.BlockCount →
      ∃ d, storedBlock P r.f.content r.key n = some d
        ∧ (d.length : Int) = min r.BlockSize (r.FileSize - n * r.BlockSize))
    (hcache : CacheCoherent P r) (hfuel : buf.length < fuel) :
    ∃ r2 buf2,
      r.Read P fuel buf
          = some (.ok (min (buf.length : Int) (r.FileSize - r.Cursor)), r2, buf2)
        ∧ r2.Cursor = r.Cursor + min (buf.length : Int) (r.FileSize - r.Cursor)
        ∧ r2.FileSize = r.FileSize
        ∧ buf2.length = buf.length
        ∧ (min (buf.length : Int) (r.FileSize - r.Cursor) < (buf.length : Int) →
            r2.Cursor = r2.FileSize) := by
  unfold FileBlockEncryptReadStream.BlockSize at hbs hbc hblocks
  unfold FileBlockEncryptReadStream.Cursor at hpos0 hpos
  unfold FileBlockEncryptReadStream.FileSize at hpos hfs64 hbc hblocks
  unfold FileBlockEncryptReadStream.BlockCount at hbc hblocks
  unfold InInt64 at hfs64
  obtain ⟨fs, hfs⟩ := Int.eq_ofNat_of_zero_le (show 0 ≤ r.file_size by omega)
  obtain ⟨bs, hbsn⟩ := Int.eq_ofNat_of_zero_le (show 0 ≤ r.block_size by omega)
  obtain ⟨p, hp⟩ := Int.eq_ofNat_of_zero_le hpos0
  obtain ⟨-, hcov, -⟩ := ceilDiv_spec r.file_size r.block_size (by omega) hbs
  rw [← hbc] at hcov
  rw [hfs, hbsn] at hblocks hcov
  have hg : ReaderSized P r.f.content r.key fs bs r.block_count r :=
    ⟨rfl, rfl, hfs, hbsn, rfl, hpos0, by omega, hcache⟩
  obtain ⟨r2, buf2, hrun, hg2, hpos2, hlen2⟩ :=
    readLoop_sized P r.f.content r.key fs bs r.block_count (by omega) (by omega) hcov hblocks
      fuel r buf 0 p hg hp (Nat.zero_le _) (by omega)
  have hcond : ¬ (r.cur_pos ≥ r.file_size) := by omega
  have hcount : ((0 + min (buf.length - 0) (fs - p) : Nat) : Int)
      = min (buf.length : Int) (r.file_size - r.cur_pos) := by
    rw [hfs, hp]
    omega
  have hcur : ((p + min (buf.length - 0) (fs - p) : Nat) : Int)
      = r.cur_pos + min (buf.length : Int) (r.file_size - r.cur_pos) := by
    rw [hfs, hp]
    omega
  rw [hcount] at hrun
  rw [hcur] at hpos2
  refine ⟨r2, buf2, ?_, hpos2, ?_, hlen2, ?_⟩
  · rw [FileBlockEncryptReadStream.Read, if_neg hcond]
    exact hrun
  · show r2.file_size = r.file_size
    rw [hg2.file_size_eq, hfs]
  · intro hlt
    show r2.cur_pos = r2.file_size
    rw [hpos2, hg2.file_size_eq, ← hfs]
    show r.cur_pos + min (buf.length : Int) (r.file_size - r.cur_pos) = r.file_size
    unfold FileBlockEncryptReadStream.FileSize FileBlockEncryptReadStream.Cursor at hlt
    omega

set_option maxRecDepth 8000 in
theorem C12_read_byte_count_witness :
    ∃ r2 buf2,
      containerReader.Read toyPrimitives 6 [0, 0, 0, 0, 0]
          = some (.ok (min (([0, 0, 0, 0, 0] : Bytes).length : Int)
              (containerReader.FileSize - containerReader.Cursor)), r2, buf2)
        ∧ r2.Cursor = containerReader.Cursor + min (([0, 0, 0, 0, 0] : Bytes).length : Int)
            (containerReader.FileSize - containerReader.Cursor)
        ∧ r2.FileSize = containerReader.FileSize
        ∧ buf2.length = ([0, 0, 0, 0, 0] : Bytes).length
        ∧ (min (([0, 0, 0, 0, 0] : Bytes).length : Int)
              (containerReader.FileSize - containerReader.Cursor)
            < (([0, 0, 0, 0, 0] : Bytes).length : Int) → r2.Cursor = r2.FileSize) :=
  C12_read_byte_count toyPrimitives containerReader [0, 0, 0, 0, 0] 6 (by decide) (by decide)
    (by decide) (by decide) (by decide)
    (by
      intro n h0 h1
      have h2 : n = 0 ∨ n = 1 := by
        have : n < 2 := h1
        omega
      rcases h2 with h2 | h2
      · subst h2
        exact ⟨[1, 2], by decide, by decide⟩
      · subst h2
        exact ⟨[3], by decide, by decide⟩)
    (Or.inl rfl) (by decide)

/-! ## What a successful call of the writer has done -/

/-- Without room for the envelope below `2^63`, `commitBlock` does not succeed: the write
of the envelope fails. -/
theorem commitBlock_full (P : Primitives) (rnd : RandSource) (w : FileBlockEncryptWriteStream)
    (blk r key : Bytes) (fs bs : Int) (bc : Nat) (envs : List Bytes)
    (hinv : WriterInv fs bs bc key envs w) (hlt : envs.length < bc) (hblk : blk ≠ [])
    (hkey : aesKeyOk key = true) (hr : rnd 0 = some r)
    (hclen : 16 + 16 * bc + envs.flatten.length < 2 ^ 63)
    (hfull : ¬ (16 + 16 * bc + envs.flatten.length + envelopeLength P blk < 2 ^ 63)) :
    (commitBlock P rnd w blk).1 = .error .invalidArgument := by
  obtain ⟨env, henc, henvlen⟩ := encrypt_zip_ok P r blk key hblk hkey
  have hd0 : ¬ blk.length = 0 := fun h => hblk (List.length_eq_zero.mp h)
  have hE : encryptWith P rnd blk AES256_ZIP w.key = (.ok env, rnd.next) := by
    simp only [encryptWith, hr, hinv.key_eq, henc, hd0, if_false, true_or, if_true]
  obtain ⟨pre, hpre⟩ : ∃ pre, pre = PutUint64 fs.toNat ++ PutUint64 bs.toNat
      ++ indexBytes (16 + 16 * bc) envs := ⟨_, rfl⟩
  have hprelen : pre.length = 16 + 16 * envs.length := by
    rw [hpre]
    simp only [List.length_append, length_PutUint64, length_indexBytes]
  have hclen2 : w.f.content.length = 16 + 16 * bc + envs.flatten.length := by
    rw [hinv.content_eq, length_containerBytes _ _ _ _ hinv.count_le]
  have hc : w.f.content = pre ++ zeros 8
      ++ (zeros 8 ++ (zeros (16 * (bc - envs.length - 1)) ++ envs.flatten)) := by
    rw [hinv.content_eq, containerBytes_next fs bs bc envs hlt, hpre]
    simp only [List.append_assoc]
  have hw1 : wrap64 (16 + wrap64 (w.current_write_index * 16))
      = ((16 + 16 * envs.length : Nat) : Int) := by
    rw [hinv.index_eq, wrap64_of_inInt64 (_ * 16) (by unfold InInt64; omega),
      wrap64_of_inInt64 _ (by unfold InInt64; omega)]
    push_cast
    ring
  have h1 : w.f.Seek (wrap64 (16 + wrap64 (w.current_write_index * 16)))
      = (.ok (), OsFile.mk w.f.content (16 + 16 * envs.length)) := by
    rw [hw1, Seek_ok _ _ (by omega)]
    rfl
  have hpt : toUint64 w.current_write_pt = 16 + 16 * bc + envs.flatten.length := by
    rw [hinv.pt_eq, toUint64_of_nonneg _ (by omega) (by unfold InInt64; omega), hclen2]
    rfl
  have h2 := Write_over (OsFile.mk w.f.content (16 + 16 * envs.length)) pre (zeros 8)
    (zeros 8 ++ (zeros (16 * (bc - envs.length - 1)) ++ envs.flatten))
    (PutUint64 (16 + 16 * bc + envs.flatten.length)) hc hprelen.symm (by simp)
    (by rw [hprelen, length_PutUint64]; omega)
  have h3 := Write_over
    (OsFile.mk (pre ++ PutUint64 (16 + 16 * bc + envs.flatten.length)
      ++ (zeros 8 ++ (zeros (16 * (bc - envs.length - 1)) ++ envs.flatten)))
      (pre.length + (PutUint64 (16 + 16 * bc + envs.flatten.length)).length))
    (pre ++ PutUint64 (16 + 16 * bc + envs.flatten.length)) (zeros 8)
    (zeros (16 * (bc - envs.length - 1)) ++ envs.flatten) (PutUint64 env.length)
    (by simp only [List.append_assoc]) (by simp) (by simp)
    (by simp only [List.length_append, hprelen, length_PutUint64]; omega)
  obtain ⟨c3, hc3⟩ : ∃ c3, c3 = pre ++ PutUint64 (16 + 16 * bc + envs.flatten.length)
      ++ PutUint64 env.length ++ (zeros (16 * (bc - envs.length - 1)) ++ envs.flatten) :=
    ⟨_, rfl⟩
  rw [← hc3] at h3
  have hc3len : c3.length = 16 + 16 * bc + envs.flatten.length := by
    rw [hc3]
    simp only [List.length_append, hprelen, length_PutUint64, length_zeros]
    omega
  have h4 : (OsFile.mk c3 ((pre ++ PutUint64 (16 + 16 * bc + envs.flatten.length)).length
        + (PutUint64 env.length).length)).Seek w.current_write_pt
      = (.ok (), OsFile.mk c3 c3.length) := by
    rw [Seek_ok _ _ (by rw [hinv.pt_eq]; omega), hinv.pt_eq, hclen2, hc3len]
    rfl
  have h5 : (OsFile.mk c3 c3.length).Write env
      = (.error .invalidArgument, OsFile.mk c3 c3.length) := by
    have e1 : ¬ env.length = 0 := by
      rw [henvlen]
      unfold envelopeLength
      omega
    have e2 : c3.length + env.length ≥ 2 ^ 63 := by
      rw [hc3len, henvlen]
      omega
    simp only [OsFile.Write, e1, if_false, e2, if_true]
  simp only [commitBlock, hE, h1, hpt, h2, h3, h4, h5]

/-- A `commitBlock` that succeeded has appended one envelope of the block and filled the
next index entry. -/
theorem commitBlock_of_ok (P : Primitives) (rnd rnd2 : RandSource)
    (w w2 : FileBlockEncryptWriteStream) (blk key : Bytes) (fs bs : Int) (bc : Nat)
    (envs : List Bytes) (hinv : WriterInv fs bs bc key envs w) (hlt : envs.length < bc)
    (hblk : blk ≠ []) (hclen : 16 + 16 * bc + envs.flatten.length < 2 ^ 63)
    (h : commitBlock P rnd w blk = (.ok (), w2, rnd2)) :
    ∃ env, IsEnvelopeOf P key env blk ∧ WriterInv fs bs bc key (envs ++ [env]) w2
      ∧ w2.buf = w.buf ∧ 16 + 16 * bc + (envs ++ [env]).flatten.length < 2 ^ 63 := by
  have hd0 : ¬ blk.length = 0 := fun h => hblk (List.length_eq_zero.mp h)
  cases hr : rnd 0 with
  | none =>
    exfalso
    have : (commitBlock P rnd w blk).1 = .error .randRead := by
      simp only [commitBlock, encryptWith, hr, EncryptFileContents, hd0, if_false, if_true,
        encryptBody]
    rw [h] at this
    simp at this
  | some r =>
    by_cases hkey : aesKeyOk key = true
    · by_cases hfit : 16 + 16 * bc + envs.flatten.length + envelopeLength P blk < 2 ^ 63
      · obtain ⟨env, w3, he, hel, hc, hinv2, hbuf⟩ :=
          commitBlock_ok P rnd w blk r key fs bs bc envs hinv hlt hblk hkey hr hfit
        rw [h] at hc
        simp only [Prod.mk.injEq, true_and] at hc
        rw [hc.1]
        refine ⟨env, he, hinv2, hbuf, ?_⟩
        simp only [List.flatten_append, List.flatten_cons, List.flatten_nil, List.append_nil,
          List.length_append]
        omega
      · exfalso
        have := commitBlock_full P rnd w blk r key fs bs bc envs hinv hlt hblk hkey hr hclen
          hfit
        rw [h] at this
        simp at this
    · exfalso
      have hk : aesKeyOk w.key = false := by
        rw [hinv.key_eq]
        simpa using hkey
      have : (commitBlock P rnd w blk).1 = .error .keySize := by
        simp only [commitBlock, encryptWith, hr, EncryptFileContents, hd0, if_false, if_true,
          encryptBody_badKey P r _ _ w.key hk]
      rw [h] at this
      simp at this

/-! ## Slicing does not depend on the chunks -/

theorem blockAt_append_left (bs : Nat) (a b : Bytes) (i : Nat) (h : (i + 1) * bs ≤ a.length) :
    blockAt bs (a ++ b) i = blockAt bs a i := by
  unfold blockAt
  have h1 : i * bs ≤ a.length := by
    rw [Nat.add_mul] at h
    omega
  rw [List.drop_append_of_le_length h1, List.take_append_of_le_length]
  rw [List.length_drop]
  rw [Nat.add_mul] at h
  omega

theorem WriterSliced_buf (P : Primitives) (key : Bytes) (fs : Int) (bs bc : Nat)
    (written : Bytes) (envs : List Bytes) (w : FileBlockEncryptWriteStream) (c : Bytes)
    (h : WriterSliced P key fs bs bc written envs w) :
    WriterSliced P key fs bs bc (written ++ c) envs { w with buf := w.buf ++ c } := by
  refine ⟨WriterInv_buf _ _ _ _ _ _ _ h.inv, ?_, ?_, ?_, h.room⟩
  · intro i hi
    have hle : (i + 1) * bs ≤ written.length :=
      le_trans (Nat.mul_le_mul_right bs (by omega)) h.whole
    rw [blockAt_append_left bs written c i hle]
    exact h.envelopes i hi
  · show (written ++ c).drop (envs.length * bs) = w.buf ++ c
    rw [List.drop_append_of_le_length h.whole, h.rest]
  · rw [List.length_append]
    have := h.whole
    omega

/-- A loop of `Write` that succeeded has committed the whole blocks of the buffer, in
order. -/
theorem writeLoop_sliced (P : Primitives) (key : Bytes) (fs : Int) (bs bc : Nat)
    (hbs : 0 < bs) (written : Bytes) (fuel : Nat) :
    ∀ (rnd rnd2 : RandSource) (w w2 : FileBlockEncryptWriteStream) (envs : List Bytes),
      WriterSliced P key fs bs bc written envs w →
      writeLoop P fuel rnd w = some (.ok (), w2, rnd2) →
      ∃ more, WriterSliced P key fs bs bc written (envs ++ more) w2 ∧ w2.buf.length < bs := by
  induction fuel with
  | zero => intro rnd rnd2 w w2 envs _ h; simp [writeLoop] at h
  | succ fuel ih =>
    intro rnd rnd2 w w2 envs hs h
    unfold writeLoop at h
    have hbsz := hs.inv.block_size_eq
    by_cases hfull : (w.buf.length : Int) ≥ w.block_size
    · simp only [hfull, if_true] at h
      by_cases hcap : w.current_write_index ≥ w.block_count
      · simp [hcap] at h
      · simp only [hcap, if_false] at h
        have hneg : ¬ w.block_size < 0 := by
          rw [hbsz]
          omega
        simp only [hneg, if_false] at h
        have htn : w.block_size.toNat = bs := by
          rw [hbsz]
          exact Int.toNat_ofNat bs
        rw [htn] at h
        have hlen : bs ≤ w.buf.length := by
          rw [hbsz] at hfull
          omega
        have hlt : envs.length < bc := by
          have h1 := hs.inv.index_eq
          have h2 := hs.inv.block_count_eq
          omega
        have hblk : w.buf.take bs = blockAt bs written envs.length := by
          unfold blockAt
          rw [hs.rest]
        have hne : w.buf.take bs ≠ [] := by
          intro he
          have := congrArg List.length he
          simp only [List.length_take, List.length_nil] at this
          omega
        cases hc : commitBlock P rnd { w with buf := w.buf.drop bs } (w.buf.take bs) with
        | mk r1 rest1 =>
          obtain ⟨w1, rnd1⟩ := rest1
          rw [hc] at h
          cases r1 with
          | ok u =>
            simp only at h
            obtain ⟨env, he, hinv1, hbuf1, hroom1⟩ :=
              commitBlock_of_ok P rnd rnd1 { w with buf := w.buf.drop bs } w1 (w.buf.take bs)
                key fs (bs : Int) bc envs (WriterInv_buf _ _ _ _ _ _ _ hs.inv) hlt hne hs.room hc
            have hrest := hs.rest
            have hwlen : written.length - envs.length * bs = w.buf.length := by
              rw [← hrest, List.length_drop]
            have hs1 : WriterSliced P key fs bs bc written (envs ++ [env]) w1 := by
              refine ⟨hinv1, ?_, ?_, ?_, hroom1⟩
              · intro i hi
                simp only [List.length_append, List.length_singleton] at hi
                by_cases hik : i < envs.length
                · rw [List.getD_append _ _ _ _ hik]
                  exact hs.envelopes i hik
                · have hie : i = envs.length := by omega
                  rw [hie, List.getD_append_right _ _ _ _ (le_refl _), Nat.sub_self,
                    List.getD_cons_zero, ← hblk]
                  exact he
              · rw [hbuf1]
                show written.drop ((envs ++ [env]).length * bs) = w.buf.drop bs
                rw [← hrest, List.drop_drop, List.length_append, List.length_singleton,
                  Nat.add_mul]
                congr 1
                omega
              · rw [List.length_append, List.length_singleton, Nat.add_mul]
                have := hs.whole
                omega
            obtain ⟨more, hs2, hlt2⟩ := ih rnd1 rnd2 w1 w2 (envs ++ [env]) hs1 h
            exact ⟨[env] ++ more, by rw [← List.append_assoc]; exact hs2, hlt2⟩
          | error e => simp at h
          | panic => simp at h
    · simp only [hfull, if_false, Option.some.injEq, Prod.mk.injEq, true_and] at h
      rw [← h.1]
      refine ⟨[], by rw [List.append_nil]; exact hs, ?_⟩
      rw [hbsz] at hfull
      omega

theorem Write_sliced (P : Primitives) (key : Bytes) (fs : Int) (bs bc : Nat) (hbs : 0 < bs)
    (written : Bytes) (rnd rnd2 : RandSource) (w w2 : FileBlockEncryptWriteStream)
    (envs : List Bytes) (c : Bytes) (hs : WriterSliced P key fs bs bc written envs w)
    (h : w.Write P rnd c = some (.ok (), w2, rnd2)) :
    ∃ more, WriterSliced P key fs bs bc (written ++ c) (envs ++ more) w2
      ∧ w2.buf.length < bs := by
  unfold FileBlockEncryptWriteStream.Write at h
  by_cases hcap : w.current_write_index ≥ w.block_count
  · simp [hcap] at h
  · simp only [hcap, if_false] at h
    exact writeLoop_sliced P key fs bs bc hbs (written ++ c) _ rnd rnd2 _ w2 envs
      (WriterSliced_buf P key fs bs bc written envs w c hs) h

/-- A run of `Write` calls that all succeeded has committed the whole blocks of the
concatenation of the chunks. -/
theorem writeAll_sliced (P : Primitives) (key : Bytes) (fs : Int) (bs bc : Nat) (hbs : 0 < bs)
    (chunks : List Bytes) :
    ∀ (written : Bytes) (rnd rnd2 : RandSource) (w w2 : FileBlockEncryptWriteStream)
      (envs : List Bytes),
      WriterSliced P key fs bs bc written envs w → w.buf.length < bs →
      writeAll P chunks rnd w = some (.ok (), w2, rnd2) →
      ∃ more, WriterSliced P key fs bs bc (written ++ chunks.flatten) (envs ++ more) w2
        ∧ w2.buf.length < bs := by
  induction chunks with
  | nil =>
    intro written rnd rnd2 w w2 envs hs hlt h
    simp only [writeAll, Option.some.injEq, Prod.mk.injEq, true_and] at h
    rw [← h.1]
    exact ⟨[], by simpa using hs, hlt⟩
  | cons c cs ih =>
    intro written rnd rnd2 w w2 envs hs hlt h
    simp only [writeAll] at h
    cases hw : w.Write P rnd c with
    | none => simp [hw] at h
    | some out =>
      obtain ⟨r1, w1, rnd1⟩ := out
      cases r1 with
      | ok u =>
        simp only [hw] at h
        obtain ⟨more1, hs1, hlt1⟩ :=
          Write_sliced P key fs bs bc hbs written rnd rnd1 w w1 envs c hs hw
        obtain ⟨more2, hs2, hlt2⟩ := ih (written ++ c) rnd1 rnd2 w1 w2 (envs ++ more1) hs1 hlt1 h
        refine ⟨more1 ++ more2, ?_, hlt2⟩
        rw [List.flatten_cons, ← List.append_assoc, ← List.append_assoc]
        exact hs2
      | error e => simp [hw] at h
      | panic => simp [hw] at h

/-- A `Close` that succeeded has committed the bytes of the buffer, if any, as one more
block. -/
theorem Close_sliced (P : Primitives) (key : Bytes) (fs : Int) (bs bc : Nat)
    (written : Bytes) (rnd rnd3 : RandSource) (w w3 : FileBlockEncryptWriteStream)
    (envs : List Bytes) (hs : WriterSliced P key fs bs bc written envs w)
    (h : w.Close P rnd = (.ok (), w3, rnd3)) :
    (w.buf = [] → w3 = w)
      ∧ (w.buf ≠ [] → ∃ env, IsEnvelopeOf P key env w.buf
          ∧ WriterInv fs (bs : Int) bc key (envs ++ [env]) w3) := by
  unfold FileBlockEncryptWriteStream.Close at h
  constructor
  · intro hb
    have : ¬ w.buf.length > 0 := by simp [hb]
    simp only [this, if_false, Prod.mk.injEq, true_and] at h
    exact h.1.symm
  · intro hb
    have hpos : w.buf.length > 0 := List.length_pos.mpr hb
    simp only [hpos, if_true] at h
    by_cases hcap : w.current_write_index ≥ w.block_count
    · simp [hcap] at h
    · simp only [hcap, if_false] at h
      have hlt : envs.length < bc := by
        have h1 := hs.inv.index_eq
        have h2 := hs.inv.block_count_eq
        omega
      obtain ⟨env, he, hinv, -, -⟩ :=
        commitBlock_of_ok P rnd rnd3 w w3 w.buf key fs (bs : Int) bc envs hs.inv hlt hb hs.room h
      exact ⟨env, he, hinv⟩

/-- The stream `Initialize` leaves has committed nothing and buffered nothing. -/
theorem Initialize_sliced (P : Primitives) (file : FileBlockEncryptWriteStream)
    (fs bsz : Int) (key : Bytes) (hfs : 0 ≤ fs) (hbs : 0 < bsz) (hfs64 : InInt64 fs)
    (hbs64 : InInt64 bsz) (hfit : 16 + 16 * ceilDiv fs bsz < 2 ^ 63) :
    ∃ w0, file.Initialize fs bsz key = (.ok (), w0)
      ∧ WriterSliced P key fs bsz.toNat (ceilDiv fs bsz).toNat [] [] w0 ∧ w0.buf = [] := by
  obtain ⟨c0, -, -⟩ := ceilDiv_spec fs bsz hfs hbs
  obtain ⟨n, hn⟩ := Int.eq_ofNat_of_zero_le c0
  obtain ⟨b, hb⟩ := Int.eq_ofNat_of_zero_le (le_of_lt hbs)
  rw [hn] at hfit
  have hI := Initialize_ok file fs bsz key n hfs hbs hfs64 hbs64 hn (by omega)
  refine ⟨_, hI, ?_, rfl⟩
  rw [hn, Int.toNat_ofNat]
  have hbt : ((bsz.toNat : Nat) : Int) = bsz := Int.toNat_of_nonneg (le_of_lt hbs)
  refine ⟨⟨rfl, hbt.symm, rfl, rfl, rfl, ?_, ?_, by simp⟩, ?_, by simp, by simp, ?_⟩
  · simp only [List.length_append, length_PutUint64, length_zeros]
  · simp [containerBytes, indexBytes, hbt]
  · intro i hi
    simp at hi
  · simp only [List.flatten_nil, List.length_nil]
    omega

/-- Claim C15. Chunk-boundary independence of slicing: after `Initialize` with
`block_size > 0` (and a block count whose index fits an `int64` offset) and any sequence
of successful `Write` calls, the committed envelopes are, in index order, those of the
consecutive `block_size`-byte slices of the concatenation of the chunks, each of exactly
`block_size` bytes, and the buffer holds the remaining suffix, shorter than `block_size`;
a successful `Close` then leaves the stream as it is when the buffer is empty and
otherwise commits the buffer as one more block. -/
theorem C15_chunk_boundary_independence (P : Primitives) (rnd rnd2 : RandSource)
    (file w0 w : FileBlockEncryptWriteStream) (fs bsz : Int) (key : Bytes)
    (chunks : List Bytes) (hfs : 0 ≤ fs) (hbs : 0 < bsz) (hfs64 : InInt64 fs)
    (hbs64 : InInt64 bsz) (hfit : 16 + 16 * ceilDiv fs bsz < 2 ^ 63)
    (hinit : file.Initialize fs bsz key = (.ok (), w0))
    (hw : writeAll P chunks rnd w0 = some (.ok (), w, rnd2)) :
    ∃ envs : List Bytes,
      w.f.content = containerBytes fs bsz (ceilDiv fs bsz).toNat envs
        ∧ w.current_write_index = (envs.length : Int)
        ∧ envs.length = chunks.flatten.length / bsz.toNat
        ∧ (∀ i, i < envs.length →
            IsEnvelopeOf P key (envs.getD i []) (blockAt bsz.toNat chunks.flatten i)
              ∧ (blockAt bsz.toNat chunks.flatten i).length = bsz.toNat)
        ∧ w.buf = chunks.flatten.drop (envs.length * bsz.toNat)
        ∧ (w.buf.length : Int) < bsz
        ∧ (∀ w3 rnd3, w.Close P rnd2 = (.ok (), w3, rnd3) →
            (w.buf = [] → w3 = w)
              ∧ (w.buf ≠ [] → ∃ env, IsEnvelopeOf P key env w.buf
                  ∧ w3.f.content
                    = containerBytes fs bsz (ceilDiv fs bsz).toNat (envs ++ [env])
                  ∧ w3.current_write_index = (envs.length : Int) + 1)) := by
  obtain ⟨w0b, hI, hs0, hb0⟩ := Initialize_sliced P file fs bsz key hfs hbs hfs64 hbs64 hfit
  rw [hinit] at hI
  simp only [Prod.mk.injEq, true_and] at hI
  rw [← hI] at hs0 hb0
  have hbt : ((bsz.toNat : Nat) : Int) = bsz := Int.toNat_of_nonneg (le_of_lt hbs)
  have hbpos : 0 < bsz.toNat := by omega
  obtain ⟨envs, hs, hlt⟩ := writeAll_sliced P key fs bsz.toNat (ceilDiv fs bsz).toNat hbpos
    chunks [] rnd rnd2 w0 w [] hs0 (by rw [hb0]; exact hbpos) hw
  rw [List.nil_append, List.nil_append] at hs
  have hrest := hs.rest
  have hwhole := hs.whole
  have hlen : chunks.flatten.length - envs.length * bsz.toNat = w.buf.length := by
    rw [← hrest, List.length_drop]
  refine ⟨envs, ?_, hs.inv.index_eq, ?_, ?_, hrest.symm, by omega, ?_⟩
  · rw [hs.inv.content_eq, hbt]
  · symm
    apply Nat.div_eq_of_lt_le
    · exact hwhole
    · rw [Nat.succ_mul]
      omega
  · intro i hi
    refine ⟨hs.envelopes i hi, ?_⟩
    rw [length_blockAt]
    have h1 : (i + 1) * bsz.toNat ≤ envs.length * bsz.toNat :=
      Nat.mul_le_mul_right _ (by omega)
    rw [Nat.add_mul] at h1
    omega
  · intro w3 rnd3 hc
    obtain ⟨c1, c2⟩ := Close_sliced P key fs bsz.toNat (ceilDiv fs bsz).toNat chunks.flatten
      rnd2 rnd3 w w3 envs hs hc
    refine ⟨c1, ?_⟩
    intro hb
    obtain ⟨env, he, hinv⟩ := c2 hb
    refine ⟨env, he, ?_, ?_⟩
    · rw [hinv.content_eq, hbt]
    · rw [hinv.index_eq, List.length_append, List.length_singleton]
      push_cast
      rfl

theorem C15_chunk_boundary_independence_witness :
    ∃ (w0 w : FileBlockEncryptWriteStream) (rnd2 : RandSource) (envs : List Bytes),
      CreateFileBlockEncryptWriteStream.Initialize 5 2 key32 = (.ok (), w0)
        ∧ writeAll toyPrimitives [[1, 2, 3], [4, 5]] sampleRand w0 = some (.ok (), w, rnd2)
        ∧ envs.length = 2
        ∧ IsEnvelopeOf toyPrimitives key32 (envs.getD 0 []) [1, 2]
        ∧ IsEnvelopeOf toyPrimitives key32 (envs.getD 1 []) [3, 4]
        ∧ w.buf = [5] := by
  obtain ⟨w0, w, w3, rnd2, rnd3, envs3, hinit, hw, -, -, -⟩ :=
    writer_progress toyPrimitives key32 [1, 2, 3, 4, 5] 2 (by decide) (by norm_num)
      (by norm_num) (by decide)
      (by simp [containerLength, payloadLength, envelopeLength, blockCountOf, blockAt,
            toyPrimitives, List.range_succ])
      sampleRand (fun _ => rfl) [[1, 2, 3], [4, 5]] (by decide) (by decide)
      CreateFileBlockEncryptWriteStream
  obtain ⟨envs, -, -, hlen, henv, hbuf, -, -⟩ :=
    C15_chunk_boundary_independence toyPrimitives sampleRand rnd2
      CreateFileBlockEncryptWriteStream w0 w 5 2 key32 [[1, 2, 3], [4, 5]] (by decide)
      (by decide) (by decide) (by decide) (by decide) hinit hw
  have hl2 : envs.length = 2 := by
    rw [hlen]
    decide
  refine ⟨w0, w, rnd2, envs, hinit, hw, hl2, (henv 0 (by omega)).1, (henv 1 (by omega)).1, ?_⟩
  rw [hbuf, hl2]
  decide

/-! ## Index and payload -/

theorem take_succ_getD (envs : List Bytes) :
    ∀ i, i < envs.length → envs.take (i + 1) = envs.take i ++ [envs.getD i []] := by
  induction envs with
  | nil => intro i h; simp at h
  | cons e rest ih =>
    intro i h
    cases i with
    | zero => simp
    | succ j =>
      simp only [List.length_cons] at h
      simp only [List.take_succ_cons, List.getD_cons_succ, List.cons_append]
      rw [ih j (by omega)]

theorem envelopeStart_eq (bc : Nat) (envs : List Bytes) :
    ∀ i, i ≤ envs.length →
      envelopeStart bc envs i = 16 + 16 * bc + (envs.take i).flatten.length := by
  intro i
  induction i with
  | zero => intro _; simp [envelopeStart]
  | succ j ih =>
    intro h
    rw [envelopeStart, ih (by omega), take_succ_getD envs j (by omega)]
    simp only [List.flatten_append, List.flatten_cons, List.flatten_nil, List.append_nil,
      List.length_append]
    omega

theorem envelopeStart_append (bc : Nat) (envs more : List Bytes) :
    ∀ i, i ≤ envs.length → envelopeStart bc (envs ++ more) i = envelopeStart bc envs i := by
  intro i
  induction i with
  | zero => intro _; rfl
  | succ j ih =>
    intro h
    rw [envelopeStart, envelopeStart, ih (by omega), List.getD_append _ _ _ _ (by omega)]

theorem slice_mid (pre mid rest : Bytes) :
    slice (pre ++ mid ++ rest) pre.length (pre.length + mid.length) = mid := by
  unfold slice
  rw [List.take_left' (by simp), List.drop_left' rfl]

/-- Where entry `|a|` of the index and its envelope `e` lie in the container of the
envelopes `a ++ e :: b`, whatever the number of index entries. -/
theorem container_entry_at (fs bs : Int) (bc : Nat) (a b : List Bytes) (e : Bytes) :
    ∃ pre1 rest1 pre3 rest3,
      containerBytes fs bs bc (a ++ e :: b)
          = pre1 ++ (PutUint64 (16 + 16 * bc + a.flatten.length) ++ PutUint64 e.length)
              ++ rest1
        ∧ pre1.length = 16 + 16 * a.length
        ∧ containerBytes fs bs bc (a ++ e :: b) = pre3 ++ e ++ rest3
        ∧ pre3.length = 16 + 16 * (a ++ e :: b).length + 16 * (bc - (a ++ e :: b).length)
            + a.flatten.length := by
  refine ⟨PutUint64 fs.toNat ++ PutUint64 bs.toNat ++ indexBytes (16 + 16 * bc) a,
    indexBytes (16 + 16 * bc + a.flatten.length + e.length) b
      ++ zeros (16 * (bc - (a ++ e :: b).length)) ++ (a ++ e :: b).flatten,
    PutUint64 fs.toNat ++ PutUint64 bs.toNat ++ indexBytes (16 + 16 * bc) (a ++ e :: b)
      ++ zeros (16 * (bc - (a ++ e :: b).length)) ++ a.flatten,
    b.flatten, ?_, ?_, ?_, ?_⟩
  · simp only [containerBytes, indexBytes_append, indexBytes, List.append_assoc]
  · simp only [List.length_append, length_PutUint64, length_indexBytes]
  · simp only [containerBytes, List.flatten_append, List.flatten_cons, List.append_assoc]
  · simp only [List.length_append, length_PutUint64, length_indexBytes, length_zeros]

/-- The entry of a block that is not committed is sixteen zero bytes. -/
theorem container_blank_at (fs bs : Int) (bc : Nat) (envs : List Bytes) (i : Nat)
    (h1 : envs.length ≤ i) (h2 : i < bc) :
    slice (containerBytes fs bs bc envs) (16 + 16 * i) (16 + 16 * i + 16) = zeros 16 := by
  have hz : zeros (16 * (bc - envs.length))
      = zeros (16 * (i - envs.length)) ++ zeros 16 ++ zeros (16 * (bc - i - 1)) := by
    simp only [zeros, List.append_replicate_replicate]
    congr 1
    omega
  have hc : containerBytes fs bs bc envs
      = (PutUint64 fs.toNat ++ PutUint64 bs.toNat ++ indexBytes (16 + 16 * bc) envs
          ++ zeros (16 * (i - envs.length))) ++ zeros 16
        ++ (zeros (16 * (bc - i - 1)) ++ envs.flatten) := by
    simp only [containerBytes, hz, List.append_assoc]
  have hl : (PutUint64 fs.toNat ++ PutUint64 bs.toNat ++ indexBytes (16 + 16 * bc) envs
      ++ zeros (16 * (i - envs.length))).length = 16 + 16 * i := by
    simp only [List.length_append, length_PutUint64, length_indexBytes, length_zeros]
    omega
  have := slice_mid (PutUint64 fs.toNat ++ PutUint64 bs.toNat
      ++ indexBytes (16 + 16 * bc) envs ++ zeros (16 * (i - envs.length))) (zeros 16)
    (zeros (16 * (bc - i - 1)) ++ envs.flatten)
  rw [← hc, hl, length_zeros] at this
  exact this

/-- The stream invariant as statements on the bytes of the file. -/
theorem IndexConsistent_of_inv (fs bs : Int) (bc : Nat) (key : Bytes) (envs : List Bytes)
    (w : FileBlockEncryptWriteStream) (h : WriterInv fs bs bc key envs w) :
    IndexConsistent bc envs w := by
  have hend : envelopeStart bc envs envs.length = 16 + 16 * bc + envs.flatten.length := by
    rw [envelopeStart_eq bc envs envs.length (le_refl _), List.take_length]
  have hlen : w.f.content.length = 16 + 16 * bc + envs.flatten.length := by
    rw [h.content_eq, length_containerBytes _ _ _ _ h.count_le]
  refine ⟨h.index_eq, h.count_le, ?_, ?_, ?_, ?_, ?_⟩
  · intro i hi
    obtain ⟨pre1, rest1, -, -, e1, l1, -, -⟩ :=
      container_entry_at fs bs bc (envs.take i) (envs.drop (i + 1)) (envs.getD i [])
    rw [← split_at_getD envs i hi, ← h.content_eq] at e1
    have hti : (envs.take i).length = i := by
      rw [List.length_take]
      omega
    rw [hti] at l1
    have := slice_mid pre1 (PutUint64 (16 + 16 * bc + (envs.take i).flatten.length)
      ++ PutUint64 (envs.getD i []).length) rest1
    rw [← e1, l1] at this
    simp only [List.length_append, length_PutUint64] at this
    rw [envelopeStart_eq bc envs i (by omega)]
    exact this
  · intro i hi
    obtain ⟨-, -, pre3, rest3, -, -, e3, l3⟩ :=
      container_entry_at fs bs bc (envs.take i) (envs.drop (i + 1)) (envs.getD i [])
    rw [← split_at_getD envs i hi, ← h.content_eq] at e3
    rw [← split_at_getD envs i hi] at l3
    have hcl := h.count_le
    have hl3 : pre3.length = envelopeStart bc envs i := by
      rw [l3, envelopeStart_eq bc envs i (by omega)]
      omega
    have := slice_mid pre3 (envs.getD i []) rest3
    rw [← e3, hl3] at this
    rw [envelopeStart]
    exact this
  · intro i h1 h2
    rw [h.content_eq]
    exact container_blank_at fs bs bc envs i h1 h2
  · rw [h.pt_eq, hlen, hend]
  · rw [hlen, hend]

/-- Committing further envelopes leaves the entries and the payload of the committed
blocks as they are. -/
theorem containerBytes_extend (fs bs : Int) (bc : Nat) (envs more : List Bytes)
    (h : (envs ++ more).length ≤ bc) :
    (containerBytes fs bs bc (envs ++ more)).take (16 + 16 * envs.length)
        = (containerBytes fs bs bc envs).take (16 + 16 * envs.length)
      ∧ ((containerBytes fs bs bc (envs ++ more)).take
            (containerBytes fs bs bc envs).length).drop (16 + 16 * bc)
          = (containerBytes fs bs bc envs).drop (16 + 16 * bc) := by
  have hle : envs.length ≤ bc := by
    rw [List.length_append] at h
    omega
  have hpl : (PutUint64 fs.toNat ++ PutUint64 bs.toNat
      ++ indexBytes (16 + 16 * bc) envs).length = 16 + 16 * envs.length := by
    simp only [List.length_append, length_PutUint64, length_indexBytes]
  constructor
  · have e1 : containerBytes fs bs bc (envs ++ more)
        = (PutUint64 fs.toNat ++ PutUint64 bs.toNat ++ indexBytes (16 + 16 * bc) envs)
          ++ (indexBytes (16 + 16 * bc + envs.flatten.length) more
            ++ zeros (16 * (bc - (envs ++ more).length)) ++ (envs ++ more).flatten) := by
      simp only [containerBytes, indexBytes_append, List.append_assoc]
    have e2 : containerBytes fs bs bc envs
        = (PutUint64 fs.toNat ++ PutUint64 bs.toNat ++ indexBytes (16 + 16 * bc) envs)
          ++ (zeros (16 * (bc - envs.length)) ++ envs.flatten) := by
      simp only [containerBytes, List.append_assoc]
    rw [e1, e2, List.take_left' hpl, List.take_left' hpl]
  · obtain ⟨A, hA⟩ : ∃ A, A = PutUint64 fs.toNat ++ PutUint64 bs.toNat
        ++ indexBytes (16 + 16 * bc) (envs ++ more)
        ++ zeros (16 * (bc - (envs ++ more).length)) := ⟨_, rfl⟩
    obtain ⟨B, hB⟩ : ∃ B, B = PutUint64 fs.toNat ++ PutUint64 bs.toNat
        ++ indexBytes (16 + 16 * bc) envs ++ zeros (16 * (bc - envs.length)) := ⟨_, rfl⟩
    have hAl : A.length = 16 + 16 * bc := by
      have hlm : (envs ++ more).length = envs.length + more.length := List.length_append _ _
      rw [hA]
      simp only [List.length_append, length_PutUint64, length_indexBytes, length_zeros]
      omega
    have hBl : B.length = 16 + 16 * bc := by
      rw [hB]
      simp only [List.length_append, length_PutUint64, length_indexBytes, length_zeros]
      omega
    have e1 : containerBytes fs bs bc (envs ++ more)
        = (A ++ envs.flatten) ++ more.flatten := by
      rw [hA]
      simp only [containerBytes, List.flatten_append, List.append_assoc]
    have e2 : containerBytes fs bs bc envs = B ++ envs.flatten := by
      rw [hB]
      simp only [containerBytes]
    have hl : (B ++ envs.flatten).length = (A ++ envs.flatten).length := by
      simp only [List.length_append, hAl, hBl]
    rw [e1, e2, hl, List.take_left' rfl, ← hAl, List.drop_left' rfl, hAl, ← hBl,
      List.drop_left' rfl]

theorem writeAll_append (P : Primitives) (a b : List Bytes) :
    ∀ (rnd rnd2 : RandSource) (w w2 : FileBlockEncryptWriteStream),
      writeAll P (a ++ b) rnd w = some (.ok (), w2, rnd2) →
      ∃ w1 rnd1, writeAll P a rnd w = some (.ok (), w1, rnd1)
        ∧ writeAll P b rnd1 w1 = some (.ok (), w2, rnd2) := by
  induction a with
  | nil =>
    intro rnd rnd2 w w2 h
    exact ⟨w, rnd, rfl, h⟩
  | cons c cs ih =>
    intro rnd rnd2 w w2 h
    simp only [List.cons_append, writeAll] at h ⊢
    cases hw : w.Write P rnd c with
    | none => simp [hw] at h
    | some out =>
      obtain ⟨r1, w1, rnd1⟩ := out
      cases r1 with
      | ok u =>
        simp only [hw] at h ⊢
        exact ih rnd1 rnd2 w1 w2 h
      | error e => simp [hw] at h
      | panic => simp [hw] at h

/-- Claim C16. Index and payload stay consistent: in every state reached by `Initialize`
(with a block count whose index fits an `int64` offset) and successful `Write` calls, and
in the state a successful `Close` leaves, the committed envelopes are those of the blocks
written, index entry `i` of each committed block is `(start_i, len_i)` with `len_i` the
length of its envelope, `start_0 = 16 + 16 * block_count` and
`start_(i+1) = start_i + len_i`, the envelope lies at `start_i`, the append pointer and
the end of the file are at the start of the next block, and the entries of the other
blocks are zero; from one state to the next the entries and the payload of the blocks
already committed are unchanged. Nothing is assumed of a `Close` that does not succeed. -/
theorem C16_index_payload_consistent (P : Primitives) (rnd rnd1 rnd2 : RandSource)
    (file w0 w1 w2 : FileBlockEncryptWriteStream) (fs bsz : Int) (key : Bytes)
    (chunks1 chunks2 : List Bytes) (hfs : 0 ≤ fs) (hbs : 0 < bsz) (hfs64 : InInt64 fs)
    (hbs64 : InInt64 bsz) (hfit : 16 + 16 * ceilDiv fs bsz < 2 ^ 63)
    (hinit : file.Initialize fs bsz key = (.ok (), w0))
    (h1 : writeAll P chunks1 rnd w0 = some (.ok (), w1, rnd1))
    (h2 : writeAll P chunks2 rnd1 w1 = some (.ok (), w2, rnd2)) :
    ∃ envs1 more2 : List Bytes,
      IndexConsistent (ceilDiv fs bsz).toNat envs1 w1
        ∧ (∀ i, i < envs1.length →
            IsEnvelopeOf P key (envs1.getD i []) (blockAt bsz.toNat chunks1.flatten i))
        ∧ IndexConsistent (ceilDiv fs bsz).toNat (envs1 ++ more2) w2
        ∧ (∀ i, i < (envs1 ++ more2).length →
            IsEnvelopeOf P key ((envs1 ++ more2).getD i [])
              (blockAt bsz.toNat (chunks1.flatten ++ chunks2.flatten) i))
        ∧ w2.f.content.take (16 + 16 * envs1.length)
          = w1.f.content.take (16 + 16 * envs1.length)
        ∧ (w2.f.content.take w1.f.content.length).drop (16 + 16 * (ceilDiv fs bsz).toNat)
          = w1.f.content.drop (16 + 16 * (ceilDiv fs bsz).toNat)
        ∧ (∀ w3 rnd3, w2.Close P rnd2 = (.ok (), w3, rnd3) →
            ∃ more3 : List Bytes,
              IndexConsistent (ceilDiv fs bsz).toNat (envs1 ++ more2 ++ more3) w3
                ∧ (w2.buf = [] → more3 = [] ∧ w3 = w2)
                ∧ (w2.buf ≠ [] → ∃ env, more3 = [env] ∧ IsEnvelopeOf P key env w2.buf)
                ∧ w3.f.content.take (16 + 16 * (envs1 ++ more2).length)
                  = w2.f.content.take (16 + 16 * (envs1 ++ more2).length)
                ∧ (w3.f.content.take w2.f.content.length).drop
                      (16 + 16 * (ceilDiv fs bsz).toNat)
                  = w2.f.content.drop (16 + 16 * (ceilDiv fs bsz).toNat)) := by
  obtain ⟨w0b, hI, hs0, hb0⟩ := Initialize_sliced P file fs bsz key hfs hbs hfs64 hbs64 hfit
  rw [hinit] at hI
  simp only [Prod.mk.injEq, true_and] at hI
  rw [← hI] at hs0 hb0
  have hbpos : 0 < bsz.toNat := by omega
  obtain ⟨envs1, hs1, hlt1⟩ := writeAll_sliced P key fs bsz.toNat (ceilDiv fs bsz).toNat hbpos
    chunks1 [] rnd rnd1 w0 w1 [] hs0 (by rw [hb0]; exact hbpos) h1
  rw [List.nil_append, List.nil_append] at hs1
  obtain ⟨more2, hs2, hlt2⟩ := writeAll_sliced P key fs bsz.toNat (ceilDiv fs bsz).toNat hbpos
    chunks2 _ rnd1 rnd2 w1 w2 envs1 hs1 hlt1 h2
  obtain ⟨x1, x2⟩ := containerBytes_extend fs (bsz.toNat : Int) (ceilDiv fs bsz).toNat envs1
    more2 hs2.inv.count_le
  rw [← hs1.inv.content_eq, ← hs2.inv.content_eq] at x1 x2
  have i1 := IndexConsistent_of_inv _ _ _ _ _ _ hs1.inv
  have i2 := IndexConsistent_of_inv _ _ _ _ _ _ hs2.inv
  refine ⟨envs1, more2, i1, hs1.envelopes, i2, hs2.envelopes, x1, x2, ?_⟩
  intro w3 rnd3 h3
  obtain ⟨c1, c2⟩ := Close_sliced P key fs bsz.toNat (ceilDiv fs bsz).toNat _ rnd2 rnd3 w2 w3
    (envs1 ++ more2) hs2 h3
  by_cases hb : w2.buf = []
  · have e3 := c1 hb
    refine ⟨[], ?_, fun _ => ⟨rfl, e3⟩, fun h => absurd hb h, by rw [e3],
      by rw [e3, List.take_length]⟩
    rw [e3, List.append_nil]
    exact i2
  · obtain ⟨env, he, hinv3⟩ := c2 hb
    obtain ⟨y1, y2⟩ := containerBytes_extend fs (bsz.toNat : Int) (ceilDiv fs bsz).toNat
      (envs1 ++ more2) [env] hinv3.count_le
    rw [← hs2.inv.content_eq, ← hinv3.content_eq] at y1 y2
    exact ⟨[env], IndexConsistent_of_inv _ _ _ _ _ _ hinv3, fun h => absurd h hb,
      fun _ => ⟨env, rfl, he⟩, y1, y2⟩

theorem C16_index_payload_consistent_witness :
    ∃ (w0 w1 w2 w3 : FileBlockEncryptWriteStream) (rnd1 rnd2 rnd3 : RandSource)
      (envs1 more2 more3 : List Bytes),
      CreateFileBlockEncryptWriteStream.Initialize 5 2 key32 = (.ok (), w0)
        ∧ writeAll toyPrimitives [[1, 2, 3]] sampleRand w0 = some (.ok (), w1, rnd1)
        ∧ writeAll toyPrimitives [[4, 5]] rnd1 w1 = some (.ok (), w2, rnd2)
        ∧ w2.Close toyPrimitives rnd2 = (.ok (), w3, rnd3)
        ∧ IndexConsistent 3 envs1 w1
        ∧ (∀ i, i < envs1.length →
            IsEnvelopeOf toyPrimitives key32 (envs1.getD i []) (blockAt 2 [1, 2, 3] i))
        ∧ IndexConsistent 3 (envs1 ++ more2) w2
        ∧ (∀ i, i < (envs1 ++ more2).length →
            IsEnvelopeOf toyPrimitives key32 ((envs1 ++ more2).getD i [])
              (blockAt 2 [1, 2, 3, 4, 5] i))
        ∧ IndexConsistent 3 (envs1 ++ more2 ++ more3) w3
        ∧ w3.f.content.take (16 + 16 * (envs1 ++ more2).length)
          = w2.f.content.take (16 + 16 * (envs1 ++ more2).length) := by
  obtain ⟨w0, w2, w3, rnd2, rnd3, envs3, hinit, hw, hc, -, -⟩ :=
    writer_progress toyPrimitives key32 [1, 2, 3, 4, 5] 2 (by decide) (by norm_num)
      (by norm_num) (by decide)
      (by simp [containerLength, payloadLength, envelopeLength, blockCountOf, blockAt,
            toyPrimitives, List.range_succ])
      sampleRand (fun _ => rfl) [[1, 2, 3], [4, 5]] (by decide) (by decide)
      CreateFileBlockEncryptWriteStream
  obtain ⟨w1, rnd1, h1, h2⟩ :=
    writeAll_append toyPrimitives [[1, 2, 3]] [[4, 5]] sampleRand rnd2 w0 w2 hw
  obtain ⟨envs1, more2, i1, e1, i2, e2, -, -, hclose⟩ :=
    C16_index_payload_consistent toyPrimitives sampleRand rnd1 rnd2
      CreateFileBlockEncryptWriteStream w0 w1 w2 5 2 key32 [[1, 2, 3]] [[4, 5]]
      (by decide) (by decide) (by decide) (by decide) (by decide) hinit h1 h2
  obtain ⟨more3, i3, -, -, y1, -⟩ := hclose w3 rnd3 hc
  exact ⟨w0, w1, w2, w3, rnd1, rnd2, rnd3, envs1, more2, more3, hinit, h1, h2, hc, i1, e1, i2,
    e2, i3, y1⟩

/-! ## The pack container -/

theorem length_packBytes (n : Nat) (files : List Bytes) (h : files.length ≤ n) :
    (packBytes n files).length = 8 + 16 * n + files.flatten.length := by
  simp only [packBytes, List.length_append, length_PutUint64, length_indexBytes, length_zeros]
  omega

theorem packBytes_next (n : Nat) (files : List Bytes) (h : files.length < n) :
    packBytes n files
      = (PutUint64 n ++ indexBytes (8 + 16 * n) files) ++ zeros 8 ++ zeros 8
          ++ zeros (16 * (n - files.length - 1)) ++ files.flatten := by
  have hz : zeros (16 * (n - files.length))
      = zeros 8 ++ zeros 8 ++ zeros (16 * (n - files.length - 1)) := by
    simp only [zeros, List.append_replicate_replicate]
    congr 1
    omega
  simp only [packBytes, hz, List.append_assoc]

theorem packBytes_snoc (n : Nat) (files : List Bytes) (d : Bytes) (h : files.length < n) :
    packBytes n (files ++ [d])
      = (PutUint64 n ++ indexBytes (8 + 16 * n) files)
          ++ PutUint64 (8 + 16 * n + files.flatten.length) ++ PutUint64 d.length
          ++ zeros (16 * (n - files.length - 1)) ++ files.flatten ++ d := by
  simp only [packBytes, indexBytes_append, indexBytes, List.flatten_append, List.flatten_cons,
    List.flatten_nil, List.append_nil, List.length_append, List.length_cons, List.length_nil,
    List.append_assoc]
  have : n - (files.length + (0 + 1)) = n - files.length - 1 := by omega
  rw [this]

/-- Modelled pack writer: `Initialize` on the fresh stream writes the header and the
zeroed index. -/
theorem pack_Initialize_ok (n : Nat) (hfit : 8 + 16 * n < 2 ^ 63) :
    ∃ w, CreateMultiFilePackWriteStream.Initialize n = (.ok (), w) ∧ PackInv n [] w := by
  have hT : (OsFile.mk [] 0).Truncate ((8 + 16 * n : Nat) : Int)
      = (.ok (), OsFile.mk (zeros 8 ++ zeros (16 * n)) 0) := by
    have h0 : ¬ (((8 + 16 * n : Nat) : Int) < 0) := by omega
    have hz : zeros (8 + 16 * n) = zeros 8 ++ zeros (16 * n) := by
      simp only [zeros, List.append_replicate_replicate]
    simp only [OsFile.Truncate, h0, if_false, Int.toNat_ofNat, List.take_nil, List.nil_append,
      List.length_nil, Nat.sub_zero, hz]
  have hS : (OsFile.mk (zeros 8 ++ zeros (16 * n)) 0).Seek 0
      = (.ok (), OsFile.mk (zeros 8 ++ zeros (16 * n)) 0) := by
    simp [OsFile.Seek]
  have hW1 := Write_over (OsFile.mk (zeros 8 ++ zeros (16 * n)) 0) [] (zeros 8)
    (zeros (16 * n)) (PutUint64 n) (by simp) rfl (by simp) (by simp)
  have hW2 := Write_over (OsFile.mk (PutUint64 n ++ zeros (16 * n)) 8) (PutUint64 n)
    (zeros (16 * n)) [] (zeros (16 * n)) (by simp) (by simp) rfl
    (by simp only [length_PutUint64, length_zeros]; omega)
  simp only [List.nil_append, List.length_nil, Nat.zero_add, length_PutUint64, List.append_nil,
    length_zeros] at hW1 hW2
  refine ⟨{ f := OsFile.mk (PutUint64 n ++ zeros (16 * n)) (8 + 16 * n), file_count := n,
            current_write_index := 0, current_write_pt := 8 + 16 * n }, ?_, ?_⟩
  · simp only [MultiFilePackWriteStream.Initialize, CreateMultiFilePackWriteStream, hT, hS, hW1,
      hW2]
  · refine ⟨rfl, rfl, ?_, ?_, Nat.zero_le _⟩
    · simp only [List.length_append, length_PutUint64, length_zeros]
    · simp [packBytes, indexBytes]

/-- Modelled pack writer: with room in the file, `PutFile` appends the data and fills the
next index entry. -/
theorem PutFile_ok (n : Nat) (files : List Bytes) (w : MultiFilePackWriteStream) (d : Bytes)
    (hinv : PackInv n files w) (hlt : files.length < n)
    (hfit : 8 + 16 * n + files.flatten.length + d.length < 2 ^ 63) :
    ∃ w2, w.PutFile d = (.ok (), w2) ∧ PackInv n (files ++ [d]) w2 := by
  have hcap : ¬ (w.current_write_index ≥ w.file_count) := by
    rw [hinv.index_eq, hinv.file_count_eq]
    omega
  have hclen : w.f.content.length = 8 + 16 * n + files.flatten.length := by
    rw [hinv.content_eq, length_packBytes n files hinv.count_le]
  obtain ⟨pre, hpre⟩ : ∃ pre, pre = PutUint64 n ++ indexBytes (8 + 16 * n) files := ⟨_, rfl⟩
  have hprelen : pre.length = 8 + 16 * files.length := by
    rw [hpre]
    simp only [List.length_append, length_PutUint64, length_indexBytes]
  have hc : w.f.content = pre ++ zeros 8
      ++ (zeros 8 ++ (zeros (16 * (n - files.length - 1)) ++ files.flatten)) := by
    rw [hinv.content_eq, packBytes_next n files hlt, hpre]
    simp only [List.append_assoc]
  have s1 : w.f.Seek (w.current_write_pt : Int) = (.ok (), OsFile.mk w.f.content
      w.f.content.length) := by
    rw [Seek_ok _ _ (Int.ofNat_nonneg _), hinv.pt_eq]
    rfl
  have w1 := Write_append (OsFile.mk w.f.content w.f.content.length) d rfl
    (by simp only; rw [hclen]; omega)
  simp only at w1
  have s2 : (OsFile.mk (w.f.content ++ d) (w.f.content.length + d.length)).Seek
        ((8 + 16 * w.current_write_index : Nat) : Int)
      = (.ok (), OsFile.mk (w.f.content ++ d) (8 + 16 * files.length)) := by
    rw [Seek_ok _ _ (Int.ofNat_nonneg _), hinv.index_eq]
    rfl
  have hc2 : w.f.content ++ d = pre ++ zeros 8
      ++ (zeros 8 ++ (zeros (16 * (n - files.length - 1)) ++ files.flatten ++ d)) := by
    rw [hc]
    simp only [List.append_assoc]
  have w2 := Write_over (OsFile.mk (w.f.content ++ d) (8 + 16 * files.length)) pre (zeros 8)
    (zeros 8 ++ (zeros (16 * (n - files.length - 1)) ++ files.flatten ++ d))
    (PutUint64 w.current_write_pt) hc2 hprelen.symm (by simp)
    (by rw [hprelen, length_PutUint64]; omega)
  have w3 := Write_over
    (OsFile.mk (pre ++ PutUint64 w.current_write_pt
      ++ (zeros 8 ++ (zeros (16 * (n - files.length - 1)) ++ files.flatten ++ d)))
      (pre.length + (PutUint64 w.current_write_pt).length))
    (pre ++ PutUint64 w.current_write_pt) (zeros 8)
    (zeros (16 * (n - files.length - 1)) ++ files.flatten ++ d) (PutUint64 d.length)
    (by simp only [List.append_assoc]) (by simp) (by simp)
    (by simp only [List.length_append, hprelen, length_PutUint64]; omega)
  refine ⟨{ w with
            f := OsFile.mk (pre ++ PutUint64 w.current_write_pt ++ PutUint64 d.length
              ++ (zeros (16 * (n - files.length - 1)) ++ files.flatten ++ d))
              ((pre ++ PutUint64 w.current_write_pt).length + (PutUint64 d.length).length)
            current_write_index := w.current_write_index + 1
            current_write_pt := w.current_write_pt + d.length }, ?_, ?_⟩
  · simp only [MultiFilePackWriteStream.PutFile, hcap, if_false, s1, w1, s2, w2, w3]
  · refine ⟨hinv.file_count_eq, ?_, ?_, ?_, ?_⟩
    · show w.current_write_index + 1 = (files ++ [d]).length
      rw [hinv.index_eq, List.length_append, List.length_singleton]
    · show w.current_write_pt + d.length = _
      rw [hinv.pt_eq, hclen]
      simp only [List.length_append, hprelen, length_PutUint64, length_zeros]
      omega
    · show pre ++ PutUint64 w.current_write_pt ++ PutUint64 d.length
          ++ (zeros (16 * (n - files.length - 1)) ++ files.flatten ++ d) = _
      rw [packBytes_snoc n files d hlt, ← hpre, hinv.pt_eq, hclen]
      simp only [List.append_assoc]
    · rw [List.length_append, List.length_singleton]
      omega

/-- Modelled pack writer: putting the files one after the other succeeds while they are
no more than `file_count` and the file stays below `2^63` bytes. -/
theorem putAll_ok (n : Nat) (ds : List Bytes) :
    ∀ (files : List Bytes) (w : MultiFilePackWriteStream), PackInv n files w →
      files.length + ds.length ≤ n →
      8 + 16 * n + files.flatten.length + ds.flatten.length < 2 ^ 63 →
      ∃ w2, putAll ds w = (.ok (), w2) ∧ PackInv n (files ++ ds) w2 := by
  induction ds with
  | nil =>
    intro files w hinv _ _
    exact ⟨w, rfl, by rw [List.append_nil]; exact hinv⟩
  | cons d rest ih =>
    intro files w hinv hlen hfit
    simp only [List.length_cons] at hlen
    simp only [List.flatten_cons, List.length_append] at hfit
    obtain ⟨w1, h1, hinv1⟩ := PutFile_ok n files w d hinv (by omega) (by omega)
    obtain ⟨w2, h2, hinv2⟩ := ih (files ++ [d]) w1 hinv1
      (by rw [List.length_append, List.length_singleton]; omega)
      (by simp only [List.flatten_append, List.flatten_cons, List.flatten_nil, List.append_nil,
            List.length_append]; omega)
    refine ⟨w2, ?_, ?_⟩
    · simp only [putAll, h1, h2]
    · rw [List.append_assoc] at hinv2
      exact hinv2

/-- Where entry `|a|` of the index and its file `e` lie in the finished pack of the files
`a ++ e :: b`. -/
theorem pack_entry (a b : List Bytes) (e : Bytes) :
    ∃ pre1 rest1 pre3 rest3,
      packBytes (a ++ e :: b).length (a ++ e :: b)
          = pre1 ++ PutUint64 (8 + 16 * (a ++ e :: b).length + a.flatten.length)
              ++ (PutUint64 e.length ++ rest1)
        ∧ pre1.length = 8 + 16 * a.length
        ∧ packBytes (a ++ e :: b).length (a ++ e :: b) = pre3 ++ e ++ rest3
        ∧ pre3.length = 8 + 16 * (a ++ e :: b).length + a.flatten.length := by
  refine ⟨PutUint64 (a ++ e :: b).length ++ indexBytes (8 + 16 * (a ++ e :: b).length) a,
    indexBytes (8 + 16 * (a ++ e :: b).length + a.flatten.length + e.length) b
      ++ zeros (16 * ((a ++ e :: b).length - (a ++ e :: b).length)) ++ (a ++ e :: b).flatten,
    PutUint64 (a ++ e :: b).length
      ++ indexBytes (8 + 16 * (a ++ e :: b).length) (a ++ e :: b)
      ++ zeros (16 * ((a ++ e :: b).length - (a ++ e :: b).length)) ++ a.flatten,
    b.flatten, ?_, ?_, ?_, ?_⟩
  · simp only [packBytes, indexBytes_append, indexBytes, List.append_assoc]
  · simp only [List.length_append, length_PutUint64, length_indexBytes]
  · simp only [packBytes, List.flatten_append, List.flatten_cons, List.append_assoc]
  · simp only [List.length_append, length_PutUint64, length_indexBytes, length_zeros,
      Nat.sub_self, Nat.mul_zero, Nat.add_zero]

theorem Uint64_PutUint64_small (v : Nat) (h : v < 2 ^ 63) : Uint64 (PutUint64 v) = v := by
  rw [Uint64_PutUint64]
  omega

/-- Modelled pack reader: `GetFile(i)` on a finished pack returns file `i` and leaves
the content and the count as they are. -/
theorem GetFile_ok (files : List Bytes) (r : MultiFilePackReadStream)
    (hc : r.f.content = packBytes files.length files) (hcount : r.file_count = files.length)
    (hfit : 8 + 16 * files.length + files.flatten.length < 2 ^ 63) (i : Nat)
    (hi : i < files.length) :
    ∃ f2, r.GetFile (i : Int) = (.ok (files.getD i []), { r with f := f2 })
      ∧ f2.content = r.f.content := by
  have hsplit := split_at_getD files i hi
  obtain ⟨pre1, rest1, pre3, rest3, h1, hl1, h3, hl3⟩ :=
    pack_entry (files.take i) (files.drop (i + 1)) (files.getD i [])
  rw [← hsplit, ← hc] at h1 h3
  rw [← hsplit] at hl3
  have hln : (files.take i).length = i := by
    rw [List.length_take]
    omega
  rw [hln] at hl1
  have hclen : r.f.content.length = 8 + 16 * files.length + files.flatten.length := by
    rw [hc, length_packBytes _ _ (le_refl _)]
  have hstart : 8 + 16 * files.length + (files.take i).flatten.length
      + (files.getD i []).length ≤ r.f.content.length := by
    have := congrArg List.length h3
    simp only [List.length_append] at this
    omega
  have hbounds : ¬ ((i : Int) < 0 ∨ (i : Int) ≥ (r.file_count : Int)) := by
    rw [hcount]
    omega
  have s1 : r.f.Seek (8 + 16 * (i : Int)) = (.ok (), OsFile.mk r.f.content (8 + 16 * i)) := by
    rw [Seek_ok _ _ (by omega)]
    have : (8 + 16 * (i : Int)).toNat = 8 + 16 * i := by omega
    rw [this]
  have r1 := Read_exact (OsFile.mk r.f.content (8 + 16 * i)) pre1
    (PutUint64 (8 + 16 * files.length + (files.take i).flatten.length))
    (PutUint64 (files.getD i []).length ++ rest1) (zeros 8) h1 hl1.symm (by simp)
  have r2 := Read_exact
    (OsFile.mk r.f.content (pre1.length
      + (PutUint64 (8 + 16 * files.length + (files.take i).flatten.length)).length))
    (pre1 ++ PutUint64 (8 + 16 * files.length + (files.take i).flatten.length))
    (PutUint64 (files.getD i []).length) rest1 (zeros 8)
    (by rw [h1]; simp only [List.append_assoc]) (by simp) (by simp)
  have hpt := Uint64_PutUint64_small
    (8 + 16 * files.length + (files.take i).flatten.length) (by omega)
  have hl := Uint64_PutUint64_small (files.getD i []).length (by omega)
  have s2 : (OsFile.mk r.f.content
        ((pre1 ++ PutUint64 (8 + 16 * files.length
            + (files.take i).flatten.length)).length
          + (PutUint64 (files.getD i []).length).length)).Seek
        ((8 + 16 * files.length + (files.take i).flatten.length : Nat) : Int)
      = (.ok (), OsFile.mk r.f.content
          (8 + 16 * files.length + (files.take i).flatten.length)) := by
    rw [Seek_ok _ _ (Int.ofNat_nonneg _)]
    rfl
  have r3 := Read_exact
    (OsFile.mk r.f.content (8 + 16 * files.length + (files.take i).flatten.length))
    pre3 (files.getD i []) rest3 (zeros (files.getD i []).length) h3 hl3.symm (by simp)
  refine ⟨OsFile.mk r.f.content (pre3.length + (files.getD i []).length), ?_, rfl⟩
  simp only at r1 r2 r3
  simp only [MultiFilePackReadStream.GetFile, hbounds, if_false, s1, r1, r2, hpt, hl, s2, r3]

/-- Modelled pack reader: the files come back whatever the order of the requests. -/
theorem getAll_ok (files : List Bytes)
    (hfit : 8 + 16 * files.length + files.flatten.length < 2 ^ 63) (order : List Nat) :
    ∀ (r : MultiFilePackReadStream), r.f.content = packBytes files.length files →
      r.file_count = files.length → (∀ i ∈ order, i < files.length) →
      getAll r (order.map Int.ofNat) = order.map (fun i => Res.ok (files.getD i [])) := by
  induction order with
  | nil => intro r _ _ _; rfl
  | cons i rest ih =>
    intro r hc hcount hord
    obtain ⟨f2, hg, hf2⟩ := GetFile_ok files r hc hcount hfit i (hord i (by simp))
    have hg2 : r.GetFile (Int.ofNat i) = (.ok (files.getD i []), { r with f := f2 }) := hg
    simp only [List.map_cons, getAll, hg2]
    rw [ih { r with f := f2 } (by rw [← hc]; exact hf2) hcount
      (fun j hj => hord j (List.mem_cons_of_mem _ hj))]

/-- Claim C13. Pack container round trip, on the pack container modelled from the
specification: after `Initialize(n)`, `n` `PutFile` calls with the data `d_0 .. d_(n-1)`
and `Close`, all of which succeed when the file stays below `2^63` bytes, a pack reader
opened on the result reports `FileCount() = n`, and `GetFile(i)` returns exactly `d_i`
for the indices `i < n` of any sequence of requests. -/
theorem C13_pack_round_trip (files : List Bytes)
    (hfit : 8 + 16 * files.length + files.flatten.length < 2 ^ 63) (order : List Nat)
    (horder : ∀ i ∈ order, i < files.length) :
    ∃ w1 w2 w3 r, CreateMultiFilePackWriteStream.Initialize files.length = (.ok (), w1)
      ∧ putAll files w1 = (.ok (), w2)
      ∧ w2.Close = (.ok (), w3)
      ∧ CreateMultiFilePackReadStream (OsFile.mk w3.f.content 0) = .ok r
      ∧ r.FileCount = files.length
      ∧ getAll r (order.map Int.ofNat) = order.map (fun i => Res.ok (files.getD i [])) := by
  obtain ⟨w1, hI, hinv1⟩ := pack_Initialize_ok files.length (by omega)
  obtain ⟨w2, hP, hinv2⟩ := putAll_ok files.length files [] w1 hinv1 (by simp)
    (by simpa using hfit)
  rw [List.nil_append] at hinv2
  have hc := hinv2.content_eq
  have hR := Read_exact (OsFile.mk w2.f.content 0) [] (PutUint64 files.length)
    (indexBytes (8 + 16 * files.length) files
      ++ zeros (16 * (files.length - files.length)) ++ files.flatten) (zeros 8)
    (by rw [hc]; simp only [packBytes, List.nil_append, List.append_assoc]) rfl (by simp)
  simp only [List.length_nil, Nat.zero_add, length_PutUint64] at hR
  have hcnt := Uint64_PutUint64_small files.length (by omega)
  refine ⟨w1, w2, w2, { f := OsFile.mk w2.f.content 8, file_count := files.length }, hI, hP,
    rfl, ?_, rfl, ?_⟩
  · simp only [CreateMultiFilePackReadStream, hR, hcnt]
  · exact getAll_ok files hfit order _ hc rfl horder

theorem C13_pack_round_trip_witness :
    ∃ w1 w2 w3 r, CreateMultiFilePackWriteStream.Initialize 3 = (.ok (), w1)
      ∧ putAll [[1, 2], [3], [4, 5, 6]] w1 = (.ok (), w2)
      ∧ w2.Close = (.ok (), w3)
      ∧ CreateMultiFilePackReadStream (OsFile.mk w3.f.content 0) = .ok r
      ∧ r.FileCount = 3
      ∧ getAll r [2, 0, 1, 2] = [.ok [4, 5, 6], .ok [1, 2], .ok [3], .ok [4, 5, 6]] :=
  C13_pack_round_trip [[1, 2], [3], [4, 5, 6]] (by decide) [2, 0, 1, 2] (by decide)

/-! ## The length field beyond `2^32` -/

theorem take_add_padding_le (d : Bytes) (k : Nat) (h : k ≤ d.length) :
    (add_padding d 16).take k = d.take k := by
  unfold add_padding
  exact List.take_append_of_le_length h

/-- The envelope `encryptBody` builds for `final_data` of any length: the length field
holds the length modulo `2^32`, and that many bytes come back. -/
theorem decryptBody_encryptBody_mod (P : Primitives) (hP : P.Lawful)
    (r tag final_data key : Bytes) (h2 : tag.length = 2) (hk : aesKeyOk key = true) :
    ∃ env, encryptBody P (some r) tag final_data key = .ok env
      ∧ slice env 0 2 = tag ∧ 2 ≤ env.length
      ∧ Uint32 (slice env 2 6) = final_data.length % 2 ^ 32
      ∧ decryptBody P env key = .ok (final_data.take (final_data.length % 2 ^ 32)) := by
  have hiv := length_randIv r
  have hpad := add_padding_mod final_data
  have hpl := length_add_padding final_data
  have hmod : final_data.length % 2 ^ 32 ≤ final_data.length := Nat.mod_le _ _
  have hct : copyBytes (zeros (add_padding final_data 16).length)
      (P.cbcEncrypt key (copyBytes (zeros 16) r) (add_padding final_data 16))
      = P.cbcEncrypt key (copyBytes (zeros 16) r) (add_padding final_data 16) :=
    copyBytes_eq_of_length _ _ (by rw [hP.enc_length _ _ _ hk hiv hpad, length_zeros])
  have hctl := hP.enc_length key _ _ hk hiv hpad
  refine ⟨_, encryptBody_ok P r tag final_data key hk, ?_, ?_, ?_, ?_⟩
  · exact (envelope_fields tag _ _ _ h2 (length_PutUint32 _) hiv).1
  · simp only [List.length_append, h2]
    omega
  · rw [(envelope_fields tag _ _ _ h2 (length_PutUint32 _) hiv).2.1, Uint32_PutUint32]
  · rw [hct, decryptBody_envelope P tag _ _ _ key h2 (length_PutUint32 _) hiv
      (by rw [hctl]; exact hpad) (by rw [hctl, hpl]; omega)
      (by rw [Uint32_PutUint32, hctl, hpl]; omega) hk]
    rw [copyBytes_eq_of_length _ _ (by
      rw [hP.dec_length _ _ _ hk hiv (by rw [hctl]; exact hpad), length_zeros])]
    rw [hP.dec_enc _ _ _ hk hiv hpad, Uint32_PutUint32, take_add_padding_le _ _ hmod]

/-- Claim C21. The 4-byte length field wraps silently: for non-empty data of any length,
a valid method and a 32-byte key, `EncryptFileContents` returns an envelope (it rejects
no length) whose length field holds the pre-padding length `L` modulo `2^32`; for
`AES256_FLAT`, `DecryptFileContents` of that envelope succeeds and returns the first
`L mod 2^32` bytes of the data, which is not the data when `L ≥ 2^32` and is the empty
sequence when `L = 2^32`. The primitives are lawful. -/
theorem C21_length_field_wraps (P : Primitives) (hP : P.Lawful) (d key r : Bytes)
    (method : Nat) (hm : method = AES256_ZIP ∨ method = AES256_FLAT) (hk : key.length = 32)
    (hd : d ≠ []) :
    ∃ env, EncryptFileContents P (some r) d method key = .ok env
      ∧ Uint32 (slice env 2 6)
          = (if method = AES256_ZIP then (P.deflate d).length else d.length) % 2 ^ 32
      ∧ (method = AES256_FLAT →
          DecryptFileContents P env key = .ok (d.take (d.length % 2 ^ 32))
            ∧ (2 ^ 32 ≤ d.length → d.take (d.length % 2 ^ 32) ≠ d)
            ∧ (d.length = 2 ^ 32 → DecryptFileContents P env key = .ok [])) := by
  have hkey := aesKeyOk_of_32 key hk
  have hd0 : ¬ d.length = 0 := fun h => hd (List.length_eq_zero.mp h)
  have hne : ¬ (AES256_FLAT = AES256_ZIP) := by decide
  rcases hm with hm | hm
  · subst hm
    obtain ⟨env, he, -, -, hf, -⟩ :=
      decryptBody_encryptBody_mod P hP r (PutUint16 AES256_ZIP) (P.deflate d) key rfl hkey
    refine ⟨env, by simp [EncryptFileContents, hd0, he], by simpa using hf, ?_⟩
    intro h
    exact absurd h.symm hne
  · subst hm
    obtain ⟨env, he, htag, hlen, hf, hdec⟩ :=
      decryptBody_encryptBody_mod P hP r (PutUint16 AES256_FLAT) d key rfl hkey
    have h1 : ¬ env.length < 2 := by omega
    have h2 : Uint16 (PutUint16 AES256_FLAT) = AES256_FLAT := by decide
    have hD : DecryptFileContents P env key = .ok (d.take (d.length % 2 ^ 32)) := by
      simp only [DecryptFileContents, h1, if_false, htag, h2, hne, if_true, hdec]
    refine ⟨env, by simp [EncryptFileContents, hd0, hne, he], by simp only [hne, if_false]; exact hf,
      fun _ => ⟨hD, ?_, ?_⟩⟩
    · intro hbig heq
      have hl := congrArg List.length heq
      rw [List.length_take] at hl
      have hlt : d.length % 2 ^ 32 < 2 ^ 32 := Nat.mod_lt _ (by decide)
      omega
    · intro h32
      rw [hD, h32, Nat.mod_self, List.take_zero]

theorem C21_length_field_wraps_witness :
    ∃ env, EncryptFileContents toyPrimitives (some (zeros 16)) (List.replicate (2 ^ 32) 0)
          AES256_FLAT key32 = .ok env
      ∧ DecryptFileContents toyPrimitives env key32 = .ok [] := by
  have hlen : (List.replicate (2 ^ 32) (0 : UInt8)).length = 2 ^ 32 := List.length_replicate _ _
  have hne : List.replicate (2 ^ 32) (0 : UInt8) ≠ [] := by
    intro h
    rw [h] at hlen
    exact absurd hlen (by decide)
  obtain ⟨env, he, -, hdec⟩ :=
    C21_length_field_wraps toyPrimitives toyPrimitives_lawful (List.replicate (2 ^ 32) 0) key32
      (zeros 16) AES256_FLAT (Or.inr rfl) (by decide) hne
  exact ⟨env, he, (hdec rfl).2.2 hlen⟩

/-! ## A `Read` that fails half-way -/

set_option maxRecDepth 8000 in
/-- Claim C22. A failed `Read` is not atomic: on the container `corruptContainer` (four
bytes in blocks of 2, the second block unreadable) a `Read` into a three-byte buffer at
cursor 0 copies the two bytes of block 0, then fails to fetch block 1 and returns
`(0, error)`; the cursor has advanced by 2 and the first two bytes of the buffer are
overwritten. So the count returned is not the advance of the cursor, and an error does
not mean the cursor is unchanged. -/
theorem C22_failed_read_not_atomic :
    ∃ r r2, CreateFileBlockEncryptReadStream (OsFile.mk corruptContainer 0) key32 = .ok r
      ∧ r.Cursor = 0
      ∧ r.Read toyPrimitives 4 [0, 0, 0] = some (.error .invalidMethod, r2, [1, 2, 0])
      ∧ r2.Cursor = r.Cursor + 2 := by
  have hR := CreateFileBlockEncryptReadStream_ok
    (indexBytes (16 + 16 * 2) [sampleEnvelope [1, 2], [0, 9]]
      ++ zeros (16 * (2 - ([sampleEnvelope [1, 2], [0, 9]] : List Bytes).length))
      ++ ([sampleEnvelope [1, 2], [0, 9]] : List Bytes).flatten) key32 4 2 (by decide)
    (by decide) (by decide) (by decide)
  have hcd : ceilDiv 4 2 = 2 := by decide
  have hcc : PutUint64 (4 : Int).toNat ++ PutUint64 (2 : Int).toNat
      ++ (indexBytes (16 + 16 * 2) [sampleEnvelope [1, 2], [0, 9]]
        ++ zeros (16 * (2 - ([sampleEnvelope [1, 2], [0, 9]] : List Bytes).length))
        ++ ([sampleEnvelope [1, 2], [0, 9]] : List Bytes).flatten) = corruptContainer := by
    simp only [corruptContainer, containerBytes, List.append_assoc]
  rw [hcc, hcd] at hR
  have h1 : (FileBlockEncryptReadStream.Read toyPrimitives 4
        { f := OsFile.mk corruptContainer 16, file_size := 4, block_size := 2,
          block_count := 2, key := key32, cur_pos := 0, cur_block := -1,
          cur_block_data := [] } [0, 0, 0]).map (fun o => (o.1, o.2.1.cur_pos, o.2.2))
      = some (.error .invalidMethod, 2, [1, 2, 0]) := by
    decide
  cases hr : FileBlockEncryptReadStream.Read toyPrimitives 4
      { f := OsFile.mk corruptContainer 16, file_size := 4, block_size := 2,
        block_count := 2, key := key32, cur_pos := 0, cur_block := -1,
        cur_block_data := [] } [0, 0, 0] with
  | none =>
    rw [hr] at h1
    simp at h1
  | some out =>
    obtain ⟨res, r2, buf2⟩ := out
    rw [hr] at h1
    simp only [Option.map_some', Option.some.injEq, Prod.mk.injEq] at h1
    obtain ⟨e1, e2, e3⟩ := h1
    refine ⟨_, r2, hR, rfl, ?_, ?_⟩
    · rw [hr, e1, e3]
    · show r2.cur_pos = 0 + 2
      rw [e2]
      rfl

end EncryptedStorage
